import Mathlib

/-!
# Neural geometry field loader, GPU packing, render loop and viewer

A shallow embedding of the NGF load block, the base mesh block, the buffer
packing block and the render loop of `main` in `src/rasterizer/main.cpp`, and
of the mesh table of `Viewer` in `src/viewer.cpp`.

Conventions of the embedding:

* a byte is a `Fin 256`; the input file is the list of its bytes;
* a `float` is carried as its 32-bit pattern (`F32`): the blocks modelled here
  only move floats around, they never compute with them;
* an `int32_t` is an `Int`; 32-bit products are wrapped with `wrap32`, the
  conversion to `uint32_t` is `toU32`;
* memory is little-endian (the file format is little-endian and the loader
  reads raw bytes into the objects);
* `std::vector::resize` of a fresh vector fills it with zero bytes; a negative
  `int32_t` count converts to a `size_t` above `max_size()` and throws
  `std::length_error`; allocation of a representable count succeeds;
* the render loop is the sequence of the operations it performs, one pass per
  set of answers of the environment (results of acquisition and presentation,
  clicks);
* a read past the end of a vector is undefined: the function has no result.
-/

set_option maxRecDepth 100000

namespace Nsc

/-! # Definitions -/

/-! ## Machine values -/

/-- One byte of the file or of memory. -/
abbrev Byte := Fin 256

/-- The 32-bit pattern of a `float`. -/
abbrev F32 := Fin 4294967296

/-- Conversion of an integer to `uint32_t` (reduction modulo 2^32). -/
def toU32 (i : Int) : Nat := (i % 4294967296).toNat

/-- The `int32_t` with the given 32-bit pattern (two's complement). -/
def toInt32 (n : Nat) : Int :=
  if n % 4294967296 < 2147483648 then ((n % 4294967296 : Nat) : Int)
  else ((n % 4294967296 : Nat) : Int) - 4294967296

/-- The result of a 32-bit signed operation whose mathematical value is `i`. -/
def wrap32 (i : Int) : Int := toInt32 (toU32 i)

/-- The 32-bit word stored little-endian at byte offset `off` of `bs`
(bytes past the end of `bs` count as zero). -/
def getU32 (bs : List Byte) (off : Nat) : Nat :=
  (bs.getD off 0).val + 256 * (bs.getD (off + 1) 0).val
    + 65536 * (bs.getD (off + 2) 0).val + 16777216 * (bs.getD (off + 3) 0).val

/-- The `int32_t` stored at byte offset `off`. -/
def getI32 (bs : List Byte) (off : Nat) : Int := toInt32 (getU32 bs off)

/-- The `float` stored at byte offset `off`. -/
def getF32 (bs : List Byte) (off : Nat) : F32 :=
  ⟨getU32 bs off, by
    unfold getU32
    have h0 := (bs.getD off 0).isLt
    have h1 := (bs.getD (off + 1) 0).isLt
    have h2 := (bs.getD (off + 2) 0).isLt
    have h3 := (bs.getD (off + 3) 0).isLt
    omega⟩

/-! ## Data model -/

/-- A `glm::vec3`. -/
structure Vec3 where
  x : F32
  y : F32
  z : F32
deriving DecidableEq

/-- A `glm::vec4`. -/
structure Vec4 where
  x : F32
  y : F32
  z : F32
  w : F32
deriving DecidableEq

/-- A `glm::ivec4`; the components lie in memory in the order x, y, z, w. -/
structure IVec4 where
  x : Int
  y : Int
  z : Int
  w : Int
deriving DecidableEq

/-- A `glm::uvec3`. -/
structure UVec3 where
  x : Nat
  y : Nat
  z : Nat
deriving DecidableEq

/-- The constant `LAYERS` of `main`. -/
def LAYERS : Nat := 4

/-- The local `struct Tensor` of `main`. -/
structure Tensor where
  vec : List F32
  width : Int
  height : Int
deriving DecidableEq

/-- The local `struct NGF` of `main`; `weights` and `biases` are the two
`std::array <Tensor, LAYERS>`. -/
structure NGF where
  patches : List IVec4
  vertices : List Vec4
  features : List F32
  patch_count : Nat
  feature_size : Nat
  weights : List Tensor
  biases : List Tensor
deriving DecidableEq

/-! ## Reinterpreting byte buffers -/

/-- A buffer of `n` zero bytes (the storage of a freshly resized vector). -/
def zeros (n : Nat) : List Byte := List.replicate n 0

/-- The first `n` floats of a byte buffer (`std::vector <float>` storage). -/
def floats : Nat → List Byte → List F32
  | 0, _ => []
  | n + 1, bs => getF32 bs 0 :: floats n (bs.drop 4)

/-- The first `n` packed `glm::vec3` of a byte buffer (12 bytes each). -/
def vec3s : Nat → List Byte → List Vec3
  | 0, _ => []
  | n + 1, bs => ⟨getF32 bs 0, getF32 bs 4, getF32 bs 8⟩ :: vec3s n (bs.drop 12)

/-- The first `n` `glm::ivec4` of a byte buffer (16 bytes each). -/
def ivec4s : Nat → List Byte → List IVec4
  | 0, _ => []
  | n + 1, bs =>
    ⟨getI32 bs 0, getI32 bs 4, getI32 bs 8, getI32 bs 12⟩ :: ivec4s n (bs.drop 16)

/-! ## The input stream -/

/-- The state of the `std::ifstream`: the bytes not yet extracted and whether
the stream is still good (no failbit or eofbit). -/
structure IStream where
  data : List Byte
  good : Bool
deriving DecidableEq

/-- The call `fin.read(dst, n)` into a destination that currently holds the
bytes `dst`: on a good stream the available bytes, at most `n`, overwrite the
start of the destination and the stream fails when fewer than `n` were
available; on a failed stream nothing is extracted. -/
def IStream.read (fin : IStream) (dst : List Byte) (n : Nat) : List Byte × IStream :=
  if fin.good then
    ((fin.data.take n) ++ dst.drop (fin.data.take n).length,
      { data := fin.data.drop n, good := decide (n ≤ fin.data.length) })
  else (dst, fin)

/-- The call `fin.read` of `n` bytes into an uninitialised local array whose
elements are all used afterwards: `none` when the read is incomplete, since
the program then uses an indeterminate value. -/
def IStream.readLocal (fin : IStream) (n : Nat) : Option (List Byte × IStream) :=
  if fin.good ∧ n ≤ fin.data.length then
    some (fin.data.take n, { data := fin.data.drop n, good := true })
  else none

/-- The element count `std::vector::resize` receives from an `int32_t`:
`none` when the count is negative (`std::length_error`). The allocation of a
count that is not negative is taken to succeed: the model has no
`std::bad_alloc`. -/
def vecSize (n : Int) : Option Nat := if 0 ≤ n then some n.toNat else none

/-! ## The NGF load block -/

/-- Why the process terminated inside the load block. -/
inductive Fatal where
  | assertion
  | lengthError
deriving DecidableEq

/-- How the load block ends: it runs to completion, the process terminates
(with `ngf` as it stood at that moment), or the program uses an
indeterminate value. -/
inductive Outcome where
  | loaded (ngf : NGF)
  | fatal (cause : Fatal) (ngf : NGF)
  | undefined
deriving DecidableEq

/-- What stops one of the two tensor loops. -/
inductive Abort where
  | lengthError
  | indeterminate
deriving DecidableEq

/-- The weight loop, `k` iterations: two sizes, then `sizes[0] * sizes[1]`
floats. -/
def readWeights : Nat → IStream → Except Abort (List Tensor × IStream)
  | 0, fin => .ok ([], fin)
  | k + 1, fin =>
    match fin.readLocal 8 with
    | none => .error .indeterminate
    | some (sizes, fin) =>
      match vecSize (wrap32 (getI32 sizes 0 * getI32 sizes 4)) with
      | none => .error .lengthError
      | some len =>
        match readWeights k (fin.read (zeros (len * 4)) (len * 4)).2 with
        | .error e => .error e
        | .ok (ts, fin') =>
          .ok ({ vec := floats len (fin.read (zeros (len * 4)) (len * 4)).1,
                 width := getI32 sizes 0, height := getI32 sizes 4 } :: ts, fin')

/-- The bias loop, `k` iterations: one size, then `size` floats. -/
def readBiases : Nat → IStream → Except Abort (List Tensor × IStream)
  | 0, fin => .ok ([], fin)
  | k + 1, fin =>
    match fin.readLocal 4 with
    | none => .error .indeterminate
    | some (size, fin) =>
      match vecSize (getI32 size 0) with
      | none => .error .lengthError
      | some len =>
        match readBiases k (fin.read (zeros (len * 4)) (len * 4)).2 with
        | .error e => .error e
        | .ok (ts, fin') =>
          .ok ({ vec := floats len (fin.read (zeros (len * 4)) (len * 4)).1,
                 width := getI32 size 0, height := 1 } :: ts, fin')

/-- The outcome of a stopped tensor loop. -/
def Outcome.ofAbort (ngf : NGF) : Abort → Outcome
  | .lengthError => .fatal .lengthError ngf
  | .indeterminate => .undefined

/-- The `glm::vec4(v, 0.0f)` of the vertex expansion loop. -/
def pad (v : Vec3) : Vec4 := ⟨v.x, v.y, v.z, 0⟩

/-- The second half of the load block, from the weight loop to the vertex
expansion loop: `patches`, `vertices`, `features` are the three local vectors
already read. -/
def loadTensors (ngf : NGF) (patches : List IVec4) (vertices : List Vec3)
    (features : List F32) (fin : IStream) : Outcome :=
  match readWeights LAYERS fin with
  | .error e => Outcome.ofAbort ngf e
  | .ok (weights, fin) =>
    match readBiases LAYERS fin with
    | .error e => Outcome.ofAbort ngf e
    | .ok (biases, _) =>
      .loaded { ngf with
        patches := patches
        features := features
        weights := weights
        biases := biases
        vertices := vertices.map pad }

/-- Modelled from the spec: the macro `ulog_assert` of `microlog.h`, a header
the sources do not contain. A failed assertion is fatal: the process
terminates there, with `ngf` as it stands; otherwise the program goes on
with `next`. -/
def ulog_assert (cond : Bool) (ngf : NGF) (next : Outcome) : Outcome :=
  if cond then next else .fatal .assertion ngf

/-- The NGF load block of `main`, on the variable `ngf` and the stream `fin`. -/
def load (ngf : NGF) (fin : IStream) : Outcome :=
  ulog_assert fin.good ngf <|
  match fin.readLocal 12 with
  | none => .undefined
  | some (sizes, fin) =>
    match vecSize (getI32 sizes 0), vecSize (getI32 sizes 4),
        vecSize (wrap32 (getI32 sizes 4 * getI32 sizes 8)) with
    | some np, some nv, some nf =>
      let ngf := { ngf with patch_count := toU32 (getI32 sizes 0),
                            feature_size := toU32 (getI32 sizes 8) }
      ulog_assert (decide (ngf.feature_size = 20)) ngf <|
      let rv := fin.read (zeros (nv * 12)) (nv * 12)
      let rf := rv.2.read (zeros (nf * 4)) (nf * 4)
      let rp := rf.2.read (zeros (np * 16)) (np * 16)
      loadTensors ngf (ivec4s np rp.1) (vec3s nv rv.1) (floats nf rf.1) rp.2
    | _, _, _ => .fatal .lengthError ngf

/-! ## The file format -/

/-- The byte with value `n mod 256`. -/
def byte (n : Nat) : Byte := ⟨n % 256, Nat.mod_lt n (by decide)⟩

/-- The four bytes of a 32-bit word, least significant first. -/
def u32Bytes (n : Nat) : List Byte :=
  [byte n, byte (n / 256), byte (n / 65536), byte (n / 16777216)]

/-- The little-endian bytes of an `int32`. -/
def i32Bytes (i : Int) : List Byte := u32Bytes (toU32 i)

/-- The little-endian bytes of a `float32`. -/
def f32Bytes (f : F32) : List Byte := u32Bytes f.val

/-- A packed 3-float position. -/
def vec3Bytes (v : Vec3) : List Byte := f32Bytes v.x ++ f32Bytes v.y ++ f32Bytes v.z

/-- A patch vertex-index quad. -/
def ivec4Bytes (p : IVec4) : List Byte :=
  i32Bytes p.x ++ i32Bytes p.y ++ i32Bytes p.z ++ i32Bytes p.w

/-- A block of floats. -/
def floatBytes (fs : List F32) : List Byte := fs.flatMap f32Bytes

/-- A weight matrix record: `int32 width, height; float32[width*height]`. -/
def weightBytes (t : Tensor) : List Byte :=
  i32Bytes t.width ++ i32Bytes t.height ++ floatBytes t.vec

/-- A bias vector record: `int32 size; float32[size]`; the size is carried in
`width`. -/
def biasBytes (t : Tensor) : List Byte := i32Bytes t.width ++ floatBytes t.vec

/-- The values an NGF file is written from, one field per line of the file
format. -/
structure NGFFile where
  patch_count : Int
  vertex_count : Int
  feature_size : Int
  positions : List Vec3
  features : List F32
  patches : List IVec4
  weights : List Tensor
  biases : List Tensor
deriving DecidableEq

/-- The byte stream of the NGF binary file format that holds the values of
`f`: the fields little-endian, in the order of the format (three sizes,
positions, features, patches, weight records, bias records). -/
def encode (f : NGFFile) : List Byte :=
  i32Bytes f.patch_count ++ i32Bytes f.vertex_count ++ i32Bytes f.feature_size
    ++ f.positions.flatMap vec3Bytes ++ floatBytes f.features
    ++ f.patches.flatMap ivec4Bytes
    ++ f.weights.flatMap weightBytes ++ f.biases.flatMap biasBytes

/-- The variable `ngf` after a complete load of the file `f`: every field has
been assigned. -/
def decoded (f : NGFFile) : NGF :=
  { patches := f.patches
    vertices := f.positions.map pad
    features := f.features
    patch_count := toU32 f.patch_count
    feature_size := toU32 f.feature_size
    weights := f.weights
    biases := f.biases }

/-- The variable `ngf` as `main` declares it, with `pc` and `fs` the values
the two uninitialised counters happen to hold. -/
def ngfInit (pc fs : Nat) : NGF :=
  { patches := [], vertices := [], features := [], patch_count := pc, feature_size := fs,
    weights := List.replicate LAYERS ⟨[], 0, 0⟩, biases := List.replicate LAYERS ⟨[], 0, 0⟩ }

/-! ## Representable sizes and records -/

/-- The integer is representable as an `int32`. -/
abbrev IsI32 (i : Int) : Prop := -2147483648 ≤ i ∧ i < 2147483648

/-- All four components of the quad are representable as `int32`. -/
abbrev IVec4.IsI32 (p : IVec4) : Prop :=
  Nsc.IsI32 p.x ∧ Nsc.IsI32 p.y ∧ Nsc.IsI32 p.z ∧ Nsc.IsI32 p.w

/-- A weight record that the weight loop reads back unchanged: the sizes are
`int32` values and the record holds as many floats as the 32-bit product of
the sizes. -/
abbrev Tensor.WeightOK (t : Tensor) : Prop :=
  IsI32 t.width ∧ IsI32 t.height ∧ wrap32 (t.width * t.height) = (t.vec.length : Int)

/-- A bias record that the bias loop reads back unchanged. -/
abbrev Tensor.BiasOK (t : Tensor) : Prop :=
  IsI32 t.width ∧ t.width = (t.vec.length : Int) ∧ t.height = 1

/-! ## Files and streams the load block completes on -/

/-- The variable `ngf` after lines 509 and 510: the two counters written. -/
def withCounts (ngf : NGF) (s0 s2 : Int) : NGF :=
  { ngf with patch_count := toU32 s0, feature_size := toU32 s2 }

/-- The file is one the loader reads back field by field: every size and index
is an `int32` value, the three counts match the lists, the 32-bit products of
the loader give the numbers of floats that the file holds, and there are
`LAYERS` weight and bias records. -/
structure NGFFile.Readable (f : NGFFile) : Prop where
  patch_count_eq : f.patch_count = (f.patches.length : Int)
  patch_count_lt : f.patch_count < 2147483648
  vertex_count_eq : f.vertex_count = (f.positions.length : Int)
  vertex_count_lt : f.vertex_count < 2147483648
  feature_size_eq : f.feature_size = 20
  features_eq : wrap32 (f.vertex_count * f.feature_size) = (f.features.length : Int)
  patches_i32 : ∀ p ∈ f.patches, p.IsI32
  weights_length : f.weights.length = LAYERS
  weights_ok : ∀ t ∈ f.weights, t.WeightOK
  biases_length : f.biases.length = LAYERS
  biases_ok : ∀ t ∈ f.biases, t.BiasOK

/-- The facts about a stream on which the load block runs to completion. -/
structure Loaded (fin : IStream) (ngf : NGF) (np nv nf : Nat) : Prop where
  good : fin.good = true
  patch_count_eq : getI32 fin.data 0 = (np : Int)
  vertex_count_eq : getI32 fin.data 4 = (nv : Int)
  feature_size_eq : getI32 fin.data 8 = 20
  features_eq : wrap32 ((nv : Int) * 20) = (nf : Int)
  size_le : 12 + nv * 12 + nf * 4 + np * 16 ≤ fin.data.length
  ngf_patch_count : ngf.patch_count = np
  ngf_feature_size : ngf.feature_size = 20
  ngf_vertices : ngf.vertices = (vec3s nv (fin.data.drop 12)).map pad
  ngf_features : ngf.features = floats nf (fin.data.drop (12 + nv * 12))
  ngf_patches : ngf.patches = ivec4s np (fin.data.drop (12 + nv * 12 + nf * 4))
  ngf_tensors : ∃ fin1 fin2,
    readWeights LAYERS ⟨fin.data.drop (12 + nv * 12 + nf * 4 + np * 16), true⟩
      = .ok (ngf.weights, fin1) ∧
    readBiases LAYERS fin1 = .ok (ngf.biases, fin2)

/-- A result of a tensor loop after which the load block cannot complete: the
loop used an indeterminate size, or it left the stream failed, so that the
next size is not read. -/
def Doomed (r : Except Abort (List Tensor × IStream)) : Prop :=
  r = .error .indeterminate ∨ ∃ ts d, r = .ok (ts, ⟨d, false⟩)

/-! ## Files of the round trip -/

/-- The `glm::vec3` made of the first three components of a `glm::vec4`. -/
def Vec4.xyz (v : Vec4) : Vec3 := ⟨v.x, v.y, v.z⟩

/-- The files of the round-trip property: non-negative `int32` counts that
match the lists, feature size 20, `vertex_count * feature_size` feature
floats, `int32` patch indices, four weight records with `width * height`
floats and four bias records with `size` floats. -/
structure NGFFile.WellFormed (f : NGFFile) : Prop where
  patch_count_eq : f.patch_count = (f.patches.length : Int)
  patch_count_lt : f.patch_count < 2147483648
  vertex_count_eq : f.vertex_count = (f.positions.length : Int)
  vertex_count_lt : f.vertex_count < 2147483648
  feature_size_eq : f.feature_size = 20
  features_length : (f.features.length : Int) = f.vertex_count * f.feature_size
  patches_i32 : ∀ p ∈ f.patches, p.IsI32
  weights_length : f.weights.length = 4
  weights_shape : ∀ t ∈ f.weights,
    IsI32 t.width ∧ IsI32 t.height ∧ (t.vec.length : Int) = t.width * t.height
  biases_length : f.biases.length = 4
  biases_shape : ∀ t ∈ f.biases,
    IsI32 t.width ∧ (t.vec.length : Int) = t.width ∧ t.height = 1

/-- None of the 32-bit products the loader computes from the sizes of the file
exceeds the largest `int32`. -/
structure NGFFile.NoOverflow (f : NGFFile) : Prop where
  features_lt : f.vertex_count * f.feature_size < 2147483648
  weights_lt : ∀ t ∈ f.weights, t.width * t.height < 2147483648

/-- A small file: one patch, one vertex, weight and bias records of several
shapes. -/
def sampleFile : NGFFile :=
  { patch_count := 1, vertex_count := 1, feature_size := 20,
    positions := [⟨1065353216, 1073741824, 3225419776⟩],
    features := [1, 2, 3, 4, 5, 6, 7, 8, 9, 10, 11, 12, 13, 14, 15, 16, 17, 18, 19, 20],
    patches := [⟨0, 0, 0, 0⟩],
    weights := [⟨[21, 22], 1, 2⟩, ⟨[23, 24], 2, 1⟩, ⟨[], 0, 5⟩, ⟨[25], 1, 1⟩],
    biases := [⟨[31], 1, 1⟩, ⟨[], 0, 1⟩, ⟨[32, 33], 2, 1⟩, ⟨[3204448256], 1, 1⟩] }

/-- A file whose feature count `vertex_count * 20 = 4294967300` does not fit
an `int32`: the 32-bit product of the loader is 4. -/
def wideFile : NGFFile :=
  { patch_count := 0, vertex_count := 214748365, feature_size := 20,
    positions := List.replicate 214748365 ⟨0, 0, 0⟩,
    features := List.replicate 4294967300 0,
    patches := [],
    weights := List.replicate 4 ⟨[], 0, 0⟩,
    biases := List.replicate 4 ⟨[], 0, 1⟩ }

/-! ## Sample streams and files -/

/-- A 12-byte stream: one patch, no vertex, feature size 19. -/
def badFeatureSize : IStream := ⟨i32Bytes 1 ++ i32Bytes 0 ++ i32Bytes 19, true⟩

/-- The stream of `sampleFile` without its last byte, the top byte of the last
bias float. -/
def truncatedSample : IStream := ⟨(encode sampleFile).dropLast, true⟩

/-! ## Patch indices -/

/-- All four indices of the quad lie in `[0, n)`. -/
abbrev IVec4.InRange (p : IVec4) (n : Nat) : Prop :=
  (0 ≤ p.x ∧ p.x < (n : Int)) ∧ (0 ≤ p.y ∧ p.y < (n : Int)) ∧
    (0 ≤ p.z ∧ p.z < (n : Int)) ∧ (0 ≤ p.w ∧ p.w < (n : Int))

/-- The index quad stored at byte offset `off` of the file. -/
def quadAt (bs : List Byte) (off : Nat) : IVec4 :=
  ⟨getI32 bs off, getI32 bs (off + 4), getI32 bs (off + 8), getI32 bs (off + 12)⟩

/-- The file `sampleFile` with a patch that names vertex 5 of 1. -/
def strayFile : NGFFile := { sampleFile with patches := [⟨0, 0, 0, 5⟩] }

/-- A stream that announces no patch and 214748365 vertices of feature size
20, followed by zero bytes: the positions, 16 bytes of features and eight
empty tensor records. -/
def wideStream : IStream :=
  ⟨i32Bytes 0 ++ (i32Bytes 214748365 ++ (i32Bytes 20
    ++ (zeros (214748365 * 12) ++ (zeros (4 * 4) ++ ([] ++ zeros 48))))), true⟩

/-! ## The base mesh block -/

/-- The `Mesh` of `mesh.hpp`, a header outside the sources, with the three
fields that the initialisation `Mesh { vertices, normals, triangles }` and
`Viewer::add` name. -/
structure Mesh where
  vertices : List Vec3
  normals : List Vec3
  triangles : List UVec3
deriving DecidableEq

/-- The element `vs[i]` for an `int32_t` index: `none` outside the vector,
where the access is undefined. -/
def vertexAt (vs : List Vec4) (i : Int) : Option Vec4 :=
  if 0 ≤ i then vs[i.toNat]? else none

/-- One iteration of the loop over `ngf.patches`: `size` is the `int32_t`
taken from `vertices.size()`, the components of a `glm::uvec3` are
`uint32_t`. -/
def baseStep (ngf : NGF) (m : Mesh) (p : IVec4) : Option Mesh :=
  match vertexAt ngf.vertices p.x, vertexAt ngf.vertices p.y, vertexAt ngf.vertices p.w,
      vertexAt ngf.vertices p.z with
  | some vx, some vy, some vw, some vz =>
    some {
      vertices := m.vertices ++ [vx.xyz, vy.xyz, vw.xyz, vz.xyz]
      normals := m.normals ++ [⟨0, 0, 0⟩, ⟨0, 0, 0⟩, ⟨0, 0, 0⟩, ⟨0, 0, 0⟩]
      triangles := m.triangles ++
        [⟨toU32 (toInt32 m.vertices.length), toU32 (wrap32 (toInt32 m.vertices.length + 1)),
            toU32 (wrap32 (toInt32 m.vertices.length + 3))⟩,
          ⟨toU32 (toInt32 m.vertices.length), toU32 (wrap32 (toInt32 m.vertices.length + 3)),
            toU32 (wrap32 (toInt32 m.vertices.length + 2))⟩] }
  | _, _, _, _ => none

/-- The loop `for (const glm::ivec4 &p : ngf.patches)` over the patches left. -/
def baseLoop (ngf : NGF) : List IVec4 → Mesh → Option Mesh
  | [], m => some m
  | p :: ps, m =>
    match baseStep ngf m p with
    | none => none
    | some m' => baseLoop ngf ps m'

/-- The base mesh block of `main`; `smooth_normals` is the function of that
name of `mesh.hpp`, which only the normals depend on. -/
def baseMesh (smooth_normals : Mesh → List Vec3) (ngf : NGF) : Option Mesh :=
  match baseLoop ngf ngf.patches ⟨[], [], []⟩ with
  | none => none
  | some m => some { m with normals := smooth_normals m }

/-- The four vertices a patch appends: those of its x, y, w and z index. -/
def quadVerts (vs : List Vec4) (p : IVec4) : List Vec3 :=
  [(vs.getD p.x.toNat ⟨0, 0, 0, 0⟩).xyz, (vs.getD p.y.toNat ⟨0, 0, 0, 0⟩).xyz,
    (vs.getD p.w.toNat ⟨0, 0, 0, 0⟩).xyz, (vs.getD p.z.toNat ⟨0, 0, 0, 0⟩).xyz]

/-- The two triangles appended when the vertex array holds `s` vertices. -/
def triPair (s : Nat) : List UVec3 :=
  [⟨s % 4294967296, (s + 1) % 4294967296, (s + 3) % 4294967296⟩,
    ⟨s % 4294967296, (s + 3) % 4294967296, (s + 2) % 4294967296⟩]

/-- The triangles of `n` patches appended from vertex count `s` on. -/
def tris (s : Nat) : Nat → List UVec3
  | 0 => []
  | n + 1 => triPair s ++ tris (s + 4) n

/-- The NGF of one patch `(0, 1, 2, 3)` over four distinct vertices. -/
def quadNgf : NGF :=
  { patches := [⟨0, 1, 2, 3⟩],
    vertices := [⟨10, 11, 12, 0⟩, ⟨20, 21, 22, 0⟩, ⟨30, 31, 32, 0⟩, ⟨40, 41, 42, 0⟩],
    features := [], patch_count := 1, feature_size := 20, weights := [], biases := [] }

/-- An NGF of `2^30 + 1` patches over one vertex. -/
def manyPatches : NGF :=
  { patches := List.replicate 1073741825 ⟨0, 0, 0, 0⟩,
    vertices := [⟨0, 0, 0, 0⟩],
    features := [], patch_count := 1073741825, feature_size := 20, weights := [], biases := [] }

/-- An NGF of `2^30 + 1` patches over two vertices: the last patch uses the
second vertex, all others the first. -/
def lastPatchApart : NGF :=
  { patches := List.replicate 1073741824 ⟨0, 0, 0, 0⟩ ++ [⟨1, 1, 1, 1⟩],
    vertices := [⟨0, 0, 0, 0⟩, ⟨1, 1, 1, 0⟩],
    features := [], patch_count := 1073741825, feature_size := 20, weights := [], biases := [] }

/-! ## The packing block -/

/-- The call `network.insert(network.begin(), v.begin(), v.end())`. -/
def insertFront (network v : List F32) : List F32 := v ++ network

/-- The loop `for (int32_t i = 0; i < LAYERS; i++)` of the packing block with
`r` iterations left, at index `i`. -/
def packLoop (weights biases : List Tensor) : Nat → Nat → List F32 → List F32
  | 0, _, network => network
  | r + 1, i, network =>
    packLoop weights biases r (i + 1)
      (insertFront (insertFront network (weights.getD i ⟨[], 0, 0⟩).vec)
        (biases.getD i ⟨[], 0, 0⟩).vec)

/-- The vector `network` after the packing loop over `L` layers. -/
def packNetwork (L : Nat) (weights biases : List Tensor) : List F32 :=
  packLoop weights biases L 0 []

/-- The network buffer that `main` uploads. -/
def networkBuffer (ngf : NGF) : List F32 := packNetwork LAYERS ngf.weights ngf.biases

/-- The block of layer `i` in the buffer: its bias vector, then its weight
vector. -/
def layerBlock (weights biases : List Tensor) (i : Nat) : List F32 :=
  (biases.getD i ⟨[], 0, 0⟩).vec ++ (weights.getD i ⟨[], 0, 0⟩).vec

/-- Two layers with values that tell them apart. -/
def twoLayers : List Tensor × List Tensor :=
  ([⟨[1, 2], 1, 2⟩, ⟨[3], 1, 1⟩], [⟨[10], 1, 1⟩, ⟨[20, 21], 2, 1⟩])

/-! ## The feature buffer and the bindings -/

/-- The expression `*reinterpret_cast <float *> (&n)` for a `uint32_t`: the
float whose 32-bit pattern is that of `n`. -/
def bitCastU32 (n : Nat) : F32 := ⟨n % 4294967296, Nat.mod_lt n (by decide)⟩

/-- The integer a float gives when its 32 bits are read as a `uint32_t`. -/
def F32.asU32 (f : F32) : Nat := f.val

/-- The construction of the feature buffer (lines 635 to 638): the local copy
`features` of `ngf.features` and the insertion of `casted` at its front. The
result is `ngf` as it stands after these lines and the local vector. -/
def packFeatures (ngf : NGF) : NGF × List F32 :=
  (ngf, insertFront ngf.features [bitCastU32 ngf.feature_size])

/-- The host data a device buffer is created from. -/
inductive BufferData where
  | vec4s (data : List Vec4)
  | floats (data : List F32)
  | ivec4s (data : List IVec4)
deriving DecidableEq

/-- Modelled from the spec: one call `littlevk::bind(device, dset, buffer,
binding)` of the littlevk library, which the sources do not contain; it
associates the buffer with the slot `binding` of the descriptor set `dset`.
A buffer made by `littlevk::buffer` is identified with the data uploaded. -/
structure BindCall where
  dset : Nat
  buffer : BufferData
  binding : Nat
deriving DecidableEq

/-- The local `vk_ngf_buffers` of `main`. -/
structure NgfBuffers where
  points : BufferData
  features : BufferData
  patches : BufferData
  network : BufferData
  dset : Nat
deriving DecidableEq

/-- The upload and bind block of `main` (lines 618 to 673): `dset` is the
descriptor set that `allocateDescriptorSets(info).front()` returns. The result
is `vk_ngf_buffers` and the calls of `littlevk::bind` in program order. -/
def uploadNgf (ngf : NGF) (dset : Nat) : NgfBuffers × List BindCall :=
  let points := BufferData.vec4s ngf.vertices
  let patches := BufferData.ivec4s ngf.patches
  let features := BufferData.floats (packFeatures ngf).2
  let network := BufferData.floats (networkBuffer ngf)
  ({ points := points, features := features, patches := patches, network := network,
     dset := dset },
   [⟨dset, points, 0⟩, ⟨dset, features, 1⟩, ⟨dset, patches, 2⟩, ⟨dset, network, 3⟩])

/-- The buffers that a sequence of bind calls associates with slot `binding`
of the set `dset`, one entry per call. -/
def boundAt (calls : List BindCall) (dset binding : Nat) : List BufferData :=
  (calls.filter (fun c => c.dset = dset ∧ c.binding = binding)).map BindCall.buffer

/-! ## The render loop -/

/-- The status of a `littlevk::SurfaceOperation`. -/
inductive SurfaceStatus where
  | eOk
  | eResize
  | eFailed
deriving DecidableEq

/-- Modelled from the spec: the result `littlevk::SurfaceOperation` of
`littlevk::acquire_image` and `littlevk::present_image`, functions of the
littlevk library, which the sources do not contain: a status, `eResize` when
the surface is stale, and the index of the swapchain image. -/
structure SurfaceOperation where
  status : SurfaceStatus
  index : Nat
deriving DecidableEq

/-- The synchronisation objects of `engine.sync`, by frame slot. -/
inductive SyncObject where
  | image_available (frame : Nat)
  | render_finished (frame : Nat)
  | in_flight (frame : Nat)
deriving DecidableEq

/-- Pipeline stages a submission can wait at. -/
inductive PipelineStage where
  | eTopOfPipe
  | eColorAttachmentOutput
  | eTransfer
  | eBottomOfPipe
deriving DecidableEq

/-- A `vk::SubmitInfo`; a command buffer is named by its index in
`engine.command_buffers`. -/
structure SubmitInfo where
  waitSemaphores : List SyncObject
  waitDstStageMask : List PipelineStage
  commandBuffers : List Nat
  signalSemaphores : List SyncObject
deriving DecidableEq

/-- The operations of one pass through the render loop, in the order the
program performs them: calls into GLFW, littlevk, Vulkan and ImGui, and the
two assignments to the loop variables `mode` and `frame`. -/
inductive Op where
  | glfwPollEvents
  | handle_key_input
  | acquire_image (frame : Nat)
  | resize
  | cmdBegin (cmd : Nat)
  | viewport_and_scissor (cmd : Nat)
  | beginRenderPass (cmd : Nat) (index : Nat)
  | bindPipeline (cmd : Nat)
  | bindDescriptorSets (cmd : Nat) (dset : Nat)
  | pushGeometry (cmd : Nat)
  | pushShading (cmd : Nat) (mode : Nat)
  | drawMeshTasksEXT (cmd : Nat) (x : Nat) (y : Nat) (z : Nat)
  | imguiNewFrame
  | radioButton (m : Nat) (active : Bool)
  | assignMode (m : Nat)
  | imguiRender
  | renderDrawData (cmd : Nat)
  | endRenderPass (cmd : Nat)
  | transition (cmd : Nat) (index : Nat) (toTransferSrc : Bool)
  | copy_image_to_buffer (cmd : Nat) (index : Nat)
  | cmdEnd (cmd : Nat)
  | submit (info : SubmitInfo) (fence : SyncObject)
  | present_image (frame : Nat) (index : Nat)
  | waitIdle
  | assignFrame (frame : Nat)
deriving DecidableEq

/-- The loop variables `frame` (a `size_t`) and `mode` (a `uint32_t`). -/
structure LoopState where
  frame : Nat
  mode : Nat
deriving DecidableEq

/-- What the environment answers during one pass: the result of the image
acquisition, the result of the presentation, and for every key of the mode
table whether its radio button was clicked. -/
structure Input where
  acquire : SurfaceOperation
  present : SurfaceOperation
  clicked : Nat → Bool

/-- The table `mode_descriptions` of `main`. -/
def mode_descriptions : List (Nat × String) :=
  [(0, "Patches"), (1, "Normal"), (2, "Shaded")]

/-- The subtraction `a - b` of two `size_t` values (64 bits). -/
def usub64 (a b : Nat) : Nat :=
  (a + 18446744073709551616 - b % 18446744073709551616) % 18446744073709551616

/-- The loop over `mode_descriptions` in the ImGui pass, over the keys still to
visit: `if (ImGui::RadioButton(desc, mode == m)) mode = m;`. -/
def radioPass (clicked : Nat → Bool) : List Nat → Nat → Nat × List Op
  | [], mode => (mode, [])
  | m :: rest, mode =>
    if clicked m then
      ((radioPass clicked rest m).1,
        .radioButton m (decide (mode = m)) :: .assignMode m :: (radioPass clicked rest m).2)
    else
      ((radioPass clicked rest mode).1,
        .radioButton m (decide (mode = m)) :: (radioPass clicked rest mode).2)

/-- The function `new_frame`: the command buffer and the surface operation,
or nothing when the surface needs a resize, and the operations performed. -/
def new_frame (frame : Nat) (acquire : SurfaceOperation) :
    Option (Nat × SurfaceOperation) × List Op :=
  if acquire.status = .eResize then
    (none, [.handle_key_input, .acquire_image frame, .resize])
  else
    (some (frame, acquire),
      [.handle_key_input, .acquire_image frame, .cmdBegin frame, .viewport_and_scissor frame])

/-- The function `end_frame`. -/
def end_frame (cmd frame : Nat) : List Op :=
  [.cmdEnd cmd,
    .submit { waitSemaphores := [.image_available frame],
              waitDstStageMask := [.eColorAttachmentOutput],
              commandBuffers := [cmd],
              signalSemaphores := [.render_finished frame] } (.in_flight frame)]

/-- The function `present_frame`; `pop` is the result of the presentation. -/
def present_frame (op : SurfaceOperation) (frame : Nat) (pop : SurfaceOperation) : List Op :=
  .present_image frame op.index :: (if pop.status = .eResize then [.resize] else [])

/-- One pass through the body of the render loop. `dset` is the descriptor set
of the NGF buffers and `order` the order in which the iteration over
`mode_descriptions`, an unordered map, visits its keys. The engine has two
command buffers and two sets of synchronisation objects: with a frame index
of 2 or more the pass indexes past them, which is undefined (`none`). -/
def iteration (ngf : NGF) (dset : Nat) (order : List Nat) (s : LoopState) (inp : Input) :
    Option (LoopState × List Op) :=
  if 2 ≤ s.frame then none else
  match new_frame s.frame inp.acquire with
  | (none, tr) => some (s, .glfwPollEvents :: tr)
  | (some (cmd, op), tr) =>
    some ({ frame := usub64 1 s.frame, mode := (radioPass inp.clicked order s.mode).1 },
      .glfwPollEvents :: tr
        ++ [.beginRenderPass cmd op.index, .bindPipeline cmd, .bindDescriptorSets cmd dset,
            .pushGeometry cmd, .pushShading cmd s.mode,
            .drawMeshTasksEXT cmd ngf.patch_count 1 1, .imguiNewFrame]
        ++ (radioPass inp.clicked order s.mode).2
        ++ [.imguiRender, .renderDrawData cmd, .endRenderPass cmd,
            .transition cmd op.index true, .copy_image_to_buffer cmd op.index,
            .transition cmd op.index false]
        ++ end_frame cmd s.frame
        ++ present_frame op s.frame inp.present
        ++ [.waitIdle, .assignFrame (usub64 1 s.frame)])

/-- The render loop over the passes that the window stays open for, one input
per pass: the final loop variables and all operations in order. -/
def run (ngf : NGF) (dset : Nat) (order : List Nat) :
    LoopState → List Input → Option (LoopState × List Op)
  | s, [] => some (s, [])
  | s, inp :: rest =>
    match iteration ngf dset order s inp with
    | none => none
    | some (s1, tr) =>
      match run ngf dset order s1 rest with
      | none => none
      | some (s2, tr2) => some (s2, tr ++ tr2)

/-- The loop variables before the first pass: `frame = 0`, `mode = 0`. -/
def loopInit : LoopState := { frame := 0, mode := 0 }

/-- The steps of a pass that the ordering property names. -/
inductive Step where
  | acquire
  | beginCommands
  | beginRenderPass
  | draw
  | overlayDraw
  | endRenderPass
  | readbackCopy
  | endCommands
  | submit
  | present
  | waitIdle
  | advanceFrame
deriving DecidableEq

/-- The step an operation performs, if it is one of the named steps. -/
def Op.step : Op → Option Step
  | .acquire_image _ => some .acquire
  | .cmdBegin _ => some .beginCommands
  | .beginRenderPass _ _ => some .beginRenderPass
  | .drawMeshTasksEXT _ _ _ _ => some .draw
  | .renderDrawData _ => some .overlayDraw
  | .endRenderPass _ => some .endRenderPass
  | .copy_image_to_buffer _ _ => some .readbackCopy
  | .cmdEnd _ => some .endCommands
  | .submit _ _ => some .submit
  | .present_image _ _ => some .present
  | .waitIdle => some .waitIdle
  | .assignFrame _ => some .advanceFrame
  | _ => none

/-- The operation is a call of the resize handler. -/
def Op.isResize : Op → Bool
  | .resize => true
  | _ => false

/-- The operation is a queue submission. -/
def Op.isSubmit : Op → Bool
  | .submit _ _ => true
  | _ => false

/-- The operation is a mesh-task draw. -/
def Op.isDraw : Op → Bool
  | .drawMeshTasksEXT _ _ _ _ => true
  | _ => false

/-- The operation belongs to the radio button loop of the ImGui pass. -/
def Op.inRadioLoop : Op → Bool
  | .radioButton _ _ => true
  | .assignMode _ => true
  | _ => false

/-- The pass through the loop is skipped at acquisition. -/
abbrev Input.Skipped (inp : Input) : Prop := inp.acquire.status = .eResize

/-- Whether a presentation is still waiting for a device-idle wait (the flag),
after one more operation; `none` when an acquisition comes while one is. -/
def idleStep (pending : Bool) : Op → Option Bool
  | .present_image _ _ => some true
  | .waitIdle => some false
  | .acquire_image _ => if pending then none else some false
  | _ => some pending

/-- The flag after a sequence of operations. -/
def idleScan : Bool → List Op → Option Bool
  | pending, [] => some pending
  | pending, op :: rest =>
    match idleStep pending op with
    | none => none
    | some p => idleScan p rest

/-- A pass with a fresh image, a stale presentation and no click. -/
def stalePresent : Input :=
  { acquire := ⟨.eOk, 0⟩, present := ⟨.eResize, 0⟩, clicked := fun _ => false }

/-- A pass with a stale surface at acquisition. -/
def staleAcquire : Input :=
  { acquire := ⟨.eResize, 0⟩, present := ⟨.eOk, 0⟩, clicked := fun _ => false }

/-- A pass with nothing stale in which the button of mode 2 is clicked. -/
def clickShaded : Input :=
  { acquire := ⟨.eOk, 1⟩, present := ⟨.eOk, 1⟩, clicked := fun m => decide (m = 2) }

/-! ## Layout of the tensor records in the stream -/

/-- The byte offset, in the stream an NGF was decoded from, of the first
weight record: after the three sizes, the positions, the features and the
patches. -/
def tensorStart (ngf : NGF) : Nat :=
  12 + 12 * ngf.vertices.length + 4 * ngf.features.length + 16 * ngf.patches.length

/-- The number of bytes the weight loop consumes for the given tensors: two
sizes and the floats of each. -/
def weightsSize (ts : List Tensor) : Nat := (ts.map (fun t => 8 + 4 * t.vec.length)).sum

/-- The weight tensors are the records that start at offset `off` of `data`,
in this order: width, height, then the floats, the next record right after
(bytes past the end of `data` count as zero). -/
def weightsAt (data : List Byte) : Nat → List Tensor → Prop
  | _, [] => True
  | off, t :: ts =>
    t.width = getI32 data off ∧ t.height = getI32 data (off + 4) ∧
    t.vec = floats t.vec.length (data.drop (off + 8)) ∧
    weightsAt data (off + 8 + 4 * t.vec.length) ts

/-- The bias tensors are the records that start at offset `off` of `data`, in
this order: size, then the floats, the next record right after. -/
def biasesAt (data : List Byte) : Nat → List Tensor → Prop
  | _, [] => True
  | off, t :: ts =>
    t.width = getI32 data off ∧
    t.vec = floats t.vec.length (data.drop (off + 4)) ∧
    biasesAt data (off + 4 + 4 * t.vec.length) ts

/-- A stream with no patches and no vertices whose first weight record has the
sizes 65536 and 65536 and no floats; every other size is 0. -/
def squareStream : IStream :=
  ⟨i32Bytes 0 ++ i32Bytes 0 ++ i32Bytes 20 ++ i32Bytes 65536 ++ i32Bytes 65536 ++ zeros 40,
    true⟩

/-- The packing procedure in the words of the specification: start from the
empty sequence and, for each layer `i` from 0 to `L - 1` in order, first insert
the bias vector of layer `i` at position 0, then insert the weight vector of
layer `i` at position 0. -/
def specPack (L : Nat) (weights biases : List Tensor) : List F32 :=
  (List.range L).foldl (fun network i =>
    insertFront (insertFront network (biases.getD i ⟨[], 0, 0⟩).vec)
      (weights.getD i ⟨[], 0, 0⟩).vec) []

/-! ## Synchronisation objects of a submission -/

/-- The frame slot a synchronisation object belongs to: its index in
`engine.sync.image_available`, `render_finished` or `in_flight`. -/
def SyncObject.slot : SyncObject → Nat
  | .image_available frame => frame
  | .render_finished frame => frame
  | .in_flight frame => frame

/-- The synchronisation objects that the call `queue.submit(info, fence)`
names: the semaphores waited on, the semaphores signalled and the fence. -/
def submitSyncObjects (info : SubmitInfo) (fence : SyncObject) : List SyncObject :=
  info.waitSemaphores ++ info.signalSemaphores ++ [fence]

/-! ## The viewer: mesh resources -/

/-- Modelled from the spec: the enumeration `Viewer::Mode` of `viewer.hpp`, a
header that is not among the sources, with the values that `viewer.cpp` names
in `mode_names` and in `Viewer::render`. -/
inductive Mode where
  | Shaded
  | Normal
  | Transparent
  | Wireframe
  | FaceColor
deriving DecidableEq

/-- Modelled from the spec: the struct `Viewer::MeshResource` of `viewer.hpp`,
with the members that `Viewer::add` assigns. A `littlevk::Buffer` is
represented by the data it holds, and `index_count` is taken to hold the
`size_t` value assigned to it. -/
structure MeshResource where
  vertex_buffer : List Vec3
  index_buffer : List UVec3
  unindexed_vertex_buffer : List Vec3
  index_count : Nat
  mode : Mode
  device : Nat
deriving DecidableEq

/-- Modelled from the spec: the members `device` and `meshes` of the class
`Viewer` of `viewer.hpp`; the map `meshes` from names to resources is the list
of its entries, in some order. -/
structure Viewer where
  device : Nat
  meshes : List (String × MeshResource)
deriving DecidableEq

/-- The call `meshes.find(name)`: the entry of that name, `none` for
`meshes.end()`. -/
def mapFind (meshes : List (String × MeshResource)) (name : String) :
    Option (String × MeshResource) :=
  meshes.find? (fun e => decide (e.1 = name))

/-- An assignment through the iterator of the entry of `name`:
`it->second = f (it->second)`. -/
def mapModify (meshes : List (String × MeshResource)) (name : String)
    (f : MeshResource → MeshResource) : List (String × MeshResource) :=
  meshes.map (fun e => if e.1 = name then (e.1, f e.2) else e)

/-- The assignment `meshes[name] = resource`: the entry of that name is
overwritten, or a new entry is made when there is none. -/
def mapAssign (meshes : List (String × MeshResource)) (name : String)
    (resource : MeshResource) : List (String × MeshResource) :=
  match mapFind meshes name with
  | some _ => mapModify meshes name (fun _ => resource)
  | none => meshes ++ [(name, resource)]

/-- The loop `for (size_t i = 0; i < mesh.vertices.size(); i++)` that pushes
`mesh.vertices[i]` and `mesh.normals[i]`, with `r` iterations left, at index
`i`; `none` when it reads past the end of `mesh.normals`, which is undefined. -/
def interleaveLoop (mesh : Mesh) : Nat → Nat → List Vec3 → Option (List Vec3)
  | 0, _, vertices => some vertices
  | r + 1, i, vertices =>
    match mesh.vertices[i]?, mesh.normals[i]? with
    | some v, some n => interleaveLoop mesh r (i + 1) (vertices ++ [v, n])
    | _, _ => none

/-- The vector `vertices` of `Viewer::add`, `Viewer::refresh` and
`Viewer::replace` after the interleaving loop. -/
def interleave (mesh : Mesh) : Option (List Vec3) :=
  interleaveLoop mesh mesh.vertices.length 0 []

/-- The colour `{ 1.0f, 0.5f, 0.5f }` of `Viewer::add`. -/
def faceColor : Vec3 := ⟨1065353216, 1056964608, 1056964608⟩

/-- The component `triangle[i]` of a `glm::uvec3`, for `i` in 0, 1, 2. -/
def UVec3.get (t : UVec3) : Nat → Nat
  | 0 => t.x
  | 1 => t.y
  | _ => t.z

/-- The loop `for (uint32_t i = 0; i < 3; i++)` over the corners of one
triangle, with `r` iterations left, at index `i`; `none` when it reads past the
end of `mesh.vertices` or `mesh.normals`. -/
def cornerLoop (mesh : Mesh) (triangle : UVec3) : Nat → Nat → List Vec3 → Option (List Vec3)
  | 0, _, unindexed => some unindexed
  | r + 1, i, unindexed =>
    match mesh.vertices[triangle.get i]?, mesh.normals[triangle.get i]? with
    | some v, some n => cornerLoop mesh triangle r (i + 1) (unindexed ++ [v, n, faceColor])
    | _, _ => none

/-- The loop `for (const auto &triangle : mesh.triangles)` of `Viewer::add`,
over the triangles still to visit. -/
def unindexLoop (mesh : Mesh) : List UVec3 → List Vec3 → Option (List Vec3)
  | [], unindexed => some unindexed
  | triangle :: rest, unindexed =>
    match cornerLoop mesh triangle 3 0 unindexed with
    | none => none
    | some unindexed => unindexLoop mesh rest unindexed

/-- The vector `unindexed_vertices` of `Viewer::add` after its loop. -/
def unindex (mesh : Mesh) : Option (List Vec3) := unindexLoop mesh mesh.triangles []

/-- The function `Viewer::add`; `none` when one of its loops reads past the end
of a vector. -/
def Viewer.add (v : Viewer) (name : String) (mesh : Mesh) (mode : Mode) : Option Viewer :=
  match interleave mesh with
  | none => none
  | some vertices =>
    match unindex mesh with
    | none => none
    | some unindexed_vertices =>
      some { v with
        meshes := mapAssign v.meshes name
          { vertex_buffer := vertices
            index_buffer := mesh.triangles
            unindexed_vertex_buffer := unindexed_vertices
            index_count := mesh.triangles.length * 3
            mode := mode
            device := v.device } }

/-- The function `Viewer::refresh`. The library call `littlevk::upload(device,
buffer, vertices)` is the parameter `upload`: the data of the buffer after the
call, from its data before and the vector uploaded. -/
def Viewer.refresh (upload : List Vec3 → List Vec3 → List Vec3) (v : Viewer) (name : String)
    (mesh : Mesh) : Option Viewer :=
  match mapFind v.meshes name with
  | none => some v
  | some _ =>
    match interleave mesh with
    | none => none
    | some vertices =>
      some { v with
        meshes := mapModify v.meshes name (fun r =>
          { r with vertex_buffer := upload r.vertex_buffer vertices }) }

/-- The function `Viewer::replace`. The function `recompute_normals`, which is
not among the sources, is a parameter: the mesh it leaves in `local`. -/
def Viewer.replace (recompute_normals : Mesh → Mesh) (v : Viewer) (name : String)
    (mesh : Mesh) : Option Viewer :=
  match mapFind v.meshes name with
  | none => some v
  | some _ =>
    match interleave (recompute_normals mesh) with
    | none => none
    | some vertices =>
      some { v with
        meshes := mapModify v.meshes name (fun r =>
          { r with
            vertex_buffer := vertices
            index_buffer := mesh.triangles
            index_count := mesh.triangles.length * 3 }) }

/-- The function `Viewer::ref`: the resource the returned pointer points to,
`none` for `nullptr`. -/
def Viewer.ref (v : Viewer) (name : String) : Option MeshResource :=
  match mapFind v.meshes name with
  | none => none
  | some e => some e.2

/-- The function `Viewer::clear`. -/
def Viewer.clear (v : Viewer) : Viewer := { v with meshes := [] }

/-- The name is a key of the mesh table. -/
abbrev Viewer.Has (v : Viewer) (name : String) : Prop := name ∈ v.meshes.map Prod.fst

/-- The mesh table is a map: no name has two entries. -/
abbrev Viewer.IsMap (v : Viewer) : Prop := (v.meshes.map Prod.fst).Nodup

/-- A mesh of one triangle with three positions and four normals. -/
def triangleMesh : Mesh :=
  { vertices := [⟨1, 2, 3⟩, ⟨4, 5, 6⟩, ⟨7, 8, 9⟩]
    normals := [⟨11, 12, 13⟩, ⟨14, 15, 16⟩, ⟨17, 18, 19⟩, ⟨20, 21, 22⟩]
    triangles := [⟨2, 0, 1⟩] }

/-- A viewer whose table holds one resource, under the name `"ref"`. -/
def oneMeshViewer : Viewer :=
  { device := 5
    meshes := [("ref", { vertex_buffer := [], index_buffer := [], unindexed_vertex_buffer := []
                         index_count := 0, mode := .Shaded, device := 5 })] }

/-! # Theorems -/

/-! ## Words and bytes -/

theorem getU32_lt (bs : List Byte) (off : Nat) : getU32 bs off < 4294967296 := by
  unfold getU32
  have h0 := (bs.getD off 0).isLt
  have h1 := (bs.getD (off + 1) 0).isLt
  have h2 := (bs.getD (off + 2) 0).isLt
  have h3 := (bs.getD (off + 3) 0).isLt
  omega

theorem toU32_lt (i : Int) : toU32 i < 4294967296 := by
  unfold toU32; omega

theorem toU32_of_nat (n : Nat) (h : n < 4294967296) : toU32 (n : Int) = n := by
  unfold toU32; omega

theorem toInt32_toU32 (i : Int) (h1 : -2147483648 ≤ i) (h2 : i < 2147483648) :
    toInt32 (toU32 i) = i := by
  unfold toInt32 toU32; split <;> omega

theorem wrap32_eq (i : Int) (h1 : -2147483648 ≤ i) (h2 : i < 2147483648) : wrap32 i = i :=
  toInt32_toU32 i h1 h2

theorem toInt32_range (n : Nat) : -2147483648 ≤ toInt32 n ∧ toInt32 n < 2147483648 := by
  unfold toInt32; split <;> omega

theorem toU32_toInt32 (n : Nat) (h : n < 4294967296) : toU32 (toInt32 n) = n := by
  unfold toInt32 toU32; split <;> omega

theorem getU32_u32Bytes (n : Nat) (rest : List Byte) :
    getU32 (u32Bytes n ++ rest) 0 = n % 4294967296 := by
  simp only [getU32, u32Bytes, byte, List.cons_append, List.getD_cons_zero,
    List.getD_cons_succ, Nat.zero_add]
  omega

theorem getU32_append_right (a b : List Byte) (off : Nat) :
    getU32 (a ++ b) (a.length + off) = getU32 b off := by
  unfold getU32
  rw [List.getD_append_right _ _ _ _ (by omega), List.getD_append_right _ _ _ _ (by omega),
    List.getD_append_right _ _ _ _ (by omega), List.getD_append_right _ _ _ _ (by omega)]
  have e0 : a.length + off - a.length = off := by omega
  have e1 : a.length + off + 1 - a.length = off + 1 := by omega
  have e2 : a.length + off + 2 - a.length = off + 2 := by omega
  have e3 : a.length + off + 3 - a.length = off + 3 := by omega
  rw [e0, e1, e2, e3]

theorem getD_drop (bs : List Byte) (k i : Nat) : (bs.drop k).getD i 0 = bs.getD (k + i) 0 := by
  simp [List.getD_eq_getElem?_getD, List.getElem?_drop]

theorem getU32_drop (bs : List Byte) (k off : Nat) :
    getU32 (bs.drop k) off = getU32 bs (k + off) := by
  simp only [getU32, getD_drop, Nat.add_assoc]

theorem getD_take (bs : List Byte) (m i : Nat) (h : i < m) :
    (bs.take m).getD i 0 = bs.getD i 0 := by
  simp [List.getD_eq_getElem?_getD, List.getElem?_take, h]

theorem getU32_take (bs : List Byte) (m off : Nat) (h : off + 4 ≤ m) :
    getU32 (bs.take m) off = getU32 bs off := by
  unfold getU32
  rw [getD_take _ _ _ (by omega), getD_take _ _ _ (by omega), getD_take _ _ _ (by omega),
    getD_take _ _ _ (by omega)]

theorem u32Bytes_length (n : Nat) : (u32Bytes n).length = 4 := rfl

theorem i32Bytes_length (i : Int) : (i32Bytes i).length = 4 := rfl

theorem f32Bytes_length (f : F32) : (f32Bytes f).length = 4 := rfl

theorem getI32_i32Bytes (i : Int) (rest : List Byte) :
    getI32 (i32Bytes i ++ rest) 0 = wrap32 i := by
  unfold getI32 i32Bytes wrap32
  rw [getU32_u32Bytes, Nat.mod_eq_of_lt (toU32_lt i)]

theorem getF32_f32Bytes (f : F32) (rest : List Byte) : getF32 (f32Bytes f ++ rest) 0 = f := by
  apply Fin.ext
  show getU32 (u32Bytes f.val ++ rest) 0 = f.val
  rw [getU32_u32Bytes, Nat.mod_eq_of_lt f.isLt]

theorem getI32_append_right (a b : List Byte) (off : Nat) :
    getI32 (a ++ b) (a.length + off) = getI32 b off := by
  unfold getI32; rw [getU32_append_right]

theorem getF32_append_right (a b : List Byte) (off : Nat) :
    getF32 (a ++ b) (a.length + off) = getF32 b off := by
  apply Fin.ext
  show getU32 (a ++ b) (a.length + off) = getU32 b off
  exact getU32_append_right a b off

theorem getI32_drop (bs : List Byte) (k off : Nat) :
    getI32 (bs.drop k) off = getI32 bs (k + off) := by
  unfold getI32; rw [getU32_drop]

theorem getF32_drop (bs : List Byte) (k off : Nat) :
    getF32 (bs.drop k) off = getF32 bs (k + off) := by
  apply Fin.ext
  show getU32 (bs.drop k) off = getU32 bs (k + off)
  exact getU32_drop bs k off

theorem getI32_take (bs : List Byte) (m off : Nat) (h : off + 4 ≤ m) :
    getI32 (bs.take m) off = getI32 bs off := by
  unfold getI32; rw [getU32_take _ _ _ h]

theorem getF32_take (bs : List Byte) (m off : Nat) (h : off + 4 ≤ m) :
    getF32 (bs.take m) off = getF32 bs off := by
  apply Fin.ext
  show getU32 (bs.take m) off = getU32 bs off
  exact getU32_take bs m off h

/-! ## Decoding encoded blocks -/

theorem getI32_i32Bytes_of_isI32 (i : Int) (h : IsI32 i) (rest : List Byte) :
    getI32 (i32Bytes i ++ rest) 0 = i := by
  rw [getI32_i32Bytes, wrap32_eq i h.1 h.2]

theorem floats_length (n : Nat) (bs : List Byte) : (floats n bs).length = n := by
  induction n generalizing bs with
  | zero => rfl
  | succ n ih => simp [floats, ih]

theorem vec3s_length (n : Nat) (bs : List Byte) : (vec3s n bs).length = n := by
  induction n generalizing bs with
  | zero => rfl
  | succ n ih => simp [vec3s, ih]

theorem ivec4s_length (n : Nat) (bs : List Byte) : (ivec4s n bs).length = n := by
  induction n generalizing bs with
  | zero => rfl
  | succ n ih => simp [ivec4s, ih]

theorem floatBytes_cons (f : F32) (fs : List F32) :
    floatBytes (f :: fs) = f32Bytes f ++ floatBytes fs := rfl

theorem floatBytes_length (fs : List F32) : (floatBytes fs).length = fs.length * 4 := by
  induction fs with
  | nil => rfl
  | cons f fs ih =>
    rw [floatBytes_cons, List.length_append, ih, f32Bytes_length, List.length_cons]; omega

theorem vec3Bytes_length (v : Vec3) : (vec3Bytes v).length = 12 := rfl

theorem ivec4Bytes_length (p : IVec4) : (ivec4Bytes p).length = 16 := rfl

theorem positionBytes_length (vs : List Vec3) :
    (vs.flatMap vec3Bytes).length = vs.length * 12 := by
  induction vs with
  | nil => rfl
  | cons v vs ih =>
    rw [List.flatMap_cons, List.length_append, ih, vec3Bytes_length, List.length_cons]; omega

theorem patchBytes_length (ps : List IVec4) :
    (ps.flatMap ivec4Bytes).length = ps.length * 16 := by
  induction ps with
  | nil => rfl
  | cons p ps ih =>
    rw [List.flatMap_cons, List.length_append, ih, ivec4Bytes_length, List.length_cons]; omega

theorem floats_floatBytes (fs : List F32) (rest : List Byte) :
    floats fs.length (floatBytes fs ++ rest) = fs := by
  induction fs with
  | nil => rfl
  | cons f fs ih =>
    rw [floatBytes_cons, List.append_assoc, List.length_cons, floats, getF32_f32Bytes,
      List.drop_left' (f32Bytes_length f), ih]

theorem vec3s_positionBytes (vs : List Vec3) (rest : List Byte) :
    vec3s vs.length (vs.flatMap vec3Bytes ++ rest) = vs := by
  induction vs with
  | nil => rfl
  | cons v vs ih =>
    have e0 : getF32 (vec3Bytes v ++ (vs.flatMap vec3Bytes ++ rest)) 0 = v.x := by
      simp only [vec3Bytes, List.append_assoc]; exact getF32_f32Bytes _ _
    have e1 : getF32 (vec3Bytes v ++ (vs.flatMap vec3Bytes ++ rest)) 4 = v.y := by
      simp only [vec3Bytes, List.append_assoc]
      rw [show (4 : Nat) = (f32Bytes v.x).length + 0 from rfl, getF32_append_right]
      exact getF32_f32Bytes _ _
    have e2 : getF32 (vec3Bytes v ++ (vs.flatMap vec3Bytes ++ rest)) 8 = v.z := by
      simp only [vec3Bytes, List.append_assoc]
      rw [show (8 : Nat) = (f32Bytes v.x).length + ((f32Bytes v.y).length + 0) from rfl,
        getF32_append_right, getF32_append_right]
      exact getF32_f32Bytes _ _
    rw [List.flatMap_cons, List.append_assoc, List.length_cons, vec3s, e0, e1, e2,
      List.drop_left' (vec3Bytes_length v), ih]

theorem ivec4s_patchBytes (ps : List IVec4) (h : ∀ p ∈ ps, p.IsI32) (rest : List Byte) :
    ivec4s ps.length (ps.flatMap ivec4Bytes ++ rest) = ps := by
  induction ps with
  | nil => rfl
  | cons p ps ih =>
    have hp := h p (List.mem_cons_self _ _)
    have e0 : getI32 (ivec4Bytes p ++ (ps.flatMap ivec4Bytes ++ rest)) 0 = p.x := by
      simp only [ivec4Bytes, List.append_assoc]; exact getI32_i32Bytes_of_isI32 _ hp.1 _
    have e1 : getI32 (ivec4Bytes p ++ (ps.flatMap ivec4Bytes ++ rest)) 4 = p.y := by
      simp only [ivec4Bytes, List.append_assoc]
      rw [show (4 : Nat) = (i32Bytes p.x).length + 0 from rfl, getI32_append_right]
      exact getI32_i32Bytes_of_isI32 _ hp.2.1 _
    have e2 : getI32 (ivec4Bytes p ++ (ps.flatMap ivec4Bytes ++ rest)) 8 = p.z := by
      simp only [ivec4Bytes, List.append_assoc]
      rw [show (8 : Nat) = (i32Bytes p.x).length + ((i32Bytes p.y).length + 0) from rfl,
        getI32_append_right, getI32_append_right]
      exact getI32_i32Bytes_of_isI32 _ hp.2.2.1 _
    have e3 : getI32 (ivec4Bytes p ++ (ps.flatMap ivec4Bytes ++ rest)) 12 = p.w := by
      simp only [ivec4Bytes, List.append_assoc]
      rw [show (12 : Nat) = (i32Bytes p.x).length + ((i32Bytes p.y).length
        + ((i32Bytes p.z).length + 0)) from rfl,
        getI32_append_right, getI32_append_right, getI32_append_right]
      exact getI32_i32Bytes_of_isI32 _ hp.2.2.2 _
    rw [List.flatMap_cons, List.append_assoc, List.length_cons, ivec4s, e0, e1, e2, e3,
      List.drop_left' (ivec4Bytes_length p),
      ih (fun q hq => h q (List.mem_cons_of_mem _ hq))]

/-! ## Reading from the stream -/

theorem zeros_length (n : Nat) : (zeros n).length = n := by simp [zeros]

theorem read_exact (a rest : List Byte) (n : Nat) (h : a.length = n) :
    IStream.read ⟨a ++ rest, true⟩ (zeros n) n = (a, ⟨rest, true⟩) := by
  subst h
  simp [IStream.read, zeros]

theorem readLocal_exact (a rest : List Byte) (n : Nat) (h : a.length = n) :
    IStream.readLocal ⟨a ++ rest, true⟩ n = some (a, ⟨rest, true⟩) := by
  subst h
  simp [IStream.readLocal]

/-- A read that leaves the stream good was complete: the stream was good
before, held at least `n` bytes, and the zero-filled destination received
exactly the next `n` bytes. -/
theorem read_good (fin : IStream) (n : Nat) (h : (fin.read (zeros n) n).2.good = true) :
    fin.good = true ∧ n ≤ fin.data.length ∧
      fin.read (zeros n) n = (fin.data.take n, ⟨fin.data.drop n, true⟩) := by
  unfold IStream.read at h ⊢
  cases hg : fin.good with
  | false => simp [hg] at h
  | true =>
    simp only [hg, if_true] at h ⊢
    have hn : n ≤ fin.data.length := by simpa using h
    refine ⟨trivial, hn, ?_⟩
    have hl : (fin.data.take n).length = n := by simp [hn]
    simp [hl, zeros, hn]

theorem readLocal_some (fin : IStream) (n : Nat) (r : List Byte × IStream)
    (h : fin.readLocal n = some r) :
    fin.good = true ∧ n ≤ fin.data.length ∧ r = (fin.data.take n, ⟨fin.data.drop n, true⟩) := by
  unfold IStream.readLocal at h
  split at h
  · rename_i hc
    exact ⟨hc.1, hc.2, by injection h with h; exact h.symm⟩
  · cases h

/-! ## The tensor loops on encoded records -/

theorem vecSize_ofNat (n : Nat) : vecSize (n : Int) = some n := by
  simp [vecSize]

theorem getI32_pair_fst (w h : Int) (hw : IsI32 w) : getI32 (i32Bytes w ++ i32Bytes h) 0 = w :=
  getI32_i32Bytes_of_isI32 w hw _

theorem getI32_pair_snd (w h : Int) (hh : IsI32 h) : getI32 (i32Bytes w ++ i32Bytes h) 4 = h := by
  rw [show (4 : Nat) = (i32Bytes w).length + 0 from rfl, getI32_append_right]
  have e := getI32_i32Bytes_of_isI32 h hh []
  rwa [List.append_nil] at e

theorem getI32_single (i : Int) (hi : IsI32 i) : getI32 (i32Bytes i) 0 = i := by
  have e := getI32_i32Bytes_of_isI32 i hi []
  rwa [List.append_nil] at e

/-- One iteration of the weight loop on a record whose data block is
complete. -/
theorem readWeights_succ (k : Nat) (w h : Int) (hw : IsI32 w) (hh : IsI32 h)
    (data rest : List Byte) (len : Nat) (hlen : wrap32 (w * h) = (len : Int))
    (hd : data.length = len * 4) :
    readWeights (k + 1) ⟨i32Bytes w ++ (i32Bytes h ++ (data ++ rest)), true⟩ =
      match readWeights k ⟨rest, true⟩ with
      | .error e => .error e
      | .ok (ts, fin') => .ok ({ vec := floats len data, width := w, height := h } :: ts, fin') := by
  have hl : IStream.readLocal ⟨i32Bytes w ++ (i32Bytes h ++ (data ++ rest)), true⟩ 8
      = some (i32Bytes w ++ i32Bytes h, ⟨data ++ rest, true⟩) := by
    rw [← List.append_assoc]; exact readLocal_exact _ _ 8 rfl
  have hv : vecSize (wrap32 (w * h)) = some len := by rw [hlen]; exact vecSize_ofNat len
  have hr := read_exact data rest (len * 4) hd
  rw [readWeights]
  simp only [hl, getI32_pair_fst w h hw, getI32_pair_snd w h hh, hv, hr]

/-- One iteration of the bias loop on a record whose data block is complete. -/
theorem readBiases_succ (k : Nat) (size : Int) (hs : IsI32 size)
    (data rest : List Byte) (len : Nat) (hlen : size = (len : Int))
    (hd : data.length = len * 4) :
    readBiases (k + 1) ⟨i32Bytes size ++ (data ++ rest), true⟩ =
      match readBiases k ⟨rest, true⟩ with
      | .error e => .error e
      | .ok (ts, fin') => .ok ({ vec := floats len data, width := size, height := 1 } :: ts, fin') := by
  have hl : IStream.readLocal ⟨i32Bytes size ++ (data ++ rest), true⟩ 4
      = some (i32Bytes size, ⟨data ++ rest, true⟩) := readLocal_exact _ _ 4 rfl
  have hv : vecSize size = some len := by rw [hlen]; exact vecSize_ofNat len
  have hr := read_exact data rest (len * 4) hd
  rw [readBiases]
  simp only [hl, getI32_single size hs, hv, hr]

theorem floats_floatBytes_nil (fs : List F32) : floats fs.length (floatBytes fs) = fs := by
  have e := floats_floatBytes fs []
  rwa [List.append_nil] at e

theorem readWeights_encode (ws : List Tensor) (h : ∀ t ∈ ws, t.WeightOK) (rest : List Byte) :
    readWeights ws.length ⟨ws.flatMap weightBytes ++ rest, true⟩ = .ok (ws, ⟨rest, true⟩) := by
  induction ws with
  | nil => rfl
  | cons t ws ih =>
    have ht := h t (List.mem_cons_self _ _)
    have e : (t :: ws).flatMap weightBytes ++ rest
        = i32Bytes t.width ++ (i32Bytes t.height
            ++ (floatBytes t.vec ++ (ws.flatMap weightBytes ++ rest))) := by
      simp only [List.flatMap_cons, weightBytes, List.append_assoc]
    rw [e, List.length_cons,
      readWeights_succ ws.length t.width t.height ht.1 ht.2.1 _ _ t.vec.length ht.2.2
        (floatBytes_length t.vec),
      ih (fun q hq => h q (List.mem_cons_of_mem _ hq)), floats_floatBytes_nil]

theorem readBiases_encode (bs : List Tensor) (h : ∀ t ∈ bs, t.BiasOK) (rest : List Byte) :
    readBiases bs.length ⟨bs.flatMap biasBytes ++ rest, true⟩ = .ok (bs, ⟨rest, true⟩) := by
  induction bs with
  | nil => rfl
  | cons t bs ih =>
    have ht := h t (List.mem_cons_self _ _)
    have e : (t :: bs).flatMap biasBytes ++ rest
        = i32Bytes t.width ++ (floatBytes t.vec ++ (bs.flatMap biasBytes ++ rest)) := by
      simp only [List.flatMap_cons, biasBytes, List.append_assoc]
    have et : ({ vec := t.vec, width := t.width, height := 1 } : Tensor) = t := by
      have h1 : t.height = 1 := ht.2.2
      cases t
      simp only at h1
      simp only [h1]
    rw [e, List.length_cons,
      readBiases_succ bs.length t.width ht.1 _ _ t.vec.length ht.2.1 (floatBytes_length t.vec),
      ih (fun q hq => h q (List.mem_cons_of_mem _ hq)), floats_floatBytes_nil, et]

/-! ## The load block on a stream with complete header and data blocks -/

theorem getI32_triple (a b c : Int) (ha : IsI32 a) (hb : IsI32 b) (hc : IsI32 c) :
    getI32 (i32Bytes a ++ (i32Bytes b ++ i32Bytes c)) 0 = a ∧
    getI32 (i32Bytes a ++ (i32Bytes b ++ i32Bytes c)) 4 = b ∧
    getI32 (i32Bytes a ++ (i32Bytes b ++ i32Bytes c)) 8 = c := by
  refine ⟨getI32_i32Bytes_of_isI32 a ha _, ?_, ?_⟩
  · rw [show (4 : Nat) = (i32Bytes a).length + 0 from rfl, getI32_append_right]
    exact getI32_i32Bytes_of_isI32 b hb _
  · rw [show (8 : Nat) = (i32Bytes a).length + ((i32Bytes b).length + 0) from rfl,
      getI32_append_right, getI32_append_right]
    exact getI32_single c hc

theorem load_eval (ngf : NGF) (s0 s1 s2 : Int) (np nv nf : Nat) (V F P rest : List Byte)
    (h0 : s0 = (np : Int)) (h0' : s0 < 2147483648) (h1 : s1 = (nv : Int))
    (h1' : s1 < 2147483648) (h2 : IsI32 s2) (hfs : toU32 s2 = 20)
    (hf : wrap32 (s1 * s2) = (nf : Int))
    (hV : V.length = nv * 12) (hF : F.length = nf * 4) (hP : P.length = np * 16) :
    load ngf ⟨i32Bytes s0 ++ (i32Bytes s1 ++ (i32Bytes s2 ++ (V ++ (F ++ (P ++ rest))))), true⟩
      = loadTensors (withCounts ngf s0 s2) (ivec4s np P) (vec3s nv V) (floats nf F)
          ⟨rest, true⟩ := by
  have hi0 : IsI32 s0 := ⟨by omega, h0'⟩
  have hi1 : IsI32 s1 := ⟨by omega, h1'⟩
  obtain ⟨e0, e1, e2⟩ := getI32_triple s0 s1 s2 hi0 hi1 h2
  have hl : IStream.readLocal
      ⟨i32Bytes s0 ++ (i32Bytes s1 ++ (i32Bytes s2 ++ (V ++ (F ++ (P ++ rest))))), true⟩ 12
      = some (i32Bytes s0 ++ (i32Bytes s1 ++ i32Bytes s2), ⟨V ++ (F ++ (P ++ rest)), true⟩) := by
    have e : i32Bytes s0 ++ (i32Bytes s1 ++ (i32Bytes s2 ++ (V ++ (F ++ (P ++ rest)))))
        = (i32Bytes s0 ++ (i32Bytes s1 ++ i32Bytes s2)) ++ (V ++ (F ++ (P ++ rest))) := by
      simp only [List.append_assoc]
    rw [e]; exact readLocal_exact _ _ 12 rfl
  have hv0 : vecSize s0 = some np := by rw [h0]; exact vecSize_ofNat np
  have hv1 : vecSize s1 = some nv := by rw [h1]; exact vecSize_ofNat nv
  have hvf : vecSize (wrap32 (s1 * s2)) = some nf := by rw [hf]; exact vecSize_ofNat nf
  have hrv := read_exact V (F ++ (P ++ rest)) (nv * 12) hV
  have hrf := read_exact F (P ++ rest) (nf * 4) hF
  have hrp := read_exact P rest (np * 16) hP
  unfold load ulog_assert
  simp only [hl, e0, e1, e2, hv0, hv1, hvf, hrv, hrf, hrp, hfs, withCounts]
  simp

theorem encode_assoc (f : NGFFile) (rest : List Byte) :
    encode f ++ rest = i32Bytes f.patch_count ++ (i32Bytes f.vertex_count
      ++ (i32Bytes f.feature_size ++ (f.positions.flatMap vec3Bytes ++ (floatBytes f.features
      ++ (f.patches.flatMap ivec4Bytes
      ++ (f.weights.flatMap weightBytes ++ (f.biases.flatMap biasBytes ++ rest))))))) := by
  simp only [encode, List.append_assoc]

/-- Decoding of a readable file followed by any further bytes. -/
theorem load_encode (ngf : NGF) (f : NGFFile) (hf : f.Readable) (rest : List Byte) :
    load ngf ⟨encode f ++ rest, true⟩ = .loaded (decoded f) := by
  have hfs : toU32 f.feature_size = 20 := by rw [hf.feature_size_eq]; rfl
  have hi2 : IsI32 f.feature_size := by rw [hf.feature_size_eq]; decide
  rw [encode_assoc,
    load_eval ngf f.patch_count f.vertex_count f.feature_size f.patches.length
      f.positions.length f.features.length _ _ _ _ hf.patch_count_eq hf.patch_count_lt
      hf.vertex_count_eq hf.vertex_count_lt hi2 hfs hf.features_eq
      (positionBytes_length _) (floatBytes_length _) (patchBytes_length _)]
  have hw := readWeights_encode f.weights hf.weights_ok (f.biases.flatMap biasBytes ++ rest)
  have hb := readBiases_encode f.biases hf.biases_ok rest
  rw [hf.weights_length] at hw
  rw [hf.biases_length] at hb
  unfold loadTensors
  simp only [hw, hb]
  have ep : ivec4s f.patches.length (f.patches.flatMap ivec4Bytes) = f.patches := by
    have e := ivec4s_patchBytes f.patches hf.patches_i32 []
    rwa [List.append_nil] at e
  have ev : vec3s f.positions.length (f.positions.flatMap vec3Bytes) = f.positions := by
    have e := vec3s_positionBytes f.positions []
    rwa [List.append_nil] at e
  rw [ep, ev, floats_floatBytes_nil]
  rfl

/-! ## What a completed load block has read -/

theorem floats_take (n m : Nat) (bs : List Byte) (h : n * 4 ≤ m) :
    floats n (bs.take m) = floats n bs := by
  induction n generalizing bs m with
  | zero => rfl
  | succ n ih =>
    rw [floats, floats, getF32_take _ _ _ (by omega), List.drop_take, ih _ _ (by omega)]

theorem vec3s_take (n m : Nat) (bs : List Byte) (h : n * 12 ≤ m) :
    vec3s n (bs.take m) = vec3s n bs := by
  induction n generalizing bs m with
  | zero => rfl
  | succ n ih =>
    rw [vec3s, vec3s, getF32_take _ _ _ (by omega), getF32_take _ _ _ (by omega),
      getF32_take _ _ _ (by omega), List.drop_take, ih _ _ (by omega)]

theorem ivec4s_take (n m : Nat) (bs : List Byte) (h : n * 16 ≤ m) :
    ivec4s n (bs.take m) = ivec4s n bs := by
  induction n generalizing bs m with
  | zero => rfl
  | succ n ih =>
    rw [ivec4s, ivec4s, getI32_take _ _ _ (by omega), getI32_take _ _ _ (by omega),
      getI32_take _ _ _ (by omega), getI32_take _ _ _ (by omega), List.drop_take,
      ih _ _ (by omega)]

theorem vecSize_some (x : Int) (n : Nat) (h : vecSize x = some n) : x = (n : Int) := by
  unfold vecSize at h
  split at h
  · injection h with h; omega
  · cases h

theorem vecSize_none (x : Int) (h : vecSize x = none) : x < 0 := by
  unfold vecSize at h
  split at h
  · cases h
  · omega

theorem ofAbort_ne_loaded (n ngf : NGF) (e : Abort) : Outcome.ofAbort n e ≠ .loaded ngf := by
  cases e <;> simp [Outcome.ofAbort]

theorem readWeights_ok_good (k : Nat) (fin : IStream) (r : List Tensor × IStream)
    (h : readWeights (k + 1) fin = .ok r) : fin.good = true := by
  rw [readWeights] at h
  split at h
  · cases h
  · rename_i sizes fin1 hl
    exact (readLocal_some fin 8 _ hl).1

/-- A completed second half of the load block: both loops ran to their end and
every vector field of `ngf` was assigned. -/
theorem loadTensors_loaded (n : NGF) (ps : List IVec4) (vs : List Vec3) (fs : List F32)
    (fin : IStream) (ngf : NGF) (h : loadTensors n ps vs fs fin = .loaded ngf) :
    ∃ fin1 fin2, readWeights LAYERS fin = .ok (ngf.weights, fin1) ∧
      readBiases LAYERS fin1 = .ok (ngf.biases, fin2) ∧
      ngf.patches = ps ∧ ngf.features = fs ∧ ngf.vertices = vs.map pad ∧
      ngf.patch_count = n.patch_count ∧ ngf.feature_size = n.feature_size := by
  unfold loadTensors at h
  split at h
  · exact absurd h (ofAbort_ne_loaded _ _ _)
  · rename_i ws fin1 hw
    split at h
    · exact absurd h (ofAbort_ne_loaded _ _ _)
    · rename_i bs fin2 hb
      injection h with h
      subst h
      exact ⟨fin1, fin2, hw, hb, rfl, rfl, rfl, rfl, rfl⟩

/-- The second half of the load block when both loops run to their end. -/
theorem loadTensors_eval (n : NGF) (ps : List IVec4) (vs : List Vec3) (fs : List F32)
    (fin : IStream) (ws : List Tensor) (fin1 : IStream) (bs : List Tensor) (fin2 : IStream)
    (hw : readWeights LAYERS fin = .ok (ws, fin1))
    (hb : readBiases LAYERS fin1 = .ok (bs, fin2)) :
    loadTensors n ps vs fs fin = .loaded { n with
      patches := ps, features := fs, weights := ws, biases := bs, vertices := vs.map pad } := by
  unfold loadTensors
  simp only [hw, hb]

theorem toU32_getI32_eq (bs : List Byte) (off : Nat) (h : toU32 (getI32 bs off) = 20) :
    getI32 bs off = 20 := by
  unfold getI32 at h ⊢
  rw [toU32_toInt32 _ (getU32_lt bs off)] at h
  rw [h]; rfl

/-- Three reads in a row that leave the stream good were all complete. -/
theorem read3_good (fin : IStream) (a b c : Nat)
    (h : (((fin.read (zeros a) a).2.read (zeros b) b).2.read (zeros c) c).2.good = true) :
    a + b + c ≤ fin.data.length ∧
    fin.read (zeros a) a = (fin.data.take a, ⟨fin.data.drop a, true⟩) ∧
    (fin.read (zeros a) a).2.read (zeros b) b
      = ((fin.data.drop a).take b, ⟨fin.data.drop (a + b), true⟩) ∧
    ((fin.read (zeros a) a).2.read (zeros b) b).2.read (zeros c) c
      = ((fin.data.drop (a + b)).take c, ⟨fin.data.drop (a + b + c), true⟩) := by
  obtain ⟨g2, l3, r3⟩ := read_good _ _ h
  obtain ⟨g1, l2, r2⟩ := read_good _ _ g2
  obtain ⟨_, l1, r1⟩ := read_good _ _ g1
  simp only [r1, List.drop_drop, List.length_drop] at r2 l2
  simp only [r1, r2, List.drop_drop, List.length_drop] at r3 l3
  refine ⟨by omega, r1, ?_, ?_⟩
  · simp only [r1]; exact r2
  · simp only [r1, r2]; exact r3

theorem load_loaded (ngf0 : NGF) (fin : IStream) (ngf : NGF)
    (h : load ngf0 fin = .loaded ngf) : ∃ np nv nf, Loaded fin ngf np nv nf := by
  unfold load ulog_assert at h
  split at h
  swap
  · cases h
  · split at h
    · cases h
    · rename_i sizes fin1 hl
      obtain ⟨hg, hlen, hr⟩ := readLocal_some fin 12 _ hl
      injection hr with hs hf1
      subst hs hf1
      split at h
      · rename_i np nv nf hnp hnv hnf
        simp only at h
        split at h
        swap
        · cases h
        · rename_i hfs
          have hfs' : toU32 (getI32 (List.take 12 fin.data) 8) = 20 := by
            simpa using hfs
          obtain ⟨fin1, fin2, hw, hb, hps, hfe, hvs, hpc, hfz⟩ :=
            loadTensors_loaded _ _ _ _ _ _ h
          have g3 := readWeights_ok_good 3 _ _ hw
          obtain ⟨l3, r1, r2, r3⟩ := read3_good _ _ _ _ g3
          rw [r3] at hw hps
          rw [r2] at hfe
          rw [r1] at hvs
          simp only [List.drop_drop] at hw hps hfe hvs
          simp only [List.length_drop] at l3
          rw [show 12 + (nv * 12 + nf * 4) = 12 + nv * 12 + nf * 4 by omega] at hps
          rw [show 12 + (nv * 12 + nf * 4 + np * 16) = 12 + nv * 12 + nf * 4 + np * 16 by omega]
            at hw
          have e0 := vecSize_some _ _ hnp
          have e1 := vecSize_some _ _ hnv
          have e2 := vecSize_some _ _ hnf
          rw [getI32_take _ _ _ (by omega)] at e0 e1 hfs'
          rw [getI32_take _ _ _ (by omega), getI32_take _ _ _ (by omega)] at e2
          have e8 := toU32_getI32_eq _ _ hfs'
          rw [e8, e1] at e2
          rw [vec3s_take _ _ _ (Nat.le_refl _)] at hvs
          rw [floats_take _ _ _ (Nat.le_refl _)] at hfe
          rw [ivec4s_take _ _ _ (Nat.le_refl _)] at hps
          have hnp32 : (np : Int) < 2147483648 := by
            rw [← e0]; exact (toInt32_range _).2
          refine ⟨np, nv, nf, ⟨hg, e0, e1, e8, e2, by omega, ?_, ?_, hvs, hfe, hps,
            ⟨fin1, fin2, hw, hb⟩⟩⟩
          · rw [hpc]
            show toU32 (getI32 (List.take 12 fin.data) 0) = np
            rw [getI32_take _ _ _ (by omega), e0]
            exact toU32_of_nat np (by omega)
          · rw [hfz]
            show toU32 (getI32 (List.take 12 fin.data) 8) = 20
            rw [getI32_take _ _ _ (by omega), e8]; rfl
      · cases h

/-! ## Indexing decoded blocks and the header of an encoded file -/

theorem getU32_append_left (a b : List Byte) (off : Nat) (h : off + 4 ≤ a.length) :
    getU32 (a ++ b) off = getU32 a off := by
  unfold getU32
  rw [List.getD_append _ _ _ _ (by omega), List.getD_append _ _ _ _ (by omega),
    List.getD_append _ _ _ _ (by omega), List.getD_append _ _ _ _ (by omega)]

theorem getI32_append_left (a b : List Byte) (off : Nat) (h : off + 4 ≤ a.length) :
    getI32 (a ++ b) off = getI32 a off := by
  unfold getI32; rw [getU32_append_left a b off h]

theorem getI32_encode (f : NGFFile) (h0 : IsI32 f.patch_count) (h1 : IsI32 f.vertex_count)
    (h2 : IsI32 f.feature_size) :
    getI32 (encode f) 0 = f.patch_count ∧ getI32 (encode f) 4 = f.vertex_count ∧
      getI32 (encode f) 8 = f.feature_size := by
  have e : encode f = (i32Bytes f.patch_count ++ (i32Bytes f.vertex_count
      ++ i32Bytes f.feature_size)) ++ (f.positions.flatMap vec3Bytes ++ (floatBytes f.features
      ++ (f.patches.flatMap ivec4Bytes
      ++ (f.weights.flatMap weightBytes ++ f.biases.flatMap biasBytes)))) := by
    simp only [encode, List.append_assoc]
  obtain ⟨e0, e1, e2⟩ := getI32_triple _ _ _ h0 h1 h2
  have hl : (i32Bytes f.patch_count ++ (i32Bytes f.vertex_count
      ++ i32Bytes f.feature_size)).length = 12 := rfl
  rw [e, getI32_append_left _ _ 0 (by omega), getI32_append_left _ _ 4 (by omega),
    getI32_append_left _ _ 8 (by omega)]
  exact ⟨e0, e1, e2⟩

theorem floats_getElem? (n : Nat) (bs : List Byte) (i : Nat) (h : i < n) :
    (floats n bs)[i]? = some (getF32 bs (4 * i)) := by
  induction n generalizing bs i with
  | zero => omega
  | succ n ih =>
    cases i with
    | zero => simp [floats]
    | succ i =>
      rw [floats, List.getElem?_cons_succ, ih _ _ (by omega), getF32_drop]
      congr 2; omega

theorem vec3s_getElem? (n : Nat) (bs : List Byte) (i : Nat) (h : i < n) :
    (vec3s n bs)[i]? = some ⟨getF32 bs (12 * i), getF32 bs (12 * i + 4),
      getF32 bs (12 * i + 8)⟩ := by
  induction n generalizing bs i with
  | zero => omega
  | succ n ih =>
    cases i with
    | zero => simp [vec3s]
    | succ i =>
      rw [vec3s, List.getElem?_cons_succ, ih _ _ (by omega), getF32_drop, getF32_drop,
        getF32_drop]
      congr 3 <;> omega

theorem ivec4s_getElem? (n : Nat) (bs : List Byte) (i : Nat) (h : i < n) :
    (ivec4s n bs)[i]? = some ⟨getI32 bs (16 * i), getI32 bs (16 * i + 4),
      getI32 bs (16 * i + 8), getI32 bs (16 * i + 12)⟩ := by
  induction n generalizing bs i with
  | zero => omega
  | succ n ih =>
    cases i with
    | zero => simp [ivec4s]
    | succ i =>
      rw [ivec4s, List.getElem?_cons_succ, ih _ _ (by omega), getI32_drop, getI32_drop,
        getI32_drop, getI32_drop]
      congr 3 <;> omega

/-! ## C1: round trip of the loader -/

theorem NGFFile.WellFormed.readable {f : NGFFile} (hw : f.WellFormed) (ho : f.NoOverflow) :
    f.Readable where
  patch_count_eq := hw.patch_count_eq
  patch_count_lt := hw.patch_count_lt
  vertex_count_eq := hw.vertex_count_eq
  vertex_count_lt := hw.vertex_count_lt
  feature_size_eq := hw.feature_size_eq
  features_eq := by
    have h1 := hw.features_length
    have h2 := ho.features_lt
    rw [wrap32_eq _ (by omega) h2]; exact h1.symm
  patches_i32 := hw.patches_i32
  weights_length := hw.weights_length
  weights_ok := fun t ht => by
    obtain ⟨h1, h2, h3⟩ := hw.weights_shape t ht
    have h4 := ho.weights_lt t ht
    exact ⟨h1, h2, by rw [wrap32_eq _ (by omega) h4]; exact h3.symm⟩
  biases_length := hw.biases_length
  biases_ok := fun t ht => by
    obtain ⟨h1, h2, h3⟩ := hw.biases_shape t ht
    exact ⟨h1, h2.symm, h3⟩

theorem map_xyz_pad (vs : List Vec3) : (vs.map pad).map Vec4.xyz = vs := by
  induction vs with
  | nil => rfl
  | cons v vs ih => simp only [List.map_cons, ih]; rfl

theorem sampleFile_wellFormed : sampleFile.WellFormed where
  patch_count_eq := by decide
  patch_count_lt := by decide
  vertex_count_eq := by decide
  vertex_count_lt := by decide
  feature_size_eq := by decide
  features_length := by decide
  patches_i32 := by decide
  weights_length := by decide
  weights_shape := by decide
  biases_length := by decide
  biases_shape := by decide

theorem sampleFile_noOverflow : sampleFile.NoOverflow where
  features_lt := by decide
  weights_lt := by decide

theorem wideFile_wellFormed : wideFile.WellFormed where
  patch_count_eq := rfl
  patch_count_lt := by decide
  vertex_count_eq := by
    show (214748365 : Int) = ((List.replicate 214748365 (⟨0, 0, 0⟩ : Vec3)).length : Int)
    rw [List.length_replicate]; rfl
  vertex_count_lt := by decide
  feature_size_eq := rfl
  features_length := by
    show ((List.replicate 4294967300 (0 : F32)).length : Int) = 214748365 * 20
    rw [List.length_replicate]; rfl
  patches_i32 := fun p hp => nomatch hp
  weights_length := rfl
  weights_shape := by
    intro t ht
    have e : t = ⟨[], 0, 0⟩ := List.eq_of_mem_replicate ht
    subst e; decide
  biases_length := rfl
  biases_shape := by
    intro t ht
    have e : t = ⟨[], 0, 1⟩ := List.eq_of_mem_replicate ht
    subst e; decide

/-- C1, as amended: for every well-formed file in which no 32-bit size product
overflows, the load block on the encoded byte stream runs to completion and
`ngf` holds the encoded values: counters, positions (first three components
of every vertex), features, patches, and every tensor with its dimensions. -/
theorem load_encode_roundtrip (ngf : NGF) (f : NGFFile) (hw : f.WellFormed)
    (ho : f.NoOverflow) :
    ∃ out, load ngf ⟨encode f, true⟩ = .loaded out ∧
      (out.patch_count : Int) = f.patch_count ∧ (out.feature_size : Int) = f.feature_size ∧
      out.vertices.map Vec4.xyz = f.positions ∧ out.features = f.features ∧
      out.patches = f.patches ∧ out.weights = f.weights ∧ out.biases = f.biases := by
  have h := load_encode ngf f (hw.readable ho) []
  rw [List.append_nil] at h
  refine ⟨decoded f, h, ?_, ?_, map_xyz_pad _, rfl, rfl, rfl, rfl⟩
  · show ((toU32 f.patch_count : Nat) : Int) = f.patch_count
    have h1 := hw.patch_count_eq
    have h2 := hw.patch_count_lt
    unfold toU32; omega
  · show ((toU32 f.feature_size : Nat) : Int) = f.feature_size
    rw [hw.feature_size_eq]; rfl

/-- C1, witness: the round trip of `sampleFile`. -/
theorem load_encode_roundtrip_witness :
    sampleFile.WellFormed ∧ sampleFile.NoOverflow ∧
    ∃ out, load (ngfInit 7 7) ⟨encode sampleFile, true⟩ = .loaded out ∧
      (out.patch_count : Int) = sampleFile.patch_count ∧
      (out.feature_size : Int) = sampleFile.feature_size ∧
      out.vertices.map Vec4.xyz = sampleFile.positions ∧
      out.features = sampleFile.features ∧ out.patches = sampleFile.patches ∧
      out.weights = sampleFile.weights ∧ out.biases = sampleFile.biases :=
  ⟨sampleFile_wellFormed, sampleFile_noOverflow,
    load_encode_roundtrip (ngfInit 7 7) sampleFile sampleFile_wellFormed sampleFile_noOverflow⟩

/-- C1, counterexample: `wideFile` meets every condition of the round-trip
property as stated, yet the load block of its byte stream never yields a
feature array equal to the encoded one: `features.resize` receives the
wrapped product 4. -/
theorem load_encode_roundtrip_counterexample :
    wideFile.WellFormed ∧
    ¬ ∃ out, load (ngfInit 0 0) ⟨encode wideFile, true⟩ = .loaded out ∧
      out.features = wideFile.features := by
  refine ⟨wideFile_wellFormed, ?_⟩
  rintro ⟨out, h, hf⟩
  obtain ⟨np, nv, nf, L⟩ := load_loaded _ _ _ h
  obtain ⟨_, e1, _⟩ := getI32_encode wideFile (by decide) (by decide) (by decide)
  have hv : (nv : Int) = 214748365 := by
    rw [← L.vertex_count_eq]; exact e1
  have hn := L.features_eq
  rw [hv] at hn
  have hw : wrap32 (214748365 * 20) = 4 := by decide
  rw [hw] at hn
  have hl : out.features.length = nf := by rw [L.ngf_features, floats_length]
  have hl' : out.features.length = 4294967300 := by
    rw [hf]; exact List.length_replicate _ _
  omega

/-! ## C2: a feature size other than 20 -/

/-- C2, as amended: on every stream whose third size is not 20 the load block
never completes: it produces no NGF value. When the stream is good and holds
the three sizes, the process terminates inside the load block. Fields of `ngf`
can have been written at that moment: when it is the assertion on
`feature_size` that fails, `patch_count` and `feature_size` have been written
with the first and third size of the file, the other fields of `ngf` being as
before; when it is a `resize` that throws, `ngf` is untouched. -/
theorem load_feature_size_mismatch (ngf : NGF) (fin : IStream)
    (hfs : getI32 fin.data 8 ≠ 20) :
    (∀ out, load ngf fin ≠ .loaded out) ∧
    (fin.good = true → 12 ≤ fin.data.length →
      (∃ cause n, load ngf fin = .fatal cause n) ∧
      (∀ n, load ngf fin = .fatal .assertion n →
        n = withCounts ngf (getI32 fin.data 0) (getI32 fin.data 8)) ∧
      (∀ n, load ngf fin = .fatal .lengthError n → n = ngf)) ∧
    (∀ s0 s2, (withCounts ngf s0 s2).patches = ngf.patches ∧
      (withCounts ngf s0 s2).vertices = ngf.vertices ∧
      (withCounts ngf s0 s2).features = ngf.features ∧
      (withCounts ngf s0 s2).weights = ngf.weights ∧
      (withCounts ngf s0 s2).biases = ngf.biases ∧
      (withCounts ngf s0 s2).patch_count = toU32 s0 ∧
      (withCounts ngf s0 s2).feature_size = toU32 s2) := by
  refine ⟨?_, ?_, fun _ _ => ⟨rfl, rfl, rfl, rfl, rfl, rfl, rfl⟩⟩
  · intro out h
    obtain ⟨np, nv, nf, hL⟩ := load_loaded ngf fin out h
    exact hfs hL.feature_size_eq
  intro hg hl
  have heq : load ngf fin =
      if getI32 fin.data 0 < 0 ∨ getI32 fin.data 4 < 0
          ∨ wrap32 (getI32 fin.data 4 * getI32 fin.data 8) < 0 then
        .fatal .lengthError ngf
      else .fatal .assertion (withCounts ngf (getI32 fin.data 0) (getI32 fin.data 8)) := by
    have hr : fin.readLocal 12 = some (fin.data.take 12, ⟨fin.data.drop 12, true⟩) := by
      simp [IStream.readLocal, hg, hl]
    have hu : toU32 (getI32 fin.data 8) ≠ 20 := fun h => hfs (toU32_getI32_eq _ _ h)
    have t0 : getI32 (fin.data.take 12) 0 = getI32 fin.data 0 := getI32_take _ _ _ (by omega)
    have t4 : getI32 (fin.data.take 12) 4 = getI32 fin.data 4 := getI32_take _ _ _ (by omega)
    have t8 : getI32 (fin.data.take 12) 8 = getI32 fin.data 8 := getI32_take _ _ _ (by omega)
    unfold load ulog_assert
    simp only [hg, hr, if_true, t0, t4, t8]
    by_cases h0 : 0 ≤ getI32 fin.data 0
    · by_cases h1 : 0 ≤ getI32 fin.data 4
      · by_cases h2 : 0 ≤ wrap32 (getI32 fin.data 4 * getI32 fin.data 8)
        · have hc : ¬ (getI32 fin.data 0 < 0 ∨ getI32 fin.data 4 < 0
              ∨ wrap32 (getI32 fin.data 4 * getI32 fin.data 8) < 0) := by omega
          simp only [vecSize, h0, h1, h2, if_true, hc, if_false, hu, decide_False, withCounts]
          rfl
        · have hc : getI32 fin.data 0 < 0 ∨ getI32 fin.data 4 < 0
              ∨ wrap32 (getI32 fin.data 4 * getI32 fin.data 8) < 0 := by omega
          simp only [vecSize, h0, h1, h2, if_true, hc, if_false]
      · have hc : getI32 fin.data 0 < 0 ∨ getI32 fin.data 4 < 0
            ∨ wrap32 (getI32 fin.data 4 * getI32 fin.data 8) < 0 := by omega
        simp only [vecSize, h0, h1, if_true, hc, if_false]
    · have hc : getI32 fin.data 0 < 0 ∨ getI32 fin.data 4 < 0
          ∨ wrap32 (getI32 fin.data 4 * getI32 fin.data 8) < 0 := by omega
      simp only [vecSize, h0, if_true, hc, if_false]
  rw [heq]
  split
  · refine ⟨⟨_, _, rfl⟩, ?_, ?_⟩
    · intro n h
      injection h with h1 _
      cases h1
    · intro n h
      injection h with _ h2
      exact h2.symm
  · refine ⟨⟨_, _, rfl⟩, ?_, ?_⟩
    · intro n h
      injection h with _ h2
      exact h2.symm
    · intro n h
      injection h with h1 _
      cases h1

/-- C2, witness: the stream `badFeatureSize`, with the sizes 1, 0 and 19,
yields no NGF value; the process terminates. -/
theorem load_feature_size_mismatch_witness :
    getI32 badFeatureSize.data 8 ≠ 20 ∧
    badFeatureSize.good = true ∧ 12 ≤ badFeatureSize.data.length ∧
    (∀ out, load (ngfInit 0 0) badFeatureSize ≠ .loaded out) ∧
    (∃ cause n, load (ngfInit 0 0) badFeatureSize = .fatal cause n) :=
  ⟨by decide, rfl, by decide,
    (load_feature_size_mismatch (ngfInit 0 0) badFeatureSize (by decide)).1,
    ((load_feature_size_mismatch (ngfInit 0 0) badFeatureSize (by decide)).2.1 rfl
      (by decide)).1⟩

/-- C2, counterexample: with feature size 19 the load block fails at the
assertion, and `ngf` is no longer what it was: `patch_count` went from 0 to 1
and `feature_size` from 0 to 19. -/
theorem load_feature_size_mismatch_counterexample :
    getI32 badFeatureSize.data 8 = 19 ∧
    load (ngfInit 0 0) badFeatureSize = .fatal .assertion (ngfInit 1 19) ∧
    ngfInit 1 19 ≠ ngfInit 0 0 := by
  decide

/-! ## C3: a stream that ends early -/

/-- The bias loop on complete records followed by `k` further iterations. -/
theorem readBiases_encode_add (bs : List Tensor) (h : ∀ t ∈ bs, t.BiasOK) (k : Nat)
    (rest : List Byte) :
    readBiases (bs.length + k) ⟨bs.flatMap biasBytes ++ rest, true⟩ =
      match readBiases k ⟨rest, true⟩ with
      | .error e => .error e
      | .ok (ts, fin') => .ok (bs ++ ts, fin') := by
  induction bs with
  | nil =>
    simp only [List.length_nil, Nat.zero_add, List.flatMap_nil, List.nil_append]
    cases readBiases k ⟨rest, true⟩ with
    | error e => rfl
    | ok r => rfl
  | cons t bs ih =>
    have ht := h t (List.mem_cons_self _ _)
    have e : (t :: bs).flatMap biasBytes ++ rest
        = i32Bytes t.width ++ (floatBytes t.vec ++ (bs.flatMap biasBytes ++ rest)) := by
      simp only [List.flatMap_cons, biasBytes, List.append_assoc]
    have et : ({ vec := t.vec, width := t.width, height := 1 } : Tensor) = t := by
      have h1 : t.height = 1 := ht.2.2
      cases t
      simp only at h1
      simp only [h1]
    have el : (t :: bs).length + k = (bs.length + k) + 1 := by
      simp only [List.length_cons]; omega
    rw [e, el,
      readBiases_succ (bs.length + k) t.width ht.1 _ _ t.vec.length ht.2.1
        (floatBytes_length t.vec),
      ih (fun q hq => h q (List.mem_cons_of_mem _ hq)), floats_floatBytes_nil, et]
    cases readBiases k ⟨rest, true⟩ with
    | error e => rfl
    | ok r => rfl

theorem take_append_sub (X Y : List Byte) (k : Nat) (hk : k ≤ Y.length) :
    (X ++ Y).take ((X ++ Y).length - k) = X ++ Y.take (Y.length - k) := by
  rw [List.length_append, List.take_append_eq_append_take, List.take_of_length_le (by omega)]
  congr 2
  omega

/-- The last iteration of the bias loop on a record whose data block ends
early: the bytes present are stored, the rest of the vector stays zero, no
error is raised, and the stream is left failed. -/
theorem readBiases_short (size : Int) (hs : IsI32 size) (len : Nat) (hlen : size = (len : Int))
    (part : List Byte) (hp : part.length < len * 4) :
    readBiases 1 ⟨i32Bytes size ++ part, true⟩ =
      .ok ([{ vec := floats len (part ++ zeros (len * 4 - part.length)),
              width := size, height := 1 }], ⟨[], false⟩) := by
  have hl : IStream.readLocal ⟨i32Bytes size ++ part, true⟩ 4
      = some (i32Bytes size, ⟨part, true⟩) := readLocal_exact _ _ 4 rfl
  have hv : vecSize size = some len := by rw [hlen]; exact vecSize_ofNat len
  have hr : IStream.read ⟨part, true⟩ (zeros (len * 4)) (len * 4)
      = (part ++ zeros (len * 4 - part.length), ⟨[], false⟩) := by
    have h1 : List.take (len * 4) part = part := List.take_of_length_le (by omega)
    have h2 : List.drop (len * 4) part = [] := List.drop_eq_nil_of_le (by omega)
    have h3 : ¬ len * 4 ≤ part.length := by omega
    simp only [IStream.read, if_true, h1, h2, zeros, List.drop_replicate, h3, decide_False]
  rw [readBiases]
  simp only [hl, getI32_single size hs, hv, hr, readBiases]

/-- A stream that lacks the last `k` bytes of the data of the last bias vector
is loaded to completion, the bytes not read being zero. -/
theorem load_truncated_tail (ngf : NGF) (f : NGFFile) (hw : f.WellFormed)
    (ho : f.NoOverflow) (bs : List Tensor) (t : Tensor) (hb : f.biases = bs ++ [t])
    (k : Nat) (hk : 0 < k) (hk' : k ≤ t.vec.length * 4) :
    load ngf ⟨(encode f).take ((encode f).length - k), true⟩ =
      .loaded (decoded { f with biases := bs ++ [{ t with
        vec := floats t.vec.length
          ((floatBytes t.vec).take (t.vec.length * 4 - k) ++ zeros k) }] }) := by
  have hr := hw.readable ho
  have hfs : toU32 f.feature_size = 20 := by rw [hr.feature_size_eq]; rfl
  have hi2 : IsI32 f.feature_size := by rw [hr.feature_size_eq]; decide
  have hbs : ∀ q ∈ bs, q.BiasOK := fun q hq =>
    hr.biases_ok q (by rw [hb]; exact List.mem_append_left _ hq)
  have ht : t.BiasOK := hr.biases_ok t (by rw [hb]; simp)
  have hbl : bs.length + 1 = LAYERS := by
    have := hr.biases_length; rw [hb] at this; simpa using this
  -- the stream, cut inside the last data block
  have e1 : encode f = i32Bytes f.patch_count ++ (i32Bytes f.vertex_count
      ++ (i32Bytes f.feature_size ++ (f.positions.flatMap vec3Bytes ++ (floatBytes f.features
      ++ (f.patches.flatMap ivec4Bytes ++ (f.weights.flatMap weightBytes
      ++ (bs.flatMap biasBytes ++ i32Bytes t.width))))))) ++ floatBytes t.vec := by
    simp only [encode, hb, List.flatMap_append, List.flatMap_cons, List.flatMap_nil, biasBytes,
      List.append_assoc, List.append_nil]
  have e2 : (encode f).take ((encode f).length - k) =
      i32Bytes f.patch_count ++ (i32Bytes f.vertex_count
      ++ (i32Bytes f.feature_size ++ (f.positions.flatMap vec3Bytes ++ (floatBytes f.features
      ++ (f.patches.flatMap ivec4Bytes ++ (f.weights.flatMap weightBytes
      ++ (bs.flatMap biasBytes ++ (i32Bytes t.width
      ++ (floatBytes t.vec).take (t.vec.length * 4 - k))))))))) := by
    rw [e1, take_append_sub _ _ k (by rw [floatBytes_length]; exact hk'), floatBytes_length]
    simp only [List.append_assoc]
  have hpl : ((floatBytes t.vec).take (t.vec.length * 4 - k)).length
      = t.vec.length * 4 - k := by
    rw [List.length_take, floatBytes_length]; omega
  rw [e2, load_eval ngf f.patch_count f.vertex_count f.feature_size f.patches.length
      f.positions.length f.features.length _ _ _ _ hr.patch_count_eq hr.patch_count_lt
      hr.vertex_count_eq hr.vertex_count_lt hi2 hfs hr.features_eq
      (positionBytes_length _) (floatBytes_length _) (patchBytes_length _)]
  have hws := readWeights_encode f.weights hr.weights_ok
    (bs.flatMap biasBytes ++ (i32Bytes t.width
      ++ (floatBytes t.vec).take (t.vec.length * 4 - k)))
  rw [hr.weights_length] at hws
  have hbz := readBiases_encode_add bs hbs 1
    (i32Bytes t.width ++ (floatBytes t.vec).take (t.vec.length * 4 - k))
  rw [hbl, readBiases_short t.width ht.1 t.vec.length ht.2.1 _ (by rw [hpl]; omega)] at hbz
  simp only at hbz
  unfold loadTensors
  simp only [hws, hbz]
  have ep : ivec4s f.patches.length (f.patches.flatMap ivec4Bytes) = f.patches := by
    have e := ivec4s_patchBytes f.patches hr.patches_i32 []
    rwa [List.append_nil] at e
  have ev : vec3s f.positions.length (f.positions.flatMap vec3Bytes) = f.positions := by
    have e := vec3s_positionBytes f.positions []
    rwa [List.append_nil] at e
  have ek : t.vec.length * 4 - (t.vec.length * 4 - k) = k := by omega
  rw [ep, ev, floats_floatBytes_nil, hpl, ek]
  have eh : t.height = 1 := ht.2.2
  simp only [decoded, withCounts, eh]

theorem read_failed (d dst : List Byte) (n : Nat) :
    IStream.read ⟨d, false⟩ dst n = (dst, ⟨d, false⟩) := by
  simp [IStream.read]

theorem readLocal_failed (d : List Byte) (n : Nat) :
    IStream.readLocal ⟨d, false⟩ n = none := by
  simp [IStream.readLocal]

theorem take_append_ge (a rest : List Byte) (j : Nat) (h : a.length ≤ j) :
    (a ++ rest).take j = a ++ rest.take (j - a.length) := by
  rw [List.take_append_eq_append_take, List.take_of_length_le h]

theorem take_append_lt (a rest : List Byte) (j : Nat) (h : j < a.length) :
    (a ++ rest).take j = a.take j := by
  rw [List.take_append_eq_append_take, show j - a.length = 0 by omega, List.take_zero,
    List.append_nil]

theorem read_take_ge (a rest : List Byte) (j n : Nat) (h : a.length = n) (hj : n ≤ j) :
    IStream.read ⟨(a ++ rest).take j, true⟩ (zeros n) n = (a, ⟨rest.take (j - n), true⟩) := by
  rw [take_append_ge _ _ _ (by omega), h]
  exact read_exact a _ n h

theorem read_take_lt (a rest : List Byte) (j n : Nat) (h : a.length = n) (hj : j < n) :
    (IStream.read ⟨(a ++ rest).take j, true⟩ (zeros n) n).2 = ⟨[], false⟩ := by
  rw [take_append_lt _ _ _ (by omega)]
  have hl : (a.take j).length = j := by rw [List.length_take]; omega
  have h1 : List.drop n (List.take j a) = [] := List.drop_eq_nil_of_le (by omega)
  have h2 : ¬ n ≤ j := by omega
  simp only [IStream.read, if_true, h1, hl, h2, decide_False]

theorem readLocal_take_ge (a rest : List Byte) (j n : Nat) (h : a.length = n) (hj : n ≤ j) :
    IStream.readLocal ⟨(a ++ rest).take j, true⟩ n = some (a, ⟨rest.take (j - n), true⟩) := by
  rw [take_append_ge _ _ _ (by omega), h]
  exact readLocal_exact a _ n h

theorem readLocal_short (d : List Byte) (n : Nat) (h : d.length < n) :
    IStream.readLocal ⟨d, true⟩ n = none := by
  have h2 : ¬ n ≤ d.length := by omega
  simp [IStream.readLocal, h2]

theorem readWeights_step (k : Nat) (fin : IStream) (sizes : List Byte) (fin1 : IStream)
    (hl : fin.readLocal 8 = some (sizes, fin1)) (len : Nat)
    (hv : vecSize (wrap32 (getI32 sizes 0 * getI32 sizes 4)) = some len) :
    readWeights (k + 1) fin =
      match readWeights k (fin1.read (zeros (len * 4)) (len * 4)).2 with
      | .error e => .error e
      | .ok (ts, fin') =>
        .ok ({ vec := floats len (fin1.read (zeros (len * 4)) (len * 4)).1,
               width := getI32 sizes 0, height := getI32 sizes 4 } :: ts, fin') := by
  rw [readWeights]
  simp only [hl, hv]

theorem readBiases_step (k : Nat) (fin : IStream) (size : List Byte) (fin1 : IStream)
    (hl : fin.readLocal 4 = some (size, fin1)) (len : Nat)
    (hv : vecSize (getI32 size 0) = some len) :
    readBiases (k + 1) fin =
      match readBiases k (fin1.read (zeros (len * 4)) (len * 4)).2 with
      | .error e => .error e
      | .ok (ts, fin') =>
        .ok ({ vec := floats len (fin1.read (zeros (len * 4)) (len * 4)).1,
               width := getI32 size 0, height := 1 } :: ts, fin') := by
  rw [readBiases]
  simp only [hl, hv]

theorem readWeights_failed (k : Nat) (d : List Byte) : Doomed (readWeights k ⟨d, false⟩) := by
  cases k with
  | zero => exact Or.inr ⟨[], d, rfl⟩
  | succ k =>
    left
    rw [readWeights]
    simp only [readLocal_failed]

theorem readBiases_failed (k : Nat) (d : List Byte) :
    readBiases (k + 1) ⟨d, false⟩ = .error .indeterminate := by
  rw [readBiases]
  simp only [readLocal_failed]

/-- The weight loop on a stream that ends inside the weight records. -/
theorem readWeights_take_lt (ws : List Tensor) (h : ∀ t ∈ ws, t.WeightOK) (rest : List Byte)
    (j : Nat) (hj : j < (ws.flatMap weightBytes).length) :
    Doomed (readWeights ws.length ⟨(ws.flatMap weightBytes ++ rest).take j, true⟩) := by
  induction ws generalizing j with
  | nil => simp at hj
  | cons t ws ih =>
    have ht := h t (List.mem_cons_self _ _)
    have e : (t :: ws).flatMap weightBytes ++ rest
        = (i32Bytes t.width ++ i32Bytes t.height)
            ++ (floatBytes t.vec ++ (ws.flatMap weightBytes ++ rest)) := by
      simp only [List.flatMap_cons, weightBytes, List.append_assoc]
    have hlen : ((t :: ws).flatMap weightBytes).length
        = 8 + t.vec.length * 4 + (ws.flatMap weightBytes).length := by
      simp only [List.flatMap_cons, weightBytes, List.length_append, i32Bytes_length,
        floatBytes_length]
    rw [hlen] at hj
    rw [e, List.length_cons]
    by_cases hj8 : j < 8
    · left
      rw [readWeights]
      have hn : IStream.readLocal ⟨((i32Bytes t.width ++ i32Bytes t.height)
          ++ (floatBytes t.vec ++ (ws.flatMap weightBytes ++ rest))).take j, true⟩ 8 = none :=
        readLocal_short _ 8 (by rw [List.length_take]; omega)
      simp only [hn]
    · have hl := readLocal_take_ge (i32Bytes t.width ++ i32Bytes t.height)
        (floatBytes t.vec ++ (ws.flatMap weightBytes ++ rest)) j 8 rfl (by omega)
      have hv : vecSize (wrap32 (getI32 (i32Bytes t.width ++ i32Bytes t.height) 0
          * getI32 (i32Bytes t.width ++ i32Bytes t.height) 4)) = some t.vec.length := by
        rw [getI32_pair_fst _ _ ht.1, getI32_pair_snd _ _ ht.2.1, ht.2.2]
        exact vecSize_ofNat _
      rw [readWeights_step _ _ _ _ hl _ hv]
      have hd : Doomed (readWeights ws.length
          (IStream.read ⟨(floatBytes t.vec ++ (ws.flatMap weightBytes ++ rest)).take (j - 8),
            true⟩ (zeros (t.vec.length * 4)) (t.vec.length * 4)).2) := by
        by_cases hjd : j - 8 < t.vec.length * 4
        · rw [read_take_lt _ _ _ _ (floatBytes_length t.vec) hjd]
          exact readWeights_failed _ _
        · rw [read_take_ge _ _ _ _ (floatBytes_length t.vec) (by omega)]
          exact ih (fun q hq => h q (List.mem_cons_of_mem _ hq)) _ (by omega)
      rcases hd with hd | ⟨ts, d, hd⟩
      · left; rw [hd]
      · right; rw [hd]; exact ⟨_, d, rfl⟩

/-- The bias loop on a stream that ends before the size of its last record is
complete. -/
theorem readBiases_take_lt (bs : List Tensor) (h : ∀ t ∈ bs, t.BiasOK) (tail : List Byte)
    (j : Nat) (hj : j < (bs.flatMap biasBytes).length + 4) :
    readBiases (bs.length + 1) ⟨(bs.flatMap biasBytes ++ tail).take j, true⟩
      = .error .indeterminate := by
  induction bs generalizing j with
  | nil =>
    simp only [List.flatMap_nil, List.length_nil, Nat.zero_add] at hj ⊢
    rw [readBiases]
    have hn : IStream.readLocal ⟨([] ++ tail).take j, true⟩ 4 = none :=
      readLocal_short _ 4 (by rw [List.length_take]; omega)
    simp only [hn]
  | cons t bs ih =>
    have ht := h t (List.mem_cons_self _ _)
    have e : (t :: bs).flatMap biasBytes ++ tail
        = i32Bytes t.width ++ (floatBytes t.vec ++ (bs.flatMap biasBytes ++ tail)) := by
      simp only [List.flatMap_cons, biasBytes, List.append_assoc]
    have hlen : ((t :: bs).flatMap biasBytes).length
        = 4 + t.vec.length * 4 + (bs.flatMap biasBytes).length := by
      simp only [List.flatMap_cons, biasBytes, List.length_append, i32Bytes_length,
        floatBytes_length]
    rw [hlen] at hj
    rw [e, List.length_cons]
    by_cases hj4 : j < 4
    · rw [readBiases]
      have hn : IStream.readLocal ⟨(i32Bytes t.width
          ++ (floatBytes t.vec ++ (bs.flatMap biasBytes ++ tail))).take j, true⟩ 4 = none :=
        readLocal_short _ 4 (by rw [List.length_take]; omega)
      simp only [hn]
    · have hl := readLocal_take_ge (i32Bytes t.width)
        (floatBytes t.vec ++ (bs.flatMap biasBytes ++ tail)) j 4 rfl (by omega)
      have hv : vecSize (getI32 (i32Bytes t.width) 0) = some t.vec.length := by
        rw [getI32_single _ ht.1, ht.2.1]
        exact vecSize_ofNat _
      rw [readBiases_step _ _ _ _ hl _ hv]
      by_cases hjd : j - 4 < t.vec.length * 4
      · rw [read_take_lt _ _ _ _ (floatBytes_length t.vec) hjd, readBiases_failed]
      · rw [read_take_ge _ _ _ _ (floatBytes_length t.vec) (by omega),
          ih (fun q hq => h q (List.mem_cons_of_mem _ hq)) _ (by omega)]

theorem loadTensors_doomed (n : NGF) (ps : List IVec4) (vs : List Vec3) (fs : List F32)
    (fin : IStream) (h : Doomed (readWeights LAYERS fin)) :
    loadTensors n ps vs fs fin = .undefined := by
  unfold loadTensors
  rcases h with h | ⟨ts, d, h⟩
  · simp only [h, Outcome.ofAbort]
  · have hb : readBiases LAYERS ⟨d, false⟩ = .error .indeterminate := readBiases_failed 3 d
    simp only [h, hb, Outcome.ofAbort]

theorem loadTensors_bias_short (n : NGF) (ps : List IVec4) (vs : List Vec3) (fs : List F32)
    (fin : IStream) (ws : List Tensor) (fin1 : IStream)
    (hw : readWeights LAYERS fin = .ok (ws, fin1))
    (hb : readBiases LAYERS fin1 = .error .indeterminate) :
    loadTensors n ps vs fs fin = .undefined := by
  unfold loadTensors
  simp only [hw, hb, Outcome.ofAbort]

/-- The load block on a stream whose three sizes are complete: the rest of the
block on the three reads that follow. -/
theorem load_header (ngf : NGF) (s0 s1 s2 : Int) (np nv nf : Nat) (body : List Byte)
    (h0 : s0 = (np : Int)) (h0' : s0 < 2147483648) (h1 : s1 = (nv : Int))
    (h1' : s1 < 2147483648) (h2 : IsI32 s2) (hfs : toU32 s2 = 20)
    (hf : wrap32 (s1 * s2) = (nf : Int)) :
    load ngf ⟨i32Bytes s0 ++ (i32Bytes s1 ++ (i32Bytes s2 ++ body)), true⟩
      = loadTensors (withCounts ngf s0 s2)
          (ivec4s np (((IStream.read ⟨body, true⟩ (zeros (nv * 12)) (nv * 12)).2.read
            (zeros (nf * 4)) (nf * 4)).2.read (zeros (np * 16)) (np * 16)).1)
          (vec3s nv (IStream.read ⟨body, true⟩ (zeros (nv * 12)) (nv * 12)).1)
          (floats nf ((IStream.read ⟨body, true⟩ (zeros (nv * 12)) (nv * 12)).2.read
            (zeros (nf * 4)) (nf * 4)).1)
          (((IStream.read ⟨body, true⟩ (zeros (nv * 12)) (nv * 12)).2.read
            (zeros (nf * 4)) (nf * 4)).2.read (zeros (np * 16)) (np * 16)).2 := by
  have hi0 : IsI32 s0 := ⟨by omega, h0'⟩
  have hi1 : IsI32 s1 := ⟨by omega, h1'⟩
  obtain ⟨e0, e1, e2⟩ := getI32_triple s0 s1 s2 hi0 hi1 h2
  have hl : IStream.readLocal
      ⟨i32Bytes s0 ++ (i32Bytes s1 ++ (i32Bytes s2 ++ body)), true⟩ 12
      = some (i32Bytes s0 ++ (i32Bytes s1 ++ i32Bytes s2), ⟨body, true⟩) := by
    have e : i32Bytes s0 ++ (i32Bytes s1 ++ (i32Bytes s2 ++ body))
        = (i32Bytes s0 ++ (i32Bytes s1 ++ i32Bytes s2)) ++ body := by
      simp only [List.append_assoc]
    rw [e]; exact readLocal_exact _ _ 12 rfl
  have hv0 : vecSize s0 = some np := by rw [h0]; exact vecSize_ofNat np
  have hv1 : vecSize s1 = some nv := by rw [h1]; exact vecSize_ofNat nv
  have hvf : vecSize (wrap32 (s1 * s2)) = some nf := by rw [hf]; exact vecSize_ofNat nf
  unfold load ulog_assert
  simp only [hl, e0, e1, e2, hv0, hv1, hvf, hfs, withCounts]
  simp

/-- Three reads in a row on a stream cut after `j` bytes: the stream is left
good, at the rest of the data, exactly when all three blocks were present. -/
theorem read3_take (A B C T : List Byte) (a b c j : Nat) (hA : A.length = a)
    (hB : B.length = b) (hC : C.length = c) :
    (((IStream.read ⟨(A ++ (B ++ (C ++ T))).take j, true⟩ (zeros a) a).2.read
        (zeros b) b).2.read (zeros c) c).2
      = if a + b + c ≤ j then ⟨T.take (j - (a + b + c)), true⟩ else ⟨[], false⟩ := by
  by_cases ha : a ≤ j
  · rw [read_take_ge A _ j a hA ha]
    by_cases hb : b ≤ j - a
    · rw [read_take_ge B _ (j - a) b hB hb]
      by_cases hc : c ≤ j - a - b
      · rw [read_take_ge C _ (j - a - b) c hC hc, if_pos (by omega)]
        simp only
        congr 2; omega
      · rw [read_take_lt C _ (j - a - b) c hC (by omega), if_neg (by omega)]
    · rw [read_take_lt B _ (j - a) b hB (by omega), read_failed, if_neg (by omega)]
  · rw [read_take_lt A _ j a hA (by omega), read_failed, read_failed, if_neg (by omega)]

/-- A stream that ends before the size of the last bias vector is complete:
the load block uses an indeterminate value. -/
theorem load_truncated_head (ngf : NGF) (f : NGFFile) (hw : f.WellFormed)
    (ho : f.NoOverflow) (bs : List Tensor) (t : Tensor) (hb : f.biases = bs ++ [t])
    (m : Nat) (hm : m + t.vec.length * 4 < (encode f).length) :
    load ngf ⟨(encode f).take m, true⟩ = .undefined := by
  have hr := hw.readable ho
  have hfs : toU32 f.feature_size = 20 := by rw [hr.feature_size_eq]; rfl
  have hi2 : IsI32 f.feature_size := by rw [hr.feature_size_eq]; decide
  have hbs : ∀ q ∈ bs, q.BiasOK := fun q hq =>
    hr.biases_ok q (by rw [hb]; exact List.mem_append_left _ hq)
  have hbl : bs.length + 1 = LAYERS := by
    have := hr.biases_length; rw [hb] at this; simpa using this
  have e1 : encode f = (i32Bytes f.patch_count ++ (i32Bytes f.vertex_count
      ++ i32Bytes f.feature_size)) ++ (f.positions.flatMap vec3Bytes ++ (floatBytes f.features
      ++ (f.patches.flatMap ivec4Bytes ++ (f.weights.flatMap weightBytes
      ++ (bs.flatMap biasBytes ++ (i32Bytes t.width ++ floatBytes t.vec)))))) := by
    simp only [encode, hb, List.flatMap_append, List.flatMap_cons, List.flatMap_nil, biasBytes,
      List.append_assoc, List.append_nil]
  have hlen : (encode f).length = 12 + f.positions.length * 12 + f.features.length * 4
      + f.patches.length * 16 + (f.weights.flatMap weightBytes).length
      + (bs.flatMap biasBytes).length + 4 + t.vec.length * 4 := by
    rw [e1]
    simp only [List.length_append, i32Bytes_length, positionBytes_length, floatBytes_length,
      patchBytes_length]
    omega
  rw [hlen] at hm
  by_cases hm12 : m < 12
  · have hn : IStream.readLocal ⟨(encode f).take m, true⟩ 12 = none :=
      readLocal_short _ 12 (by rw [List.length_take]; omega)
    unfold load ulog_assert
    simp only [hn, if_true]
  · rw [e1, take_append_ge _ _ _ (by
      show (i32Bytes f.patch_count ++ (i32Bytes f.vertex_count
        ++ i32Bytes f.feature_size)).length ≤ m
      have : (i32Bytes f.patch_count ++ (i32Bytes f.vertex_count
        ++ i32Bytes f.feature_size)).length = 12 := rfl
      omega)]
    have h12 : (i32Bytes f.patch_count ++ (i32Bytes f.vertex_count
        ++ i32Bytes f.feature_size)).length = 12 := rfl
    rw [h12, List.append_assoc, List.append_assoc,
      load_header ngf f.patch_count f.vertex_count f.feature_size f.patches.length
        f.positions.length f.features.length _ hr.patch_count_eq hr.patch_count_lt
        hr.vertex_count_eq hr.vertex_count_lt hi2 hfs hr.features_eq,
      read3_take _ _ _ _ _ _ _ (m - 12) (positionBytes_length _) (floatBytes_length _)
        (patchBytes_length _)]
    by_cases hall : f.positions.length * 12 + f.features.length * 4 + f.patches.length * 16
        ≤ m - 12
    · rw [if_pos hall]
      by_cases hwj : (f.weights.flatMap weightBytes).length
          ≤ m - 12 - (f.positions.length * 12 + f.features.length * 4 + f.patches.length * 16)
      · have hws := readWeights_encode f.weights hr.weights_ok
          ((bs.flatMap biasBytes ++ (i32Bytes t.width ++ floatBytes t.vec)).take
            (m - 12 - (f.positions.length * 12 + f.features.length * 4
              + f.patches.length * 16) - (f.weights.flatMap weightBytes).length))
        rw [hr.weights_length, ← take_append_ge _ _ _ hwj] at hws
        have hbz := readBiases_take_lt bs hbs (i32Bytes t.width ++ floatBytes t.vec)
          (m - 12 - (f.positions.length * 12 + f.features.length * 4
              + f.patches.length * 16) - (f.weights.flatMap weightBytes).length) (by omega)
        rw [hbl] at hbz
        exact loadTensors_bias_short _ _ _ _ _ _ _ hws hbz
      · have hd := readWeights_take_lt f.weights hr.weights_ok
          (bs.flatMap biasBytes ++ (i32Bytes t.width ++ floatBytes t.vec))
          (m - 12 - (f.positions.length * 12 + f.features.length * 4
            + f.patches.length * 16)) (by omega)
        rw [hr.weights_length] at hd
        exact loadTensors_doomed _ _ _ _ _ hd
    · rw [if_neg hall]
      exact loadTensors_doomed _ _ _ _ _ (readWeights_failed _ _)

/-- C3, as amended: the load block has no format error and tests no read. For
every well-formed file without size overflow and every stream that ends
early: when only the last `k` bytes of the data of the last bias vector are
missing, the block runs to completion and yields the NGF of the whole file
except that the floats of the last bias vector are made of the bytes present
followed by `k` zero bytes; when the stream ends before the size field of the
last bias vector is complete, the block uses an indeterminate value. -/
theorem load_truncated (ngf : NGF) (f : NGFFile) (hw : f.WellFormed)
    (ho : f.NoOverflow) (bs : List Tensor) (t : Tensor) (hb : f.biases = bs ++ [t]) :
    (∀ k, 0 < k → k ≤ t.vec.length * 4 →
      load ngf ⟨(encode f).take ((encode f).length - k), true⟩ =
        .loaded (decoded { f with biases := bs ++ [{ t with
          vec := floats t.vec.length
            ((floatBytes t.vec).take (t.vec.length * 4 - k) ++ zeros k) }] })) ∧
    (∀ m, m + t.vec.length * 4 < (encode f).length →
      load ngf ⟨(encode f).take m, true⟩ = .undefined) :=
  ⟨fun k hk hk' => load_truncated_tail ngf f hw ho bs t hb k hk hk',
    fun m hm => load_truncated_head ngf f hw ho bs t hb m hm⟩

/-- C3, witness: `sampleFile` without the last byte of its last bias vector,
and cut after 100 bytes. -/
theorem load_truncated_witness :
    sampleFile.WellFormed ∧ sampleFile.NoOverflow ∧
    sampleFile.biases = [⟨[31], 1, 1⟩, ⟨[], 0, 1⟩, ⟨[32, 33], 2, 1⟩] ++ [⟨[3204448256], 1, 1⟩] ∧
    load (ngfInit 0 0) ⟨(encode sampleFile).take ((encode sampleFile).length - 1), true⟩ =
      .loaded (decoded { sampleFile with
        biases := [⟨[31], 1, 1⟩, ⟨[], 0, 1⟩, ⟨[32, 33], 2, 1⟩] ++ [{
          (⟨[3204448256], 1, 1⟩ : Tensor) with
          vec := floats 1 ((floatBytes [3204448256]).take (1 * 4 - 1) ++ zeros 1) }] }) ∧
    load (ngfInit 0 0) ⟨(encode sampleFile).take 100, true⟩ = .undefined :=
  ⟨sampleFile_wellFormed, sampleFile_noOverflow, rfl,
    (load_truncated (ngfInit 0 0) sampleFile sampleFile_wellFormed
      sampleFile_noOverflow [⟨[31], 1, 1⟩, ⟨[], 0, 1⟩, ⟨[32, 33], 2, 1⟩] ⟨[3204448256], 1, 1⟩
      rfl).1 1 (by decide) (by decide),
    (load_truncated (ngfInit 0 0) sampleFile sampleFile_wellFormed
      sampleFile_noOverflow [⟨[31], 1, 1⟩, ⟨[], 0, 1⟩, ⟨[32, 33], 2, 1⟩] ⟨[3204448256], 1, 1⟩
      rfl).2 100 (by decide)⟩

/-- C3, counterexample: the stream `truncatedSample` ends one byte before the
data its size fields announce, and the load block neither fails nor stops: it
runs to completion, and the last bias float, `3204448256` in the file, is the
zero made of the three bytes read and one byte never read. -/
theorem load_truncated_counterexample :
    truncatedSample.data.length + 1 = (encode sampleFile).length ∧
    load (ngfInit 0 0) truncatedSample =
      .loaded (decoded { sampleFile with
        biases := [⟨[31], 1, 1⟩, ⟨[], 0, 1⟩, ⟨[32, 33], 2, 1⟩, ⟨[0], 1, 1⟩] }) := by
  decide

/-! ## C4: patch indices -/

theorem Loaded.vertices_length {fin : IStream} {ngf : NGF} {np nv nf : Nat}
    (L : Loaded fin ngf np nv nf) : ngf.vertices.length = nv := by
  rw [L.ngf_vertices, List.length_map, vec3s_length]

theorem Loaded.features_length {fin : IStream} {ngf : NGF} {np nv nf : Nat}
    (L : Loaded fin ngf np nv nf) : ngf.features.length = nf := by
  rw [L.ngf_features, floats_length]

theorem Loaded.patches_length {fin : IStream} {ngf : NGF} {np nv nf : Nat}
    (L : Loaded fin ngf np nv nf) : ngf.patches.length = np := by
  rw [L.ngf_patches, ivec4s_length]

/-- C4, as amended: the load block stores the index quads of the file as they
are, without a range check. For every NGF it produces, `patches` holds
`patch_count` quads, quad `i` being the four `int32` at byte offset
`12 + 12 * vertex_count + 4 * features.length + 16 * i` of the file; so every
index lies in `[0, vertex_count)` when those of the file do. -/
theorem load_patches_verbatim (ngf0 : NGF) (fin : IStream) (out : NGF)
    (h : load ngf0 fin = .loaded out) :
    out.patches.length = out.patch_count ∧
    (∀ i, i < out.patches.length → out.patches[i]? = some (quadAt fin.data
      (12 + 12 * out.vertices.length + 4 * out.features.length + 16 * i))) ∧
    ((∀ i, i < out.patch_count → (quadAt fin.data
        (12 + 12 * out.vertices.length + 4 * out.features.length + 16 * i)).InRange
          out.vertices.length) →
      ∀ p ∈ out.patches, p.InRange out.vertices.length) := by
  obtain ⟨np, nv, nf, L⟩ := load_loaded _ _ _ h
  have hv := L.vertices_length
  have hf := L.features_length
  have hp := L.patches_length
  have hget : ∀ i, i < out.patches.length → out.patches[i]? = some (quadAt fin.data
      (12 + 12 * out.vertices.length + 4 * out.features.length + 16 * i)) := by
    intro i hi
    rw [hp] at hi
    rw [hv, hf, L.ngf_patches, ivec4s_getElem? _ _ _ hi]
    simp only [getI32_drop, quadAt]
    congr 3 <;> omega
  refine ⟨by rw [hp, L.ngf_patch_count], hget, ?_⟩
  intro hr p hp'
  obtain ⟨i, hi, e⟩ := List.getElem_of_mem hp'
  have h1 := hget i hi
  rw [List.getElem?_eq_getElem hi, e] at h1
  injection h1 with h1
  rw [h1]
  exact hr i (by rw [← L.ngf_patch_count, ← hp] at *; exact hi)

/-- C4, witness: the patches of `sampleFile`. -/
theorem load_patches_verbatim_witness :
    load (ngfInit 0 0) ⟨encode sampleFile, true⟩ = .loaded (decoded sampleFile) ∧
    (decoded sampleFile).patches.length
      = (decoded sampleFile).patch_count ∧
    (∀ i, i < (decoded sampleFile).patches.length →
      (decoded sampleFile).patches[i]? = some (quadAt (encode sampleFile)
        (12 + 12 * (decoded sampleFile).vertices.length
          + 4 * (decoded sampleFile).features.length + 16 * i))) ∧
    ((∀ i, i < (decoded sampleFile).patch_count → (quadAt (encode sampleFile)
        (12 + 12 * (decoded sampleFile).vertices.length
          + 4 * (decoded sampleFile).features.length + 16 * i)).InRange
          (decoded sampleFile).vertices.length) →
      ∀ p ∈ (decoded sampleFile).patches,
        p.InRange (decoded sampleFile).vertices.length) :=
  ⟨by decide, load_patches_verbatim (ngfInit 0 0) ⟨encode sampleFile, true⟩
    (decoded sampleFile) (by decide)⟩

/-- C4, counterexample: the load block accepts `strayFile`, one vertex and the
patch `(0, 0, 0, 5)`; the index 5 is not in `[0, 1)`. -/
theorem load_patches_unchecked_counterexample :
    load (ngfInit 0 0) ⟨encode strayFile, true⟩ = .loaded (decoded strayFile) ∧
    (decoded strayFile).vertices.length = 1 ∧
    (decoded strayFile).patches = [⟨0, 0, 0, 5⟩] ∧
    ¬ ∀ p ∈ (decoded strayFile).patches,
      p.InRange (decoded strayFile).vertices.length := by
  decide

/-! ## C5: lengths of the vertex and feature arrays -/

/-- C5, as amended: for every NGF the load block produces, `vertices` has
exactly `vertex_count` entries, `feature_size` is 20, and `features` has the
length of the 32-bit product `sizes[1] * sizes[2]`, the value of
`vertex_count * 20` wrapped to an `int32`; this is `vertex_count *
feature_size` whenever `vertex_count * 20` is at most `2^31 - 1`. -/
theorem load_lengths (ngf0 : NGF) (fin : IStream) (out : NGF)
    (h : load ngf0 fin = .loaded out) :
    0 ≤ getI32 fin.data 4 ∧
    (out.vertices.length : Int) = getI32 fin.data 4 ∧
    out.feature_size = 20 ∧
    (out.features.length : Int) = wrap32 (getI32 fin.data 4 * 20) ∧
    (getI32 fin.data 4 * 20 < 2147483648 →
      out.features.length = out.vertices.length * out.feature_size) := by
  obtain ⟨np, nv, nf, L⟩ := load_loaded _ _ _ h
  have hv := L.vertices_length
  have hf := L.features_length
  have e1 := L.vertex_count_eq
  have e2 := L.features_eq
  refine ⟨by omega, by rw [hv, e1], L.ngf_feature_size, by rw [hf, e1, e2], ?_⟩
  intro hlt
  rw [e1] at hlt
  rw [wrap32_eq _ (by omega) hlt] at e2
  rw [hv, hf, L.ngf_feature_size]
  omega

/-- C5, witness: the lengths of the NGF of `sampleFile`. -/
theorem load_lengths_witness :
    load (ngfInit 0 0) ⟨encode sampleFile, true⟩ = .loaded (decoded sampleFile) ∧
    0 ≤ getI32 (encode sampleFile) 4 ∧
    ((decoded sampleFile).vertices.length : Int) = getI32 (encode sampleFile) 4 ∧
    (decoded sampleFile).feature_size = 20 ∧
    ((decoded sampleFile).features.length : Int)
      = wrap32 (getI32 (encode sampleFile) 4 * 20) ∧
    (getI32 (encode sampleFile) 4 * 20 < 2147483648 →
      (decoded sampleFile).features.length
        = (decoded sampleFile).vertices.length
          * (decoded sampleFile).feature_size) :=
  ⟨by decide, load_lengths (ngfInit 0 0) ⟨encode sampleFile, true⟩
    (decoded sampleFile) (by decide)⟩

/-- C5, counterexample: on `wideStream` the load block runs to completion with
214748365 vertices, feature size 20 and a feature array of 4 floats, not
`214748365 * 20`: the 32-bit product wrapped. -/
theorem load_lengths_counterexample :
    ∃ out, load (ngfInit 0 0) wideStream = .loaded out ∧
      out.vertices.length = 214748365 ∧ out.feature_size = 20 ∧
      out.features.length = 4 ∧
      out.features.length ≠ out.vertices.length * out.feature_size := by
  have hw : readWeights LAYERS ⟨zeros 48, true⟩
      = .ok (List.replicate 4 ⟨[], 0, 0⟩, ⟨zeros 16, true⟩) := rfl
  have hb : readBiases LAYERS ⟨zeros 16, true⟩
      = .ok (List.replicate 4 ⟨[], 0, 1⟩, ⟨[], true⟩) := rfl
  have h := load_eval (ngfInit 0 0) 0 214748365 20 0 214748365 4
    (zeros (214748365 * 12)) (zeros (4 * 4)) [] (zeros 48) rfl (by decide) rfl (by decide)
    (by decide) (by decide) (by decide) (zeros_length _) (zeros_length _) rfl
  have h' := h.trans (loadTensors_eval _ _ _ _ _ _ _ _ _ hw hb)
  obtain ⟨out, hout, hv, hfs, hf⟩ : ∃ out, load (ngfInit 0 0) wideStream = .loaded out ∧
      out.vertices.length = 214748365 ∧ out.feature_size = 20 ∧ out.features.length = 4 := by
    refine ⟨_, h', ?_, rfl, ?_⟩
    · show (List.map pad (vec3s 214748365 (zeros (214748365 * 12)))).length = 214748365
      rw [List.length_map, vec3s_length]
    · show (floats 4 (zeros (4 * 4))).length = 4
      rw [floats_length]
  exact ⟨out, hout, hv, hfs, hf, by rw [hf, hv, hfs]; decide⟩

/-! ## C6: vertex padding -/

/-- C6: for every NGF the load block produces and every `i` below the vertex
count, `ngf.vertices[i]` is `(x, y, z, 0)` with `(x, y, z)` the `i`-th packed
3-float position of the file (byte offset `12 + 12 * i`); the vertices are as
many as the file announces and in the order of the file. -/
theorem load_vertices_padded (ngf0 : NGF) (fin : IStream) (out : NGF)
    (h : load ngf0 fin = .loaded out) :
    (out.vertices.length : Int) = getI32 fin.data 4 ∧
    ∀ i, i < out.vertices.length →
      out.vertices[i]? = some ⟨getF32 fin.data (12 + 12 * i), getF32 fin.data (12 + 12 * i + 4),
        getF32 fin.data (12 + 12 * i + 8), 0⟩ := by
  obtain ⟨np, nv, nf, L⟩ := load_loaded _ _ _ h
  have hv := L.vertices_length
  refine ⟨by rw [hv, L.vertex_count_eq], ?_⟩
  intro i hi
  rw [hv] at hi
  rw [L.ngf_vertices, List.getElem?_map, vec3s_getElem? _ _ _ hi]
  simp only [Option.map_some', pad, getF32_drop, Nat.add_assoc]

/-- C6, witness: the vertex of `sampleFile`. -/
theorem load_vertices_padded_witness :
    load (ngfInit 0 0) ⟨encode sampleFile, true⟩ = .loaded (decoded sampleFile) ∧
    ((decoded sampleFile).vertices.length : Int) = getI32 (encode sampleFile) 4 ∧
    (∀ i, i < (decoded sampleFile).vertices.length →
      (decoded sampleFile).vertices[i]? =
        some ⟨getF32 (encode sampleFile) (12 + 12 * i),
          getF32 (encode sampleFile) (12 + 12 * i + 4),
          getF32 (encode sampleFile) (12 + 12 * i + 8), 0⟩) ∧
    (decoded sampleFile).vertices = [⟨1065353216, 1073741824, 3225419776, 0⟩] :=
  ⟨by decide, (load_vertices_padded (ngfInit 0 0) ⟨encode sampleFile, true⟩
    (decoded sampleFile) (by decide)).1,
   (load_vertices_padded (ngfInit 0 0) ⟨encode sampleFile, true⟩
    (decoded sampleFile) (by decide)).2, by decide⟩

/-! ## The base mesh block -/

theorem vertexAt_inRange (vs : List Vec4) (i : Int) (h0 : 0 ≤ i) (h1 : i < (vs.length : Int)) :
    vertexAt vs i = some (vs.getD i.toNat ⟨0, 0, 0, 0⟩) := by
  unfold vertexAt
  have hlt : i.toNat < vs.length := by omega
  rw [if_pos h0, List.getElem?_eq_getElem hlt, List.getD_eq_getElem _ _ hlt]

theorem toU32_size (n : Nat) : toU32 (toInt32 n) = n % 4294967296 := by
  unfold toU32 toInt32; split <;> omega

theorem toU32_size_add (n : Nat) (c : Int) (hc0 : 0 ≤ c) :
    toU32 (wrap32 (toInt32 n + c)) = (n + c.toNat) % 4294967296 := by
  unfold wrap32 toU32 toInt32; split <;> split <;> omega

theorem baseStep_inRange (ngf : NGF) (m : Mesh) (p : IVec4)
    (h : p.InRange ngf.vertices.length) :
    baseStep ngf m p = some {
      vertices := m.vertices ++ quadVerts ngf.vertices p
      normals := m.normals ++ [⟨0, 0, 0⟩, ⟨0, 0, 0⟩, ⟨0, 0, 0⟩, ⟨0, 0, 0⟩]
      triangles := m.triangles ++ triPair m.vertices.length } := by
  obtain ⟨⟨x0, x1⟩, ⟨y0, y1⟩, ⟨z0, z1⟩, ⟨w0, w1⟩⟩ := h
  unfold baseStep
  rw [vertexAt_inRange _ _ x0 x1, vertexAt_inRange _ _ y0 y1, vertexAt_inRange _ _ z0 z1,
    vertexAt_inRange _ _ w0 w1]
  simp only [toU32_size, toU32_size_add _ 1 (by decide), toU32_size_add _ 2 (by decide),
    toU32_size_add _ 3 (by decide), quadVerts, triPair]
  rfl

theorem quadVerts_length (vs : List Vec4) (p : IVec4) : (quadVerts vs p).length = 4 := rfl

theorem baseLoop_inRange (ngf : NGF) (ps : List IVec4) (m : Mesh)
    (h : ∀ p ∈ ps, p.InRange ngf.vertices.length) :
    ∃ m', baseLoop ngf ps m = some m' ∧
      m'.vertices = m.vertices ++ ps.flatMap (quadVerts ngf.vertices) ∧
      m'.triangles = m.triangles ++ tris m.vertices.length ps.length := by
  induction ps generalizing m with
  | nil => exact ⟨m, rfl, by simp, by simp [tris]⟩
  | cons p ps ih =>
    obtain ⟨m', h1, h2, h3⟩ := ih _ (fun q hq => h q (List.mem_cons_of_mem _ hq))
    refine ⟨m', ?_, ?_, ?_⟩
    · rw [baseLoop, baseStep_inRange ngf m p (h p (List.mem_cons_self _ _))]
      exact h1
    · rw [h2, List.flatMap_cons, List.append_assoc]
    · rw [h3]
      simp only [List.length_append, quadVerts_length, List.length_cons, tris,
        List.append_assoc]

/-- The base mesh of an NGF whose patch indices are in range: the loop runs
to its end, appending four vertices and two triangles per patch. -/
theorem baseMesh_inRange (smooth_normals : Mesh → List Vec3) (ngf : NGF)
    (h : ∀ p ∈ ngf.patches, p.InRange ngf.vertices.length) :
    ∃ m, baseMesh smooth_normals ngf = some m ∧
      m.vertices = ngf.patches.flatMap (quadVerts ngf.vertices) ∧
      m.triangles = tris 0 ngf.patches.length := by
  obtain ⟨m', h1, h2, h3⟩ := baseLoop_inRange ngf ngf.patches ⟨[], [], []⟩ h
  refine ⟨{ m' with normals := smooth_normals m' }, ?_, ?_, ?_⟩
  · unfold baseMesh; rw [h1]
  · simpa using h2
  · simpa using h3

theorem tris_length (s n : Nat) : (tris s n).length = 2 * n := by
  induction n generalizing s with
  | zero => rfl
  | succ n ih => simp only [tris, triPair, List.length_append, List.length_cons,
      List.length_nil, ih]; omega

theorem tris_getElem? (s n k : Nat) (h : k < n) :
    (tris s n)[2 * k]? = some ⟨(s + 4 * k) % 4294967296, (s + 4 * k + 1) % 4294967296,
      (s + 4 * k + 3) % 4294967296⟩ ∧
    (tris s n)[2 * k + 1]? = some ⟨(s + 4 * k) % 4294967296, (s + 4 * k + 3) % 4294967296,
      (s + 4 * k + 2) % 4294967296⟩ := by
  induction n generalizing s k with
  | zero => omega
  | succ n ih =>
    cases k with
    | zero => simp [tris, triPair]
    | succ k =>
      obtain ⟨h1, h2⟩ := ih (s + 4) k (by omega)
      have e1 : 2 * (k + 1) = (2 * k) + 1 + 1 := by omega
      have e3 : s + 4 * (k + 1) = s + 4 + 4 * k := by omega
      rw [e1, e3]
      simp only [tris, triPair, List.cons_append, List.nil_append, List.getElem?_cons_succ]
      exact ⟨h1, h2⟩

theorem quads_length (vs : List Vec4) (ps : List IVec4) :
    (ps.flatMap (quadVerts vs)).length = 4 * ps.length := by
  induction ps with
  | nil => rfl
  | cons p ps ih =>
    rw [List.flatMap_cons, List.length_append, ih, quadVerts_length, List.length_cons]; omega

theorem quads_getElem? (vs : List Vec4) (ps : List IVec4) (k : Nat) (p : IVec4)
    (h : ps[k]? = some p) (c : Nat) (hc : c < 4) :
    (ps.flatMap (quadVerts vs))[4 * k + c]? = (quadVerts vs p)[c]? := by
  induction ps generalizing k with
  | nil => simp at h
  | cons q ps ih =>
    cases k with
    | zero =>
      simp only [List.getElem?_cons_zero, Option.some.injEq] at h
      subst h
      rw [List.flatMap_cons, List.getElem?_append_left (by rw [quadVerts_length]; omega)]
      congr 1; omega
    | succ k =>
      rw [List.getElem?_cons_succ] at h
      rw [List.flatMap_cons, List.getElem?_append_right (by rw [quadVerts_length]; omega),
        quadVerts_length, ← ih k h]
      congr 1; omega

theorem quadNgf_inRange : ∀ p ∈ quadNgf.patches, p.InRange quadNgf.vertices.length := by
  decide

theorem manyPatches_inRange :
    ∀ p ∈ manyPatches.patches, p.InRange manyPatches.vertices.length := by
  intro p hp
  have e : p = ⟨0, 0, 0, 0⟩ := List.eq_of_mem_replicate hp
  subst e; decide

theorem lastPatchApart_inRange :
    ∀ p ∈ lastPatchApart.patches, p.InRange lastPatchApart.vertices.length := by
  intro p hp
  rcases List.mem_append.mp hp with h | h
  · have e : p = ⟨0, 0, 0, 0⟩ := List.eq_of_mem_replicate h
    subst e; decide
  · have e : p = ⟨1, 1, 1, 1⟩ := List.mem_singleton.mp h
    subst e; decide

/-! ## C7: shape of the base mesh -/

/-- C7, as amended: for every NGF with `n` patches, `n` at most `2^30`, whose
indices are in range, the base mesh block yields a mesh of exactly `4 * n`
vertices and `2 * n` triangles, the triangles at positions `2 * k` and
`2 * k + 1` being `(4k, 4k+1, 4k+3)` and `(4k, 4k+3, 4k+2)`. -/
theorem baseMesh_shape (smooth_normals : Mesh → List Vec3) (ngf : NGF)
    (hr : ∀ p ∈ ngf.patches, p.InRange ngf.vertices.length)
    (hn : ngf.patches.length ≤ 1073741824) :
    ∃ m, baseMesh smooth_normals ngf = some m ∧
      m.vertices.length = 4 * ngf.patches.length ∧
      m.triangles.length = 2 * ngf.patches.length ∧
      ∀ k, k < ngf.patches.length →
        m.triangles[2 * k]? = some ⟨4 * k, 4 * k + 1, 4 * k + 3⟩ ∧
        m.triangles[2 * k + 1]? = some ⟨4 * k, 4 * k + 3, 4 * k + 2⟩ := by
  obtain ⟨m, h1, h2, h3⟩ := baseMesh_inRange smooth_normals ngf hr
  refine ⟨m, h1, by rw [h2, quads_length], by rw [h3, tris_length], ?_⟩
  intro k hk
  obtain ⟨t1, t2⟩ := tris_getElem? 0 ngf.patches.length k hk
  rw [h3, t1, t2]
  have e0 : (0 + 4 * k) % 4294967296 = 4 * k := by omega
  have e1 : (0 + 4 * k + 1) % 4294967296 = 4 * k + 1 := by omega
  have e2 : (0 + 4 * k + 2) % 4294967296 = 4 * k + 2 := by omega
  have e3 : (0 + 4 * k + 3) % 4294967296 = 4 * k + 3 := by omega
  rw [e0, e1, e2, e3]
  exact ⟨rfl, rfl⟩

/-- C7, witness: the single patch `(0, 1, 2, 3)` gives 4 vertices and the
triangles `(0, 1, 3)` and `(0, 3, 2)`. -/
theorem baseMesh_shape_witness :
    (∀ p ∈ quadNgf.patches, p.InRange quadNgf.vertices.length) ∧
    quadNgf.patches.length ≤ 1073741824 ∧
    (∃ m, baseMesh Mesh.normals quadNgf = some m ∧
      m.vertices.length = 4 * quadNgf.patches.length ∧
      m.triangles.length = 2 * quadNgf.patches.length ∧
      ∀ k, k < quadNgf.patches.length →
        m.triangles[2 * k]? = some ⟨4 * k, 4 * k + 1, 4 * k + 3⟩ ∧
        m.triangles[2 * k + 1]? = some ⟨4 * k, 4 * k + 3, 4 * k + 2⟩) ∧
    (baseMesh Mesh.normals quadNgf).map Mesh.triangles = some [⟨0, 1, 3⟩, ⟨0, 3, 2⟩] ∧
    (baseMesh Mesh.normals quadNgf).map (fun m => m.vertices.length) = some 4 :=
  ⟨quadNgf_inRange, by decide,
    baseMesh_shape Mesh.normals quadNgf quadNgf_inRange (by decide), by decide, by decide⟩

/-- C7, counterexample: with `2^30 + 1` patches, all indices in range, the
triangle at position `2 * 2^30` is `(0, 1, 3)`, not `(2^32, 2^32 + 1,
2^32 + 3)`: the triangle indices are 32-bit. -/
theorem baseMesh_shape_counterexample :
    (∀ p ∈ manyPatches.patches, p.InRange manyPatches.vertices.length) ∧
    (1073741824 < manyPatches.patches.length) ∧
    ∃ m, baseMesh Mesh.normals manyPatches = some m ∧
      m.triangles[2 * 1073741824]? = some ⟨0, 1, 3⟩ ∧
      m.triangles[2 * 1073741824]?
        ≠ some ⟨4 * 1073741824, 4 * 1073741824 + 1, 4 * 1073741824 + 3⟩ := by
  have hl : manyPatches.patches.length = 1073741825 := List.length_replicate _ _
  obtain ⟨m, h1, _, h3⟩ := baseMesh_inRange Mesh.normals manyPatches manyPatches_inRange
  have ht := (tris_getElem? 0 manyPatches.patches.length 1073741824 (by rw [hl]; decide)).1
  rw [← h3] at ht
  refine ⟨manyPatches_inRange, by rw [hl]; decide, m, h1, ?_, ?_⟩
  · exact ht.trans (by decide)
  · rw [ht]; decide

/-! ## C8: order of the base mesh vertices -/

/-- C8: for every NGF whose patch indices are in range and every patch `k`
with stored components `(x, y, z, w)`, the base mesh vertices at positions
`4k .. 4k+3` are the positions of `ngf.vertices[x]`, `[y]`, `[w]`, `[z]` in
that order; the mesh has four vertices of its own per patch. -/
theorem baseMesh_vertices (smooth_normals : Mesh → List Vec3) (ngf : NGF)
    (hr : ∀ p ∈ ngf.patches, p.InRange ngf.vertices.length) :
    ∃ m, baseMesh smooth_normals ngf = some m ∧
      m.vertices.length = 4 * ngf.patches.length ∧
      ∀ k p, ngf.patches[k]? = some p →
        ∃ vx vy vz vw, vertexAt ngf.vertices p.x = some vx ∧
          vertexAt ngf.vertices p.y = some vy ∧ vertexAt ngf.vertices p.z = some vz ∧
          vertexAt ngf.vertices p.w = some vw ∧
          m.vertices[4 * k]? = some vx.xyz ∧ m.vertices[4 * k + 1]? = some vy.xyz ∧
          m.vertices[4 * k + 2]? = some vw.xyz ∧ m.vertices[4 * k + 3]? = some vz.xyz := by
  obtain ⟨m, h1, h2, _⟩ := baseMesh_inRange smooth_normals ngf hr
  refine ⟨m, h1, by rw [h2, quads_length], ?_⟩
  intro k p hp
  obtain ⟨⟨x0, x1⟩, ⟨y0, y1⟩, ⟨z0, z1⟩, ⟨w0, w1⟩⟩ := hr p (List.getElem?_mem hp)
  refine ⟨_, _, _, _, vertexAt_inRange _ _ x0 x1, vertexAt_inRange _ _ y0 y1,
    vertexAt_inRange _ _ z0 z1, vertexAt_inRange _ _ w0 w1, ?_, ?_, ?_, ?_⟩
  · have e := quads_getElem? ngf.vertices ngf.patches k p hp 0 (by decide)
    rw [h2, ← Nat.add_zero (4 * k), e]; rfl
  · rw [h2, quads_getElem? ngf.vertices ngf.patches k p hp 1 (by decide)]; rfl
  · rw [h2, quads_getElem? ngf.vertices ngf.patches k p hp 2 (by decide)]; rfl
  · rw [h2, quads_getElem? ngf.vertices ngf.patches k p hp 3 (by decide)]; rfl

/-- C8, witness: the patch `(0, 1, 2, 3)` gives the vertices 0, 1, 3, 2. -/
theorem baseMesh_vertices_witness :
    (∀ p ∈ quadNgf.patches, p.InRange quadNgf.vertices.length) ∧
    (∃ m, baseMesh Mesh.normals quadNgf = some m ∧
      m.vertices.length = 4 * quadNgf.patches.length ∧
      ∀ k p, quadNgf.patches[k]? = some p →
        ∃ vx vy vz vw, vertexAt quadNgf.vertices p.x = some vx ∧
          vertexAt quadNgf.vertices p.y = some vy ∧ vertexAt quadNgf.vertices p.z = some vz ∧
          vertexAt quadNgf.vertices p.w = some vw ∧
          m.vertices[4 * k]? = some vx.xyz ∧ m.vertices[4 * k + 1]? = some vy.xyz ∧
          m.vertices[4 * k + 2]? = some vw.xyz ∧ m.vertices[4 * k + 3]? = some vz.xyz) ∧
    (baseMesh Mesh.normals quadNgf).map Mesh.vertices
      = some [⟨10, 11, 12⟩, ⟨20, 21, 22⟩, ⟨40, 41, 42⟩, ⟨30, 31, 32⟩] :=
  ⟨quadNgf_inRange, baseMesh_vertices Mesh.normals quadNgf quadNgf_inRange, by decide⟩

/-! ## C9: the triangles as consumed -/

/-- C9, as amended: for every NGF with at most `2^30` patches whose indices
are in range, and every patch with stored indices `(i0, i1, i2, i3)` (the
components x, y, z, w), the corners of its two base mesh triangles, looked up
in the vertex array of the mesh, are the positions of `ngf.vertices` at
`(i0, i1, i2)` and at `(i0, i2, i3)`. -/
theorem baseMesh_corners (smooth_normals : Mesh → List Vec3) (ngf : NGF)
    (hr : ∀ p ∈ ngf.patches, p.InRange ngf.vertices.length)
    (hn : ngf.patches.length ≤ 1073741824) :
    ∃ m, baseMesh smooth_normals ngf = some m ∧
      ∀ k p, ngf.patches[k]? = some p →
        ∃ v0 v1 v2 v3 t1 t2, vertexAt ngf.vertices p.x = some v0 ∧
          vertexAt ngf.vertices p.y = some v1 ∧ vertexAt ngf.vertices p.z = some v2 ∧
          vertexAt ngf.vertices p.w = some v3 ∧
          m.triangles[2 * k]? = some t1 ∧ m.triangles[2 * k + 1]? = some t2 ∧
          m.vertices[t1.x]? = some v0.xyz ∧ m.vertices[t1.y]? = some v1.xyz ∧
          m.vertices[t1.z]? = some v2.xyz ∧
          m.vertices[t2.x]? = some v0.xyz ∧ m.vertices[t2.y]? = some v2.xyz ∧
          m.vertices[t2.z]? = some v3.xyz := by
  obtain ⟨m, h1, h2, h3⟩ := baseMesh_inRange smooth_normals ngf hr
  refine ⟨m, h1, ?_⟩
  intro k p hp
  obtain ⟨hk, _⟩ := List.getElem?_eq_some.mp hp
  obtain ⟨⟨x0, x1⟩, ⟨y0, y1⟩, ⟨z0, z1⟩, ⟨w0, w1⟩⟩ := hr p (List.getElem?_mem hp)
  obtain ⟨t1, t2⟩ := tris_getElem? 0 ngf.patches.length k hk
  have e0 : (0 + 4 * k) % 4294967296 = 4 * k + 0 := by omega
  have e1 : (0 + 4 * k + 1) % 4294967296 = 4 * k + 1 := by omega
  have e2 : (0 + 4 * k + 2) % 4294967296 = 4 * k + 2 := by omega
  have e3 : (0 + 4 * k + 3) % 4294967296 = 4 * k + 3 := by omega
  rw [e0, e1, e3] at t1
  rw [e0, e2, e3] at t2
  have q0 := quads_getElem? ngf.vertices ngf.patches k p hp 0 (by decide)
  have q1 := quads_getElem? ngf.vertices ngf.patches k p hp 1 (by decide)
  have q2 := quads_getElem? ngf.vertices ngf.patches k p hp 2 (by decide)
  have q3 := quads_getElem? ngf.vertices ngf.patches k p hp 3 (by decide)
  refine ⟨_, _, _, _, _, _, vertexAt_inRange _ _ x0 x1, vertexAt_inRange _ _ y0 y1,
    vertexAt_inRange _ _ z0 z1, vertexAt_inRange _ _ w0 w1, by rw [h3]; exact t1,
    by rw [h3]; exact t2, ?_, ?_, ?_, ?_, ?_, ?_⟩
  · rw [h2]; exact q0
  · rw [h2]; exact q1
  · rw [h2]; exact q3
  · rw [h2]; exact q0
  · rw [h2]; exact q3
  · rw [h2]; exact q2

/-- C9, witness: the patch `(0, 1, 2, 3)` is consumed as the triangles of the
vertices `(0, 1, 2)` and `(0, 2, 3)`. -/
theorem baseMesh_corners_witness :
    (∀ p ∈ quadNgf.patches, p.InRange quadNgf.vertices.length) ∧
    quadNgf.patches.length ≤ 1073741824 ∧
    ∃ m, baseMesh Mesh.normals quadNgf = some m ∧
      ∀ k p, quadNgf.patches[k]? = some p →
        ∃ v0 v1 v2 v3 t1 t2, vertexAt quadNgf.vertices p.x = some v0 ∧
          vertexAt quadNgf.vertices p.y = some v1 ∧ vertexAt quadNgf.vertices p.z = some v2 ∧
          vertexAt quadNgf.vertices p.w = some v3 ∧
          m.triangles[2 * k]? = some t1 ∧ m.triangles[2 * k + 1]? = some t2 ∧
          m.vertices[t1.x]? = some v0.xyz ∧ m.vertices[t1.y]? = some v1.xyz ∧
          m.vertices[t1.z]? = some v2.xyz ∧
          m.vertices[t2.x]? = some v0.xyz ∧ m.vertices[t2.y]? = some v2.xyz ∧
          m.vertices[t2.z]? = some v3.xyz :=
  ⟨quadNgf_inRange, by decide,
    baseMesh_corners Mesh.normals quadNgf quadNgf_inRange (by decide)⟩

/-- C9, counterexample: in `lastPatchApart` the patch at position `2^30` has
the stored indices `(1, 1, 1, 1)`, all in range, and `ngf.vertices[1]` is
`(1, 1, 1)`; its first triangle, at position `2^31` of the mesh, is
`(0, 1, 3)`, whose first corner in the vertex array of the mesh is
`(0, 0, 0)`, a vertex of patch 0. -/
theorem baseMesh_corners_counterexample :
    (∀ p ∈ lastPatchApart.patches, p.InRange lastPatchApart.vertices.length) ∧
    lastPatchApart.patches[1073741824]? = some ⟨1, 1, 1, 1⟩ ∧
    (vertexAt lastPatchApart.vertices 1).map Vec4.xyz = some ⟨1, 1, 1⟩ ∧
    ∃ m, baseMesh Mesh.normals lastPatchApart = some m ∧
      m.triangles[2 * 1073741824]? = some ⟨0, 1, 3⟩ ∧
      m.vertices[0]? = some ⟨0, 0, 0⟩ := by
  have hp : lastPatchApart.patches
      = List.replicate 1073741824 (⟨0, 0, 0, 0⟩ : IVec4) ++ [(⟨1, 1, 1, 1⟩ : IVec4)] := rfl
  have hl : lastPatchApart.patches.length = 1073741825 := by
    rw [hp, List.length_append, List.length_replicate, List.length_singleton]
  have hlast : lastPatchApart.patches[1073741824]? = some ⟨1, 1, 1, 1⟩ := by
    rw [hp, List.getElem?_append_right (by rw [List.length_replicate]), List.length_replicate,
      Nat.sub_self]
    rfl
  have hfirst : lastPatchApart.patches[0]? = some ⟨0, 0, 0, 0⟩ := by
    rw [hp, List.getElem?_append_left (by rw [List.length_replicate]; decide),
      List.getElem?_replicate, if_pos (by decide)]
  obtain ⟨m, h1, h2, h3⟩ := baseMesh_inRange Mesh.normals lastPatchApart lastPatchApart_inRange
  have ht := (tris_getElem? 0 lastPatchApart.patches.length 1073741824
    (by rw [hl]; decide)).1
  rw [← h3] at ht
  have hq := quads_getElem? lastPatchApart.vertices lastPatchApart.patches 0 _ hfirst 0
    (by decide)
  rw [← h2] at hq
  exact ⟨lastPatchApart_inRange, hlast, by decide, m, h1, ht.trans (by decide),
    hq.trans (by decide)⟩

/-! ## C10: packing of the network buffer -/

theorem packLoop_eq (weights biases : List Tensor) (r i : Nat) (network : List F32) :
    packLoop weights biases r i network
      = (List.range' i r).reverse.flatMap (layerBlock weights biases) ++ network := by
  induction r generalizing i network with
  | zero => rfl
  | succ r ih =>
    rw [packLoop, ih, List.range'_succ, List.reverse_cons, List.flatMap_append]
    simp only [List.flatMap_cons, List.flatMap_nil, List.append_nil, insertFront, layerBlock,
      List.append_assoc]

theorem flatMap_reverse_length (f : Nat → List F32) (l : List Nat) :
    (l.reverse.flatMap f).length = (l.map (fun i => (f i).length)).sum := by
  induction l with
  | nil => rfl
  | cons a l ih =>
    rw [List.reverse_cons, List.flatMap_append, List.length_append, ih]
    simp only [List.flatMap_cons, List.flatMap_nil, List.append_nil, List.map_cons,
      List.sum_cons]
    omega

/-- C10: for every number of layers `L` the packed network buffer is the
concatenation `bias[L-1] ++ weight[L-1] ++ ... ++ bias[0] ++ weight[0]`:
the layers in reverse of file order, each as its bias block followed by its
weight block, and its length is the sum of the lengths of all weight and bias
vectors; written out for the `L = 4` of the program and for `L = 2`. -/
theorem packNetwork_order (L : Nat) (weights biases : List Tensor) :
    packNetwork L weights biases
      = (List.range L).reverse.flatMap (fun i =>
          (biases.getD i ⟨[], 0, 0⟩).vec ++ (weights.getD i ⟨[], 0, 0⟩).vec) ∧
    (packNetwork L weights biases).length
      = ((List.range L).map (fun i =>
          (biases.getD i ⟨[], 0, 0⟩).vec.length + (weights.getD i ⟨[], 0, 0⟩).vec.length)).sum ∧
    (∀ w0 w1 w2 w3 b0 b1 b2 b3 : Tensor, ∀ ngf : NGF,
      ngf.weights = [w0, w1, w2, w3] → ngf.biases = [b0, b1, b2, b3] →
      networkBuffer ngf = b3.vec ++ w3.vec ++ b2.vec ++ w2.vec ++ b1.vec ++ w1.vec
        ++ b0.vec ++ w0.vec) ∧
    (∀ w0 w1 b0 b1 : Tensor,
      packNetwork 2 [w0, w1] [b0, b1] = b1.vec ++ w1.vec ++ b0.vec ++ w0.vec) := by
  have h : packNetwork L weights biases
      = (List.range L).reverse.flatMap (layerBlock weights biases) := by
    unfold packNetwork
    rw [packLoop_eq, List.append_nil, List.range_eq_range']
  refine ⟨h, ?_, ?_, ?_⟩
  · rw [h, flatMap_reverse_length]
    simp only [layerBlock, List.length_append]
  · intro w0 w1 w2 w3 b0 b1 b2 b3 ngf hw hb
    simp only [networkBuffer, hw, hb, LAYERS, packNetwork, packLoop, insertFront,
      List.getD_cons_zero, List.getD_cons_succ, List.append_nil, List.append_assoc]
  · intro w0 w1 b0 b1
    simp only [packNetwork, packLoop, insertFront,
      List.getD_cons_zero, List.getD_cons_succ, List.append_nil, List.append_assoc]

/-- C10, witness: two layers pack as layer-1 bias, layer-1 weight, layer-0
bias, layer-0 weight, and the four layers of `sampleFile` as layers 3 to 0. -/
theorem packNetwork_order_witness :
    packNetwork 2 twoLayers.1 twoLayers.2 = [20, 21, 3, 10, 1, 2] ∧
    networkBuffer (decoded sampleFile)
      = [3204448256, 25, 32, 33, 23, 24, 31, 21, 22] :=
  ⟨(packNetwork_order 2 twoLayers.1 twoLayers.2).2.2.2 _ _ _ _,
    (packNetwork_order 4 [] []).2.2.1 _ _ _ _ _ _ _ _ (decoded sampleFile) rfl rfl⟩

/-! ## C11: packing of the feature buffer -/

theorem load_feature_size (ngf0 : NGF) (fin : IStream) (out : NGF)
    (h : load ngf0 fin = .loaded out) : out.feature_size = 20 := by
  obtain ⟨np, nv, nf, L⟩ := load_loaded _ _ _ h
  exact L.ngf_feature_size

/-- C11: for every NGF whose `feature_size` is a `uint32_t` value, and so for
every NGF the load block produces, the packed feature buffer has length
`features.length + 1`; its first element is the float with the bit pattern of
`feature_size`, which read back as an integer is `feature_size`; the elements
from 1 on are `ngf.features` in the original order; `ngf` is as before. -/
theorem packFeatures_layout (ngf : NGF)
    (h : ngf.feature_size < 4294967296 ∨ ∃ ngf0 fin, load ngf0 fin = .loaded ngf) :
    (packFeatures ngf).2.length = ngf.features.length + 1 ∧
    (packFeatures ngf).2[0]? = some (bitCastU32 ngf.feature_size) ∧
    (bitCastU32 ngf.feature_size).asU32 = ngf.feature_size ∧
    (∀ i, (packFeatures ngf).2[i + 1]? = ngf.features[i]?) ∧
    (packFeatures ngf).2.drop 1 = ngf.features ∧
    (packFeatures ngf).1 = ngf := by
  have hlt : ngf.feature_size < 4294967296 := by
    rcases h with h | ⟨ngf0, fin, h⟩
    · exact h
    · rw [load_feature_size _ _ _ h]; decide
  refine ⟨?_, ?_, ?_, fun i => ?_, rfl, rfl⟩
  · simp [packFeatures, insertFront]
  · simp [packFeatures, insertFront]
  · exact Nat.mod_eq_of_lt hlt
  · simp [packFeatures, insertFront]

/-- C11, witness: the feature buffer of the NGF of `sampleFile` starts with
the float of bit pattern 20, followed by the twenty features. -/
theorem packFeatures_layout_witness :
    load (ngfInit 0 0) ⟨encode sampleFile, true⟩ = .loaded (decoded sampleFile) ∧
    (packFeatures (decoded sampleFile)).2
      = [20, 1, 2, 3, 4, 5, 6, 7, 8, 9, 10, 11, 12, 13, 14, 15, 16, 17, 18, 19, 20] ∧
    (packFeatures (decoded sampleFile)).2.length = (decoded sampleFile).features.length + 1 ∧
    (bitCastU32 (decoded sampleFile).feature_size).asU32 = (decoded sampleFile).feature_size ∧
    (packFeatures (decoded sampleFile)).2.drop 1 = (decoded sampleFile).features :=
  ⟨by decide, by decide,
    (packFeatures_layout (decoded sampleFile)
      (Or.inr ⟨ngfInit 0 0, ⟨encode sampleFile, true⟩, by decide⟩)).1,
    (packFeatures_layout (decoded sampleFile) (Or.inl (by decide))).2.2.1,
    (packFeatures_layout (decoded sampleFile) (Or.inl (by decide))).2.2.2.2.1⟩

/-! ## C12: the binding table -/

/-- C12: the upload block issues exactly four bind calls, all on the one
descriptor set allocated, one for each of the slots 0, 1, 2, 3: slot 0 gets
the buffer of `ngf.vertices`, slot 1 the packed feature buffer, slot 2 the
buffer of `ngf.patches`, slot 3 the packed network buffer; no other slot is
bound. -/
theorem uploadNgf_bindings (ngf : NGF) (dset : Nat) :
    (uploadNgf ngf dset).2.length = 4 ∧
    (∀ c ∈ (uploadNgf ngf dset).2, c.dset = dset) ∧
    (uploadNgf ngf dset).2.map BindCall.binding = [0, 1, 2, 3] ∧
    boundAt (uploadNgf ngf dset).2 dset 0 = [.vec4s ngf.vertices] ∧
    boundAt (uploadNgf ngf dset).2 dset 1
      = [.floats (bitCastU32 ngf.feature_size :: ngf.features)] ∧
    boundAt (uploadNgf ngf dset).2 dset 2 = [.ivec4s ngf.patches] ∧
    boundAt (uploadNgf ngf dset).2 dset 3 = [.floats (networkBuffer ngf)] ∧
    (∀ slot, 4 ≤ slot → boundAt (uploadNgf ngf dset).2 dset slot = []) ∧
    (uploadNgf ngf dset).1.dset = dset := by
  refine ⟨rfl, ?_, rfl, ?_, ?_, ?_, ?_, ?_, rfl⟩
  · intro c hc
    simp only [uploadNgf, List.mem_cons, List.mem_singleton, List.not_mem_nil, or_false] at hc
    rcases hc with h | h | h | h <;> rw [h]
  · simp [boundAt, uploadNgf]
  · simp [boundAt, uploadNgf, packFeatures, insertFront]
  · simp [boundAt, uploadNgf]
  · simp [boundAt, uploadNgf]
  · intro slot hs
    have h0 : ¬ 0 = slot := by omega
    have h1 : ¬ 1 = slot := by omega
    have h2 : ¬ 2 = slot := by omega
    have h3 : ¬ 3 = slot := by omega
    simp [boundAt, uploadNgf, h0, h1, h2, h3]

/-! ## The render loop: one pass -/

theorem usub64_one (f : Nat) (h : f < 2) : usub64 1 f = 1 - f := by
  unfold usub64; omega

theorem radioPass_inRadioLoop (clicked : Nat → Bool) (order : List Nat) (mode : Nat) :
    ∀ op ∈ (radioPass clicked order mode).2, op.inRadioLoop = true := by
  induction order generalizing mode with
  | nil => intro op h; simp [radioPass] at h
  | cons m rest ih =>
    intro op h
    unfold radioPass at h
    split at h
    · simp only [List.mem_cons] at h
      rcases h with h | h | h
      · rw [h]; rfl
      · rw [h]; rfl
      · exact ih _ op h
    · simp only [List.mem_cons] at h
      rcases h with h | h
      · rw [h]; rfl
      · exact ih _ op h

theorem filterMap_step_radio (clicked : Nat → Bool) (order : List Nat) (mode : Nat) :
    (radioPass clicked order mode).2.filterMap Op.step = [] := by
  rw [List.filterMap_eq_nil_iff]
  intro op h
  have hr := radioPass_inRadioLoop clicked order mode op h
  cases op <;> simp_all [Op.inRadioLoop, Op.step]

theorem countP_radio (clicked : Nat → Bool) (order : List Nat) (mode : Nat) (p : Op → Bool)
    (hp : ∀ op, op.inRadioLoop = true → p op = false) :
    (radioPass clicked order mode).2.countP p = 0 := by
  rw [List.countP_eq_zero]
  intro op h
  rw [hp op (radioPass_inRadioLoop clicked order mode op h)]
  decide

/-- A pass skipped at acquisition. -/
theorem iteration_skipped (ngf : NGF) (dset : Nat) (order : List Nat) (s : LoopState)
    (inp : Input) (hf : s.frame < 2) (hs : inp.acquire.status = .eResize) :
    iteration ngf dset order s inp
      = some (s, [.glfwPollEvents, .handle_key_input, .acquire_image s.frame, .resize]) := by
  have h2 : ¬ 2 ≤ s.frame := by omega
  simp only [iteration, h2, if_false, new_frame, hs, if_true]

/-- A pass that is not skipped at acquisition. -/
theorem iteration_recorded (ngf : NGF) (dset : Nat) (order : List Nat) (s : LoopState)
    (inp : Input) (hf : s.frame < 2) (hs : inp.acquire.status ≠ .eResize) :
    iteration ngf dset order s inp
      = some ({ frame := 1 - s.frame, mode := (radioPass inp.clicked order s.mode).1 },
        [.glfwPollEvents, .handle_key_input, .acquire_image s.frame, .cmdBegin s.frame,
          .viewport_and_scissor s.frame, .beginRenderPass s.frame inp.acquire.index,
          .bindPipeline s.frame, .bindDescriptorSets s.frame dset, .pushGeometry s.frame,
          .pushShading s.frame s.mode, .drawMeshTasksEXT s.frame ngf.patch_count 1 1,
          .imguiNewFrame]
        ++ (radioPass inp.clicked order s.mode).2
        ++ ([.imguiRender, .renderDrawData s.frame, .endRenderPass s.frame,
            .transition s.frame inp.acquire.index true,
            .copy_image_to_buffer s.frame inp.acquire.index,
            .transition s.frame inp.acquire.index false]
        ++ end_frame s.frame s.frame
        ++ present_frame inp.acquire s.frame inp.present
        ++ [.waitIdle, .assignFrame (1 - s.frame)])) := by
  have h2 : ¬ 2 ≤ s.frame := by omega
  simp only [iteration, h2, if_false, new_frame, hs, usub64_one s.frame hf, List.cons_append,
    List.nil_append, List.append_assoc]

/-! ## C13: stale surface at acquisition -/

/-- C13: for all loop variables with a frame slot 0 or 1, when the image
acquisition reports that the surface needs a resize, the pass consists of the
event poll, the input handling, the acquisition for the slot `frame` and one
call of the resize handler: no command buffer is begun, nothing is drawn,
submitted or presented; the loop variables are unchanged, so the next pass
acquires with the same `frame`. -/
theorem iteration_stale_acquire (ngf : NGF) (dset : Nat) (order : List Nat) (s : LoopState)
    (inp : Input) (hf : s.frame < 2) (hs : inp.acquire.status = .eResize) :
    ∃ tr, iteration ngf dset order s inp = some (s, tr) ∧
      tr = [.glfwPollEvents, .handle_key_input, .acquire_image s.frame, .resize] ∧
      tr.countP Op.isResize = 1 ∧
      tr.filterMap Op.step = [.acquire] ∧
      tr.countP Op.isSubmit = 0 ∧ tr.countP Op.isDraw = 0 ∧
      ∀ next : Input, ∃ s2 tr2, iteration ngf dset order s next = some (s2, tr2) ∧
        tr2.filter (fun op => decide (op.step = some .acquire)) = [.acquire_image s.frame] := by
  refine ⟨_, iteration_skipped ngf dset order s inp hf hs, rfl, rfl, rfl, rfl, rfl, ?_⟩
  intro next
  by_cases hn : next.acquire.status = .eResize
  · exact ⟨_, _, iteration_skipped ngf dset order s next hf hn, rfl⟩
  · refine ⟨_, _, iteration_recorded ngf dset order s next hf hn, ?_⟩
    have hr : (radioPass next.clicked order s.mode).2.filter
        (fun op => decide (op.step = some .acquire)) = [] := by
      rw [List.filter_eq_nil_iff]
      intro op h
      have hr := radioPass_inRadioLoop next.clicked order s.mode op h
      cases op <;> simp_all [Op.inRadioLoop, Op.step]
    rw [List.filter_append, List.filter_append, hr]
    unfold present_frame end_frame
    split <;> rfl

/-- C13, witness: a stale acquisition on slot 1. -/
theorem iteration_stale_acquire_witness :
    (1 : Nat) < 2 ∧ staleAcquire.acquire.status = .eResize ∧
    iteration (decoded sampleFile) 7 [2, 0, 1] ⟨1, 2⟩ staleAcquire
      = some (⟨1, 2⟩, [.glfwPollEvents, .handle_key_input, .acquire_image 1, .resize]) := by
  obtain ⟨tr, h1, h2, _⟩ := iteration_stale_acquire (decoded sampleFile) 7 [2, 0, 1] ⟨1, 2⟩
    staleAcquire (by decide) rfl
  exact ⟨by decide, rfl, by rw [h1, h2]⟩

/-! ## C14: stale surface at presentation -/

/-- C14, as amended: for all loop variables with a frame slot 0 or 1, when the
acquisition succeeds and the presentation reports a stale surface, the pass
has already made its one queue submission, just before the presentation; the
resize handler is then invoked exactly once, and after the device-idle wait
the frame slot advances to `1 - frame` as in every pass that is not skipped:
the next pass uses the other slot. -/
theorem iteration_stale_present (ngf : NGF) (dset : Nat) (order : List Nat) (s : LoopState)
    (inp : Input) (hf : s.frame < 2) (ha : inp.acquire.status ≠ .eResize)
    (hp : inp.present.status = .eResize) :
    ∃ s2 pre, iteration ngf dset order s inp = some (s2, pre ++ (end_frame s.frame s.frame
        ++ [Op.present_image s.frame inp.acquire.index, .resize, .waitIdle,
            .assignFrame (1 - s.frame)])) ∧
      pre.countP Op.isSubmit = 0 ∧ pre.countP Op.isResize = 0 ∧
      (pre ++ (end_frame s.frame s.frame
        ++ [Op.present_image s.frame inp.acquire.index, .resize, .waitIdle,
            .assignFrame (1 - s.frame)])).countP Op.isSubmit = 1 ∧
      (pre ++ (end_frame s.frame s.frame
        ++ [Op.present_image s.frame inp.acquire.index, .resize, .waitIdle,
            .assignFrame (1 - s.frame)])).countP Op.isResize = 1 ∧
      s2.frame = 1 - s.frame ∧ s2.frame ≠ s.frame := by
  have hc1 := countP_radio inp.clicked order s.mode Op.isSubmit
    (by intro op h; cases op <;> simp_all [Op.inRadioLoop, Op.isSubmit])
  have hc2 := countP_radio inp.clicked order s.mode Op.isResize
    (by intro op h; cases op <;> simp_all [Op.inRadioLoop, Op.isResize])
  have hpre1 : ([Op.glfwPollEvents, .handle_key_input, .acquire_image s.frame,
      .cmdBegin s.frame, .viewport_and_scissor s.frame,
      .beginRenderPass s.frame inp.acquire.index, .bindPipeline s.frame,
      .bindDescriptorSets s.frame dset, .pushGeometry s.frame, .pushShading s.frame s.mode,
      .drawMeshTasksEXT s.frame ngf.patch_count 1 1, .imguiNewFrame]
      ++ (radioPass inp.clicked order s.mode).2
      ++ [Op.imguiRender, .renderDrawData s.frame, .endRenderPass s.frame,
          .transition s.frame inp.acquire.index true,
          .copy_image_to_buffer s.frame inp.acquire.index,
          .transition s.frame inp.acquire.index false]).countP Op.isSubmit = 0 := by
    rw [List.countP_append, List.countP_append, hc1]; rfl
  have hpre2 : ([Op.glfwPollEvents, .handle_key_input, .acquire_image s.frame,
      .cmdBegin s.frame, .viewport_and_scissor s.frame,
      .beginRenderPass s.frame inp.acquire.index, .bindPipeline s.frame,
      .bindDescriptorSets s.frame dset, .pushGeometry s.frame, .pushShading s.frame s.mode,
      .drawMeshTasksEXT s.frame ngf.patch_count 1 1, .imguiNewFrame]
      ++ (radioPass inp.clicked order s.mode).2
      ++ [Op.imguiRender, .renderDrawData s.frame, .endRenderPass s.frame,
          .transition s.frame inp.acquire.index true,
          .copy_image_to_buffer s.frame inp.acquire.index,
          .transition s.frame inp.acquire.index false]).countP Op.isResize = 0 := by
    rw [List.countP_append, List.countP_append, hc2]; rfl
  refine ⟨⟨1 - s.frame, (radioPass inp.clicked order s.mode).1⟩, _, ?_, hpre1, hpre2, ?_, ?_,
    rfl, ?_⟩
  · rw [iteration_recorded ngf dset order s inp hf ha]
    simp only [present_frame, hp, if_true, List.append_assoc, List.cons_append,
      List.nil_append]
  · rw [List.countP_append, hpre1]; rfl
  · rw [List.countP_append, hpre2]; rfl
  · show 1 - s.frame ≠ s.frame
    omega

/-- C14, witness: a stale presentation in the first pass. -/
theorem iteration_stale_present_witness :
    loopInit.frame < 2 ∧ stalePresent.acquire.status ≠ .eResize ∧
    stalePresent.present.status = .eResize ∧
    ∃ s2 pre, iteration (decoded sampleFile) 7 [0, 1, 2] loopInit stalePresent
        = some (s2, pre ++ (end_frame loopInit.frame loopInit.frame
          ++ [Op.present_image loopInit.frame stalePresent.acquire.index, .resize, .waitIdle,
              .assignFrame (1 - loopInit.frame)])) ∧
      s2.frame = 1 - loopInit.frame ∧ s2.frame ≠ loopInit.frame := by
  obtain ⟨s2, pre, h1, _, _, _, _, h6, h7⟩ := iteration_stale_present (decoded sampleFile) 7
    [0, 1, 2] loopInit stalePresent (by decide) (by decide) rfl
  exact ⟨by decide, by decide, rfl, s2, pre, h1, h6, h7⟩

/-- C14, counterexample: in the first pass, slot 0, with a successful
acquisition and a stale presentation, the trace holds one submission, made
before the presentation, and the frame slot afterwards is 1, not 0. -/
theorem iteration_stale_present_counterexample :
    stalePresent.acquire.status = .eOk ∧ stalePresent.present.status = .eResize ∧
    iteration (decoded sampleFile) 7 [0, 1, 2] loopInit stalePresent
      = some (⟨1, 0⟩,
        [Op.glfwPollEvents, .handle_key_input, .acquire_image 0, .cmdBegin 0,
          .viewport_and_scissor 0, .beginRenderPass 0 0, .bindPipeline 0,
          .bindDescriptorSets 0 7, .pushGeometry 0, .pushShading 0 0,
          .drawMeshTasksEXT 0 1 1 1, .imguiNewFrame,
          .radioButton 0 true, .radioButton 1 false, .radioButton 2 false,
          .imguiRender, .renderDrawData 0, .endRenderPass 0, .transition 0 0 true,
          .copy_image_to_buffer 0 0, .transition 0 0 false, .cmdEnd 0,
          .submit ⟨[.image_available 0], [.eColorAttachmentOutput], [0],
            [.render_finished 0]⟩ (.in_flight 0),
          .present_image 0 0, .resize, .waitIdle, .assignFrame 1]) ∧
    loopInit.frame = 0 := by
  decide

/-! ## The render loop: all passes -/

theorem run_cons (ngf : NGF) (dset : Nat) (order : List Nat) (s s1 : LoopState) (inp : Input)
    (rest : List Input) (tr : List Op) (h : iteration ngf dset order s inp = some (s1, tr)) :
    run ngf dset order s (inp :: rest) =
      match run ngf dset order s1 rest with
      | none => none
      | some (s2, tr2) => some (s2, tr ++ tr2) := by
  rw [run]
  simp only [h]

/-- From a frame slot 0 or 1 the loop runs through any number of passes, and
the frame slot stays 0 or 1: it is the starting slot plus the number of passes
not skipped, modulo 2. -/
theorem run_frame (ngf : NGF) (dset : Nat) (order : List Nat) (inputs : List Input)
    (s : LoopState) (hf : s.frame < 2) :
    ∃ s2 tr, run ngf dset order s inputs = some (s2, tr) ∧ s2.frame < 2 ∧
      s2.frame = (s.frame + inputs.countP (fun i => decide (¬ i.Skipped))) % 2 := by
  induction inputs generalizing s with
  | nil => exact ⟨s, [], rfl, hf, by simp; omega⟩
  | cons inp rest ih =>
    by_cases hs : inp.acquire.status = .eResize
    · obtain ⟨s2, tr2, h1, h2, h3⟩ := ih s hf
      have hrun := run_cons ngf dset order s s inp rest _
        (iteration_skipped ngf dset order s inp hf hs)
      rw [h1] at hrun
      refine ⟨s2, _, hrun, h2, ?_⟩
      have hc : (inp :: rest).countP (fun i => decide (¬ i.Skipped))
          = rest.countP (fun i => decide (¬ i.Skipped)) := by
        rw [List.countP_cons]
        simp [Input.Skipped, hs]
      rw [h3, hc]
    · obtain ⟨s2, tr2, h1, h2, h3⟩ := ih ⟨1 - s.frame, (radioPass inp.clicked order s.mode).1⟩
        (show 1 - s.frame < 2 by omega)
      have hrun := run_cons ngf dset order s _ inp rest _
        (iteration_recorded ngf dset order s inp hf hs)
      rw [h1] at hrun
      refine ⟨s2, _, hrun, h2, ?_⟩
      have hc : (inp :: rest).countP (fun i => decide (¬ i.Skipped))
          = rest.countP (fun i => decide (¬ i.Skipped)) + 1 := by
        rw [List.countP_cons]
        simp [Input.Skipped, hs]
      rw [h3, hc]
      show (1 - s.frame + _) % 2 = _
      omega

theorem getLast?_append_pair {α : Type} (l : List α) (a b : α) :
    (l ++ [a, b]).getLast? = some b := by
  rw [show l ++ [a, b] = (l ++ [a]) ++ [b] by simp, List.getLast?_concat]

/-! ## C15: alternation of the frame slot -/

/-- C15: the frame index starts at 0; after any number of passes the loop is
still running with a frame index that is 0 or 1 and equals the number of
passes not skipped at acquisition modulo 2; from such a state a skipped pass
leaves the index as it is, and any other pass replaces it by `1 - frame`, the
`size_t` subtraction being the mathematical one (no wrap). -/
theorem run_frame_alternates (ngf : NGF) (dset : Nat) (order : List Nat)
    (inputs : List Input) :
    loopInit.frame = 0 ∧
    ∃ s tr, run ngf dset order loopInit inputs = some (s, tr) ∧
      (s.frame = 0 ∨ s.frame = 1) ∧
      s.frame = inputs.countP (fun i => decide (¬ i.Skipped)) % 2 ∧
      ∀ inp : Input, ∃ s2 tr2, iteration ngf dset order s inp = some (s2, tr2) ∧
        (inp.Skipped → s2.frame = s.frame) ∧
        (¬ inp.Skipped → s2.frame = usub64 1 s.frame ∧
          (usub64 1 s.frame : Int) = 1 - (s.frame : Int) ∧
          tr2.getLast? = some (.assignFrame (usub64 1 s.frame))) := by
  obtain ⟨s, tr, h1, h2, h3⟩ := run_frame ngf dset order inputs loopInit (by decide)
  refine ⟨rfl, s, tr, h1, by omega, ?_, ?_⟩
  · rw [h3]; show (0 + _) % 2 = _; rw [Nat.zero_add]
  · intro inp
    by_cases hs : inp.acquire.status = .eResize
    · exact ⟨_, _, iteration_skipped ngf dset order s inp h2 hs, fun _ => rfl,
        fun hn => absurd hs hn⟩
    · refine ⟨_, _, iteration_recorded ngf dset order s inp h2 hs, fun hn => absurd hn hs,
        fun _ => ⟨(usub64_one s.frame h2).symm, ?_, ?_⟩⟩
      · rw [usub64_one s.frame h2]; omega
      · rw [usub64_one s.frame h2, ← List.append_assoc, ← List.append_assoc]
        exact getLast?_append_pair _ _ _

/-! ## C16: order of the operations -/

theorem idleScan_append (p : Bool) (a b : List Op) :
    idleScan p (a ++ b) = (idleScan p a).bind (fun q => idleScan q b) := by
  induction a generalizing p with
  | nil => rfl
  | cons op a ih =>
    simp only [List.cons_append, idleScan]
    cases idleStep p op with
    | none => rfl
    | some q => exact ih q

theorem idleScan_radio (clicked : Nat → Bool) (order : List Nat) (mode : Nat) (p : Bool) :
    idleScan p (radioPass clicked order mode).2 = some p := by
  induction order generalizing mode with
  | nil => rfl
  | cons m rest ih =>
    unfold radioPass
    split
    · simp only [idleScan, idleStep]; exact ih m
    · simp only [idleScan, idleStep]; exact ih mode

/-- No presentation is waiting for its device-idle wait at the end of a pass
that began with none waiting. -/
theorem idleScan_iteration (ngf : NGF) (dset : Nat) (order : List Nat) (s s2 : LoopState)
    (inp : Input) (tr : List Op) (h : iteration ngf dset order s inp = some (s2, tr)) :
    idleScan false tr = some false := by
  have hf : s.frame < 2 := by
    by_contra hc
    have h2 : 2 ≤ s.frame := by omega
    simp [iteration, h2] at h
  by_cases hs : inp.acquire.status = .eResize
  · rw [iteration_skipped ngf dset order s inp hf hs] at h
    injection h with h
    injection h with _ h
    rw [← h]; rfl
  · rw [iteration_recorded ngf dset order s inp hf hs] at h
    injection h with h
    injection h with _ h
    rw [← h, idleScan_append, idleScan_append]
    have h1 : idleScan false [Op.glfwPollEvents, .handle_key_input, .acquire_image s.frame,
        .cmdBegin s.frame, .viewport_and_scissor s.frame,
        .beginRenderPass s.frame inp.acquire.index, .bindPipeline s.frame,
        .bindDescriptorSets s.frame dset, .pushGeometry s.frame, .pushShading s.frame s.mode,
        .drawMeshTasksEXT s.frame ngf.patch_count 1 1, .imguiNewFrame] = some false := rfl
    rw [h1]
    simp only [Option.bind_some, idleScan_radio]
    unfold present_frame end_frame
    split <;> rfl

theorem idleScan_run (ngf : NGF) (dset : Nat) (order : List Nat) (inputs : List Input)
    (s s2 : LoopState) (tr : List Op) (h : run ngf dset order s inputs = some (s2, tr)) :
    idleScan false tr = some false := by
  induction inputs generalizing s s2 tr with
  | nil =>
    simp only [run, Option.some.injEq, Prod.mk.injEq] at h
    rw [← h.2]; rfl
  | cons inp rest ih =>
    rw [run] at h
    split at h
    · cases h
    · rename_i s1 tr1 h1
      split at h
      · cases h
      · rename_i s3 tr3 h3
        simp only [Option.some.injEq, Prod.mk.injEq] at h
        rw [← h.2, idleScan_append, idleScan_iteration ngf dset order s s1 inp tr1 h1]
        exact ih s1 s3 tr3 h3

theorem idleScan_pending (b c : List Op) (f2 : Nat) (q : Bool)
    (h : idleScan true (b ++ .acquire_image f2 :: c) = some q) : Op.waitIdle ∈ b := by
  induction b with
  | nil => simp [idleScan, idleStep] at h
  | cons op b ih =>
    by_cases hw : op = .waitIdle
    · rw [hw]; exact List.mem_cons_self _ _
    · have hstep : idleStep true op = none ∨ idleStep true op = some true := by
        cases op <;> simp_all [idleStep]
      simp only [List.cons_append, idleScan] at h
      rcases hstep with hn | hn
      · rw [hn] at h; cases h
      · rw [hn] at h
        exact List.mem_cons_of_mem _ (ih h)

/-- In a sequence of operations that the scan accepts, a device-idle wait
lies between a presentation and any later acquisition. -/
theorem idleScan_between (a b c : List Op) (f i f2 : Nat) (p q : Bool)
    (h : idleScan p (a ++ .present_image f i :: (b ++ .acquire_image f2 :: c)) = some q) :
    Op.waitIdle ∈ b := by
  induction a generalizing p with
  | nil =>
    simp only [List.nil_append, idleScan, idleStep] at h
    exact idleScan_pending b c f2 q h
  | cons op a ih =>
    simp only [List.cons_append, idleScan] at h
    cases hs : idleStep p op with
    | none => rw [hs] at h; cases h
    | some p2 => rw [hs] at h; exact ih p2 h

/-- C16: in every pass that is not skipped at acquisition the named steps occur
exactly once each and in this order: acquisition for the slot `frame`, begin of
the command buffer, begin of the render pass, draw, overlay draw, end of the
render pass, readback copy, end of the command buffer, submission,
presentation, device-idle wait, advance of `frame`; and in the operations of
any number of passes a device-idle wait lies between every presentation and
any later acquisition. -/
theorem iteration_order (ngf : NGF) (dset : Nat) (order : List Nat) (s : LoopState)
    (inp : Input) (hf : s.frame < 2) (hs : ¬ inp.Skipped) :
    (∃ s2 tr, iteration ngf dset order s inp = some (s2, tr) ∧
      tr.filterMap Op.step = [.acquire, .beginCommands, .beginRenderPass, .draw, .overlayDraw,
        .endRenderPass, .readbackCopy, .endCommands, .submit, .present, .waitIdle,
        .advanceFrame] ∧
      tr.filter (fun op => decide (op.step = some .acquire)) = [.acquire_image s.frame] ∧
      s2.frame = 1 - s.frame) ∧
    (∀ inputs : List Input, ∃ s2 tr, run ngf dset order loopInit inputs = some (s2, tr) ∧
      ∀ a b c f i f2, tr = a ++ .present_image f i :: (b ++ .acquire_image f2 :: c) →
        Op.waitIdle ∈ b) := by
  constructor
  · refine ⟨_, _, iteration_recorded ngf dset order s inp hf hs, ?_, ?_, rfl⟩
    · rw [List.filterMap_append, List.filterMap_append, filterMap_step_radio]
      unfold present_frame end_frame
      split <;> rfl
    · have hr : (radioPass inp.clicked order s.mode).2.filter
          (fun op => decide (op.step = some .acquire)) = [] := by
        rw [List.filter_eq_nil_iff]
        intro op h
        have hr := radioPass_inRadioLoop inp.clicked order s.mode op h
        cases op <;> simp_all [Op.inRadioLoop, Op.step]
      rw [List.filter_append, List.filter_append, hr]
      unfold present_frame end_frame
      split <;> rfl
  · intro inputs
    obtain ⟨s2, tr, h1, _, _⟩ := run_frame ngf dset order inputs loopInit (by decide)
    refine ⟨s2, tr, h1, ?_⟩
    intro a b c f i f2 htr
    have hscan := idleScan_run ngf dset order inputs loopInit s2 tr h1
    rw [htr] at hscan
    exact idleScan_between a b c f i f2 false false hscan

/-- C16, witness: the order of the steps in the first pass. -/
theorem iteration_order_witness :
    loopInit.frame < 2 ∧ ¬ clickShaded.Skipped ∧
    (∃ s2 tr, iteration (decoded sampleFile) 7 [0, 1, 2] loopInit clickShaded = some (s2, tr) ∧
      tr.filterMap Op.step = [.acquire, .beginCommands, .beginRenderPass, .draw, .overlayDraw,
        .endRenderPass, .readbackCopy, .endCommands, .submit, .present, .waitIdle,
        .advanceFrame] ∧
      tr.filter (fun op => decide (op.step = some .acquire))
        = [.acquire_image loopInit.frame] ∧
      s2.frame = 1 - loopInit.frame) :=
  ⟨by decide, by decide,
    (iteration_order (decoded sampleFile) 7 [0, 1, 2] loopInit clickShaded (by decide)
      (by decide)).1⟩

/-! ## C17: range of the render mode -/

theorem radioPass_mode (P : Nat → Prop) (clicked : Nat → Bool) (order : List Nat) (mode : Nat)
    (ho : ∀ m ∈ order, P m) (hm : P mode) : P (radioPass clicked order mode).1 := by
  induction order generalizing mode with
  | nil => exact hm
  | cons m rest ih =>
    have hrest : ∀ k ∈ rest, P k := fun k hk => ho k (List.mem_cons_of_mem _ hk)
    unfold radioPass
    split
    · exact ih m hrest (ho m (List.mem_cons_self _ _))
    · exact ih mode hrest hm

theorem radioPass_assign (clicked : Nat → Bool) (order : List Nat) (mode m : Nat)
    (h : Op.assignMode m ∈ (radioPass clicked order mode).2) : m ∈ order := by
  induction order generalizing mode with
  | nil => simp [radioPass] at h
  | cons k rest ih =>
    unfold radioPass at h
    split at h
    · simp only [List.mem_cons, Op.assignMode.injEq, reduceCtorEq, false_or] at h
      rcases h with h | h
      · rw [h]; exact List.mem_cons_self _ _
      · exact List.mem_cons_of_mem _ (ih k h)
    · simp only [List.mem_cons, reduceCtorEq, false_or] at h
      exact List.mem_cons_of_mem _ (ih mode h)

/-- The mode pushed and the modes assigned in one pass. -/
theorem iteration_mode (P : Nat → Prop) (ngf : NGF) (dset : Nat) (order : List Nat)
    (s s2 : LoopState) (inp : Input) (tr : List Op) (ho : ∀ m ∈ order, P m) (hm : P s.mode)
    (h : iteration ngf dset order s inp = some (s2, tr)) :
    P s2.mode ∧ (∀ cmd m, Op.pushShading cmd m ∈ tr → m = s.mode) ∧
      (∀ m, Op.assignMode m ∈ tr → m ∈ order) := by
  have hf : s.frame < 2 := by
    by_contra hc
    have h2 : 2 ≤ s.frame := by omega
    simp [iteration, h2] at h
  by_cases hs : inp.acquire.status = .eResize
  · rw [iteration_skipped ngf dset order s inp hf hs] at h
    injection h with h
    injection h with h1 h2
    rw [← h1, ← h2]
    exact ⟨hm, by simp, by simp⟩
  · rw [iteration_recorded ngf dset order s inp hf hs] at h
    injection h with h
    injection h with h1 h2
    rw [← h1, ← h2]
    refine ⟨radioPass_mode P inp.clicked order s.mode ho hm, ?_, ?_⟩
    · intro cmd m hmem
      simp only [List.mem_append, List.mem_cons, reduceCtorEq, false_or, or_false,
        Op.pushShading.injEq, List.mem_nil_iff, end_frame, present_frame] at hmem
      rcases hmem with (hmem | hmem) | hmem
      · exact hmem.2
      · have hr := radioPass_inRadioLoop inp.clicked order s.mode _ hmem
        cases hr
      · split at hmem <;> simp at hmem
    · intro m hmem
      simp only [List.mem_append, List.mem_cons, reduceCtorEq, false_or, or_false,
        List.mem_nil_iff, end_frame, present_frame] at hmem
      rcases hmem with hmem | hmem
      · exact radioPass_assign inp.clicked order s.mode m hmem
      · split at hmem <;> simp at hmem

/-- The mode pushed and the modes assigned over any number of passes. -/
theorem run_mode (P : Nat → Prop) (ngf : NGF) (dset : Nat) (order : List Nat)
    (inputs : List Input) (s s2 : LoopState) (tr : List Op) (ho : ∀ m ∈ order, P m)
    (hm : P s.mode) (h : run ngf dset order s inputs = some (s2, tr)) :
    P s2.mode ∧ (∀ cmd m, Op.pushShading cmd m ∈ tr → P m) ∧
      (∀ m, Op.assignMode m ∈ tr → m ∈ order) := by
  induction inputs generalizing s s2 tr with
  | nil =>
    simp only [run, Option.some.injEq, Prod.mk.injEq] at h
    rw [← h.1, ← h.2]
    exact ⟨hm, by simp, by simp⟩
  | cons inp rest ih =>
    rw [run] at h
    split at h
    · cases h
    · rename_i s1 tr1 h1
      split at h
      · cases h
      · rename_i s3 tr3 h3
        simp only [Option.some.injEq, Prod.mk.injEq] at h
        obtain ⟨a1, a2, a3⟩ := iteration_mode P ngf dset order s s1 inp tr1 ho hm h1
        obtain ⟨b1, b2, b3⟩ := ih s1 s3 tr3 a1 h3
        rw [← h.1, ← h.2]
        refine ⟨b1, ?_, ?_⟩
        · intro cmd m hmem
          rcases List.mem_append.1 hmem with hmem | hmem
          · rw [a2 cmd m hmem]; exact hm
          · exact b2 cmd m hmem
        · intro m hmem
          rcases List.mem_append.1 hmem with hmem | hmem
          · exact a3 m hmem
          · exact b3 m hmem

/-- C17: the render mode starts at 0; whatever the order in which the loop over
the mode table visits its three keys, after any number of passes the loop is
still running, the mode is 0, 1 or 2, every mode pushed in a shading block was
0, 1 or 2, and every assignment to the mode took a key of the mode table. -/
theorem run_mode_range (ngf : NGF) (dset : Nat) (order : List Nat)
    (horder : order.Perm (mode_descriptions.map Prod.fst)) (inputs : List Input) :
    loopInit.mode = 0 ∧
    ∃ s tr, run ngf dset order loopInit inputs = some (s, tr) ∧
      (s.mode = 0 ∨ s.mode = 1 ∨ s.mode = 2) ∧
      (∀ cmd m, Op.pushShading cmd m ∈ tr → m = 0 ∨ m = 1 ∨ m = 2) ∧
      (∀ m, Op.assignMode m ∈ tr → m ∈ mode_descriptions.map Prod.fst) := by
  obtain ⟨s, tr, h1, _, _⟩ := run_frame ngf dset order inputs loopInit (by decide)
  have ho : ∀ m ∈ order, m = 0 ∨ m = 1 ∨ m = 2 := by
    intro m hm
    have hk := horder.subset hm
    simpa [mode_descriptions] using hk
  obtain ⟨a1, a2, a3⟩ := run_mode (fun m => m = 0 ∨ m = 1 ∨ m = 2) ngf dset order inputs
    loopInit s tr ho (Or.inl rfl) h1
  exact ⟨rfl, s, tr, h1, a1, a2, fun m hm => horder.subset (a3 m hm)⟩

/-- C17, witness: two passes, the keys visited in the order 2, 0, 1, with a
click on the button of mode 2 in the first. -/
theorem run_mode_range_witness :
    [2, 0, 1].Perm (mode_descriptions.map Prod.fst) ∧
    loopInit.mode = 0 ∧
    ∃ s tr, run (decoded sampleFile) 7 [2, 0, 1] loopInit [clickShaded, stalePresent]
        = some (s, tr) ∧
      (s.mode = 0 ∨ s.mode = 1 ∨ s.mode = 2) ∧
      (∀ cmd m, Op.pushShading cmd m ∈ tr → m = 0 ∨ m = 1 ∨ m = 2) ∧
      (∀ m, Op.assignMode m ∈ tr → m ∈ mode_descriptions.map Prod.fst) :=
  ⟨by decide,
    run_mode_range (decoded sampleFile) 7 [2, 0, 1] (by decide) [clickShaded, stalePresent]⟩

/-! ## C18: size of the draw -/

theorem filter_isDraw_radio (clicked : Nat → Bool) (order : List Nat) (mode : Nat) :
    (radioPass clicked order mode).2.filter Op.isDraw = [] := by
  rw [List.filter_eq_nil_iff]
  intro op h
  have hr := radioPass_inRadioLoop clicked order mode op h
  cases op <;> simp_all [Op.inRadioLoop, Op.isDraw]

/-- C18: for an NGF that the loader produced, the patch count is the number of
decoded patches, and every pass that is not skipped at acquisition issues
exactly one mesh-task draw, with the work-unit counts (patch_count, 1, 1): one
work unit per decoded patch. -/
theorem iteration_draw_size (ngf0 out : NGF) (fin : IStream) (dset : Nat) (order : List Nat)
    (s : LoopState) (inp : Input) (hl : load ngf0 fin = .loaded out) (hf : s.frame < 2)
    (hs : ¬ inp.Skipped) :
    out.patch_count = out.patches.length ∧
    ∃ s2 tr, iteration out dset order s inp = some (s2, tr) ∧
      tr.filter Op.isDraw = [.drawMeshTasksEXT s.frame out.patch_count 1 1] ∧
      tr.filter Op.isDraw = [.drawMeshTasksEXT s.frame out.patches.length 1 1] := by
  obtain ⟨np, nv, nf, hL⟩ := load_loaded ngf0 fin out hl
  have hpc : out.patch_count = out.patches.length := by
    rw [hL.ngf_patch_count, hL.patches_length]
  have hd : ∀ n, ([Op.glfwPollEvents, .handle_key_input, .acquire_image s.frame,
        .cmdBegin s.frame, .viewport_and_scissor s.frame,
        .beginRenderPass s.frame inp.acquire.index, .bindPipeline s.frame,
        .bindDescriptorSets s.frame dset, .pushGeometry s.frame, .pushShading s.frame s.mode,
        .drawMeshTasksEXT s.frame n 1 1, .imguiNewFrame]
      ++ (radioPass inp.clicked order s.mode).2
      ++ ([Op.imguiRender, .renderDrawData s.frame, .endRenderPass s.frame,
          .transition s.frame inp.acquire.index true,
          .copy_image_to_buffer s.frame inp.acquire.index,
          .transition s.frame inp.acquire.index false]
      ++ end_frame s.frame s.frame
      ++ present_frame inp.acquire s.frame inp.present
      ++ [Op.waitIdle, .assignFrame (1 - s.frame)])).filter Op.isDraw
      = [Op.drawMeshTasksEXT s.frame n 1 1] := by
    intro n
    rw [List.filter_append, List.filter_append, filter_isDraw_radio]
    unfold present_frame end_frame
    split <;> rfl
  refine ⟨hpc, _, _, iteration_recorded out dset order s inp hf hs, hd _, ?_⟩
  rw [← hpc]
  exact hd _

/-- C18, witness: the first pass over the NGF of the sample file, which has one
patch. -/
theorem iteration_draw_size_witness :
    load (ngfInit 0 0) ⟨encode sampleFile, true⟩ = .loaded (decoded sampleFile) ∧
    loopInit.frame < 2 ∧ ¬ clickShaded.Skipped ∧
    (decoded sampleFile).patch_count = (decoded sampleFile).patches.length ∧
    ∃ s2 tr, iteration (decoded sampleFile) 7 [0, 1, 2] loopInit clickShaded = some (s2, tr) ∧
      tr.filter Op.isDraw
        = [.drawMeshTasksEXT loopInit.frame (decoded sampleFile).patch_count 1 1] ∧
      tr.filter Op.isDraw
        = [.drawMeshTasksEXT loopInit.frame (decoded sampleFile).patches.length 1 1] :=
  ⟨by decide, by decide, by decide,
    iteration_draw_size (ngfInit 0 0) (decoded sampleFile) ⟨encode sampleFile, true⟩ 7
      [0, 1, 2] loopInit clickShaded (by decide) (by decide) (by decide)⟩

/-! ## C19: shapes of the tensors -/

theorem getD_append_zeros (d : List Byte) (k i : Nat) :
    (d ++ zeros k).getD i 0 = d.getD i 0 := by
  simp only [List.getD_eq_getElem?_getD, zeros]
  by_cases h : i < d.length
  · rw [List.getElem?_append_left h]
  · rw [List.getElem?_append_right (by omega), List.getElem?_eq_none (l := d) (by omega)]
    by_cases h2 : i - d.length < k
    · rw [List.getElem?_replicate_of_lt h2]; rfl
    · rw [List.getElem?_eq_none (by simpa using Nat.le_of_not_lt h2)]

theorem getF32_append_zeros (d : List Byte) (k off : Nat) :
    getF32 (d ++ zeros k) off = getF32 d off := by
  apply Fin.ext
  show getU32 (d ++ zeros k) off = getU32 d off
  simp only [getU32, getD_append_zeros]

theorem floats_append_zeros (n : Nat) (d : List Byte) (k : Nat) :
    floats n (d ++ zeros k) = floats n d := by
  induction n generalizing d k with
  | zero => rfl
  | succ n ih =>
    rw [floats, floats, getF32_append_zeros, List.drop_append_eq_append_drop]
    have hz : (zeros k).drop (4 - d.length) = zeros (k - (4 - d.length)) := by
      simp [zeros]
    rw [hz, ih]

/-- The floats of a vector that a read on a good stream filled are the floats
at the start of the stream, bytes past its end counting as zero. -/
theorem floats_read (d : List Byte) (len : Nat) :
    floats len ((IStream.mk d true).read (zeros (len * 4)) (len * 4)).1 = floats len d := by
  have hz : (zeros (len * 4)).drop (d.take (len * 4)).length
      = zeros (len * 4 - (d.take (len * 4)).length) := by
    simp [zeros]
  show floats len (d.take (len * 4) ++ (zeros (len * 4)).drop (d.take (len * 4)).length) = _
  rw [hz, floats_append_zeros, floats_take _ _ _ (Nat.le_refl _)]

theorem read_data (d dst : List Byte) (n : Nat) :
    ((IStream.mk d true).read dst n).2.data = d.drop n := rfl

/-- The tensors of a weight loop that ran to its end, on a stream that holds
`data` from offset `off` on. -/
theorem readWeights_at (data : List Byte) (k : Nat) (off : Nat) (fin : IStream)
    (ts : List Tensor) (fin1 : IStream) (hd : fin.data = data.drop off)
    (h : readWeights k fin = .ok (ts, fin1)) :
    ts.length = k ∧ weightsAt data off ts ∧
      (∀ t ∈ ts, (t.vec.length : Int) = wrap32 (t.width * t.height)) ∧
      fin1.data = data.drop (off + weightsSize ts) := by
  induction k generalizing off fin ts with
  | zero =>
    rw [readWeights] at h
    injection h with h
    injection h with h1 h2
    subst h1 h2
    exact ⟨rfl, trivial, by simp, by simpa [weightsSize] using hd⟩
  | succ k ih =>
    rw [readWeights] at h
    split at h
    · cases h
    · rename_i sizes fin2 hl
      obtain ⟨_, hlen, hr⟩ := readLocal_some fin 8 _ hl
      injection hr with hs hf2
      subst hs hf2
      split at h
      · cases h
      · rename_i len hv
        split at h
        · cases h
        · rename_i ts2 fin3 hrec
          injection h with h
          injection h with h1 h2
          subst h1 h2
          have hlenI := vecSize_some _ _ hv
          have hdata : ((IStream.mk (fin.data.drop 8) true).read (zeros (len * 4))
              (len * 4)).2.data = data.drop (off + 8 + 4 * len) := by
            rw [read_data, hd, List.drop_drop, List.drop_drop]
            congr 1; omega
          obtain ⟨a1, a2, a3, a4⟩ := ih (off + 8 + 4 * len) _ ts2 hdata hrec
          have hw : getI32 (fin.data.take 8) 0 = getI32 data off := by
            rw [getI32_take _ _ _ (by omega), hd, getI32_drop]; rfl
          have hh : getI32 (fin.data.take 8) 4 = getI32 data (off + 4) := by
            rw [getI32_take _ _ _ (by omega), hd, getI32_drop]
          have hvec : floats len ((IStream.mk (fin.data.drop 8) true).read (zeros (len * 4))
              (len * 4)).1 = floats len (data.drop (off + 8)) := by
            rw [floats_read, hd, List.drop_drop]
          refine ⟨by simp [a1], ⟨hw, hh, ?_, ?_⟩, ?_, ?_⟩
          · show floats len _ = floats (floats len _).length _
            rw [floats_length, hvec]
          · show weightsAt data (off + 8 + 4 * (floats len _).length) ts2
            rw [floats_length]; exact a2
          · intro t ht
            rcases List.mem_cons.1 ht with ht | ht
            · rw [ht]
              show ((floats len _).length : Int) = _
              rw [floats_length]; exact hlenI.symm
            · exact a3 t ht
          · rw [a4]
            simp only [weightsSize, List.map_cons, List.sum_cons, floats_length]
            congr 1; omega

/-- The tensors of a bias loop that ran to its end, on a stream that holds
`data` from offset `off` on. -/
theorem readBiases_at (data : List Byte) (k : Nat) (off : Nat) (fin : IStream)
    (ts : List Tensor) (fin1 : IStream) (hd : fin.data = data.drop off)
    (h : readBiases k fin = .ok (ts, fin1)) :
    ts.length = k ∧ biasesAt data off ts ∧
      (∀ t ∈ ts, t.height = 1 ∧ (t.vec.length : Int) = t.width) := by
  induction k generalizing off fin ts fin1 with
  | zero =>
    rw [readBiases] at h
    injection h with h
    injection h with h1 h2
    subst h1
    exact ⟨rfl, trivial, by simp⟩
  | succ k ih =>
    rw [readBiases] at h
    split at h
    · cases h
    · rename_i size fin2 hl
      obtain ⟨_, hlen, hr⟩ := readLocal_some fin 4 _ hl
      injection hr with hs hf2
      subst hs hf2
      split at h
      · cases h
      · rename_i len hv
        split at h
        · cases h
        · rename_i ts2 fin3 hrec
          injection h with h
          injection h with h1 h2
          subst h1
          have hlenI := vecSize_some _ _ hv
          have hdata : ((IStream.mk (fin.data.drop 4) true).read (zeros (len * 4))
              (len * 4)).2.data = data.drop (off + 4 + 4 * len) := by
            rw [read_data, hd, List.drop_drop, List.drop_drop]
            congr 1; omega
          obtain ⟨a1, a2, a3⟩ := ih (off + 4 + 4 * len) _ ts2 fin3 hdata hrec
          have hw : getI32 (fin.data.take 4) 0 = getI32 data off := by
            rw [getI32_take _ _ _ (by omega), hd, getI32_drop]; rfl
          have hvec : floats len ((IStream.mk (fin.data.drop 4) true).read (zeros (len * 4))
              (len * 4)).1 = floats len (data.drop (off + 4)) := by
            rw [floats_read, hd, List.drop_drop]
          refine ⟨by simp [a1], ⟨hw, ?_, ?_⟩, ?_⟩
          · show floats len _ = floats (floats len _).length _
            rw [floats_length, hvec]
          · show biasesAt data (off + 4 + 4 * (floats len _).length) ts2
            rw [floats_length]; exact a2
          · intro t ht
            rcases List.mem_cons.1 ht with ht | ht
            · rw [ht]
              refine ⟨rfl, ?_⟩
              show ((floats len _).length : Int) = _
              rw [floats_length]; exact hlenI.symm
            · exact a3 t ht

/-- C19, as amended: for every NGF that the loader produces, weights and biases
each hold exactly 4 tensors, which are the records of the stream in order,
the first weight record right after the patches and the first bias record
right after the last weight record; a weight tensor has the width and the
height of its record and holds as many floats as the 32-bit product
`width * height` says, which is `width * height` when that product fits in 32
bits; a bias tensor has the size of its record as width, height 1, and holds
exactly that many floats. -/
theorem load_tensor_shapes (ngf0 out : NGF) (fin : IStream)
    (h : load ngf0 fin = .loaded out) :
    out.weights.length = LAYERS ∧ out.biases.length = LAYERS ∧
    weightsAt fin.data (tensorStart out) out.weights ∧
    biasesAt fin.data (tensorStart out + weightsSize out.weights) out.biases ∧
    (∀ t ∈ out.weights, (t.vec.length : Int) = wrap32 (t.width * t.height) ∧
      (IsI32 (t.width * t.height) → (t.vec.length : Int) = t.width * t.height)) ∧
    (∀ t ∈ out.biases, t.height = 1 ∧ (t.vec.length : Int) = t.width) := by
  obtain ⟨np, nv, nf, hL⟩ := load_loaded ngf0 fin out h
  obtain ⟨fin1, fin2, hw, hb⟩ := hL.ngf_tensors
  have hstart : tensorStart out = 12 + nv * 12 + nf * 4 + np * 16 := by
    unfold tensorStart
    rw [hL.vertices_length, hL.features_length, hL.patches_length]
    omega
  rw [← hstart] at hw
  obtain ⟨a1, a2, a3, a4⟩ := readWeights_at fin.data LAYERS (tensorStart out) _ _ _ rfl hw
  obtain ⟨b1, b2, b3⟩ := readBiases_at fin.data LAYERS _ fin1 _ _ a4 hb
  refine ⟨a1, b1, a2, b2, ?_, b3⟩
  intro t ht
  refine ⟨a3 t ht, fun hi => ?_⟩
  rw [a3 t ht, wrap32_eq _ hi.1 hi.2]

/-- C19, witness: the tensors decoded from the sample file. -/
theorem load_tensor_shapes_witness :
    load (ngfInit 0 0) ⟨encode sampleFile, true⟩ = .loaded (decoded sampleFile) ∧
    (decoded sampleFile).weights.length = LAYERS ∧
    (decoded sampleFile).biases.length = LAYERS ∧
    weightsAt (encode sampleFile) (tensorStart (decoded sampleFile))
      (decoded sampleFile).weights ∧
    biasesAt (encode sampleFile)
      (tensorStart (decoded sampleFile) + weightsSize (decoded sampleFile).weights)
      (decoded sampleFile).biases ∧
    (∀ t ∈ (decoded sampleFile).weights,
      (t.vec.length : Int) = wrap32 (t.width * t.height) ∧
      (IsI32 (t.width * t.height) → (t.vec.length : Int) = t.width * t.height)) ∧
    (∀ t ∈ (decoded sampleFile).biases, t.height = 1 ∧ (t.vec.length : Int) = t.width) :=
  ⟨by decide,
    load_tensor_shapes (ngfInit 0 0) (decoded sampleFile) ⟨encode sampleFile, true⟩
      (by decide)⟩

/-- C19, counterexample: the loader accepts a stream whose first weight record
has width 65536 and height 65536; the 32-bit product of the two is 0, and the
tensor holds no float, not 65536 * 65536 of them. -/
theorem load_tensor_shapes_counterexample :
    ∃ out t, load (ngfInit 0 0) squareStream = .loaded out ∧
      out.weights[0]? = some t ∧
      t.width = getI32 squareStream.data 12 ∧ t.height = getI32 squareStream.data 16 ∧
      t.width = 65536 ∧ t.height = 65536 ∧ t.vec.length = 0 ∧
      (t.vec.length : Int) ≠ t.width * t.height :=
  ⟨{ patches := [], vertices := [], features := [], patch_count := 0, feature_size := 20,
     weights := [⟨[], 65536, 65536⟩, ⟨[], 0, 0⟩, ⟨[], 0, 0⟩, ⟨[], 0, 0⟩],
     biases := [⟨[], 0, 1⟩, ⟨[], 0, 1⟩, ⟨[], 0, 1⟩, ⟨[], 0, 1⟩] },
    ⟨[], 65536, 65536⟩, by decide, rfl, by decide, by decide, rfl, rfl, rfl, by decide⟩

/-! ## C20: the packing procedure -/

/-- Inserting two vectors per index at the front, over a list of indices. -/
theorem foldl_insertFront (a b : Nat → List F32) (l : List Nat) (network : List F32) :
    l.foldl (fun network i => insertFront (insertFront network (a i)) (b i)) network
      = l.reverse.flatMap (fun i => b i ++ a i) ++ network := by
  induction l generalizing network with
  | nil => rfl
  | cons i l ih =>
    rw [List.foldl_cons, ih, List.reverse_cons, List.flatMap_append]
    simp only [List.flatMap_cons, List.flatMap_nil, List.append_nil, insertFront,
      List.append_assoc]

/-- C20, as amended: the packed network buffer built by the program equals the
sequence obtained by starting from the empty sequence and, for each layer `i`
from 0 to `L - 1` in order, first inserting the weight vector of layer `i` at
position 0 and then inserting its bias vector at position 0. The procedure
that inserts the bias vector first and the weight vector second yields the
layers in reverse order with each weight vector before its bias vector; it
agrees with the program when in every layer one of the two vectors is empty. -/
theorem packNetwork_procedure (L : Nat) (weights biases : List Tensor) :
    packNetwork L weights biases
      = (List.range L).foldl (fun network i =>
          insertFront (insertFront network (weights.getD i ⟨[], 0, 0⟩).vec)
            (biases.getD i ⟨[], 0, 0⟩).vec) [] ∧
    (∀ ngf : NGF, networkBuffer ngf
      = (List.range LAYERS).foldl (fun network i =>
          insertFront (insertFront network (ngf.weights.getD i ⟨[], 0, 0⟩).vec)
            (ngf.biases.getD i ⟨[], 0, 0⟩).vec) []) ∧
    specPack L weights biases
      = (List.range L).reverse.flatMap (fun i =>
          (weights.getD i ⟨[], 0, 0⟩).vec ++ (biases.getD i ⟨[], 0, 0⟩).vec) ∧
    ((∀ i, i < L → (weights.getD i ⟨[], 0, 0⟩).vec = [] ∨ (biases.getD i ⟨[], 0, 0⟩).vec = []) →
      packNetwork L weights biases = specPack L weights biases) := by
  have hp : ∀ (L : Nat) (weights biases : List Tensor), packNetwork L weights biases
      = (List.range L).foldl (fun network i =>
          insertFront (insertFront network (weights.getD i ⟨[], 0, 0⟩).vec)
            (biases.getD i ⟨[], 0, 0⟩).vec) [] := by
    intro L weights biases
    unfold packNetwork
    rw [packLoop_eq, foldl_insertFront, List.range_eq_range']
    rfl
  have hs : specPack L weights biases
      = (List.range L).reverse.flatMap (fun i =>
          (weights.getD i ⟨[], 0, 0⟩).vec ++ (biases.getD i ⟨[], 0, 0⟩).vec) := by
    unfold specPack
    rw [foldl_insertFront, List.append_nil]
  refine ⟨hp L weights biases, fun ngf => hp LAYERS ngf.weights ngf.biases, hs, ?_⟩
  intro hempty
  rw [hs, hp, foldl_insertFront, List.append_nil]
  apply List.flatMap_congr
  intro i hi
  have hlt : i < L := by simpa using hi
  show (biases.getD i ⟨[], 0, 0⟩).vec ++ (weights.getD i ⟨[], 0, 0⟩).vec
    = (weights.getD i ⟨[], 0, 0⟩).vec ++ (biases.getD i ⟨[], 0, 0⟩).vec
  rcases hempty i hlt with h | h <;> rw [h, List.append_nil, List.nil_append]

/-- C20, counterexample: for the NGF of the sample file the program packs
each bias vector before the weight vector of its layer, and the procedure that
inserts the bias vector first packs it after. -/
theorem packNetwork_procedure_counterexample :
    networkBuffer (decoded sampleFile)
      = [3204448256, 25, 32, 33, 23, 24, 31, 21, 22] ∧
    specPack LAYERS (decoded sampleFile).weights (decoded sampleFile).biases
      = [25, 3204448256, 32, 33, 23, 24, 21, 22, 31] ∧
    networkBuffer (decoded sampleFile)
      ≠ specPack LAYERS (decoded sampleFile).weights (decoded sampleFile).biases := by
  decide

/-! ## C21: synchronisation of the submission -/

theorem filter_radio (clicked : Nat → Bool) (order : List Nat) (mode : Nat) (p : Op → Bool)
    (hp : ∀ op, op.inRadioLoop = true → p op = false) :
    (radioPass clicked order mode).2.filter p = [] := by
  rw [List.filter_eq_nil_iff]
  intro op h
  rw [hp op (radioPass_inRadioLoop clicked order mode op h)]
  decide

/-- C21: for every frame slot 0 or 1, a pass on that slot that is not skipped
at acquisition makes exactly one queue submission; it submits exactly the
command buffer of the slot, the one the pass began; it waits on exactly one
semaphore, the image-available semaphore of the slot, at the
color-attachment-output stage; it signals exactly the render-finished
semaphore of the slot and passes the in-flight fence of the slot; every
synchronisation object it names belongs to the slot, none to the other one. -/
theorem iteration_submit_sync (ngf : NGF) (dset : Nat) (order : List Nat) (s : LoopState)
    (inp : Input) (hf : s.frame < 2) (hs : ¬ inp.Skipped) :
    ∃ s2 tr, iteration ngf dset order s inp = some (s2, tr) ∧
      tr.filter Op.isSubmit
        = [.submit ⟨[.image_available s.frame], [.eColorAttachmentOutput], [s.frame],
            [.render_finished s.frame]⟩ (.in_flight s.frame)] ∧
      tr.filter (fun op => decide (op.step = some .beginCommands)) = [.cmdBegin s.frame] ∧
      ∀ info fence, Op.submit info fence ∈ tr →
        info.commandBuffers = [s.frame] ∧
        info.waitSemaphores = [.image_available s.frame] ∧
        info.waitDstStageMask = [.eColorAttachmentOutput] ∧
        info.signalSemaphores = [.render_finished s.frame] ∧
        fence = .in_flight s.frame ∧
        ∀ o ∈ submitSyncObjects info fence, o.slot = s.frame ∧ o.slot ≠ 1 - s.frame := by
  have h1 : ([Op.glfwPollEvents, .handle_key_input, .acquire_image s.frame, .cmdBegin s.frame,
          .viewport_and_scissor s.frame, .beginRenderPass s.frame inp.acquire.index,
          .bindPipeline s.frame, .bindDescriptorSets s.frame dset, .pushGeometry s.frame,
          .pushShading s.frame s.mode, .drawMeshTasksEXT s.frame ngf.patch_count 1 1,
          .imguiNewFrame]
        ++ (radioPass inp.clicked order s.mode).2
        ++ ([Op.imguiRender, .renderDrawData s.frame, .endRenderPass s.frame,
            .transition s.frame inp.acquire.index true,
            .copy_image_to_buffer s.frame inp.acquire.index,
            .transition s.frame inp.acquire.index false]
        ++ end_frame s.frame s.frame
        ++ present_frame inp.acquire s.frame inp.present
        ++ [Op.waitIdle, .assignFrame (1 - s.frame)])).filter Op.isSubmit
      = [Op.submit ⟨[.image_available s.frame], [.eColorAttachmentOutput], [s.frame],
            [.render_finished s.frame]⟩ (.in_flight s.frame)] := by
    rw [List.filter_append, List.filter_append,
      filter_radio _ _ _ _ (by intro op h; cases op <;> simp_all [Op.inRadioLoop, Op.isSubmit])]
    unfold present_frame end_frame
    split <;> rfl
  have h2 : ([Op.glfwPollEvents, .handle_key_input, .acquire_image s.frame, .cmdBegin s.frame,
          .viewport_and_scissor s.frame, .beginRenderPass s.frame inp.acquire.index,
          .bindPipeline s.frame, .bindDescriptorSets s.frame dset, .pushGeometry s.frame,
          .pushShading s.frame s.mode, .drawMeshTasksEXT s.frame ngf.patch_count 1 1,
          .imguiNewFrame]
        ++ (radioPass inp.clicked order s.mode).2
        ++ ([Op.imguiRender, .renderDrawData s.frame, .endRenderPass s.frame,
            .transition s.frame inp.acquire.index true,
            .copy_image_to_buffer s.frame inp.acquire.index,
            .transition s.frame inp.acquire.index false]
        ++ end_frame s.frame s.frame
        ++ present_frame inp.acquire s.frame inp.present
        ++ [Op.waitIdle, .assignFrame (1 - s.frame)])).filter
          (fun op => decide (op.step = some .beginCommands))
      = [Op.cmdBegin s.frame] := by
    rw [List.filter_append, List.filter_append,
      filter_radio _ _ _ _ (by intro op h; cases op <;> simp_all [Op.inRadioLoop, Op.step])]
    unfold present_frame end_frame
    split <;> rfl
  refine ⟨_, _, iteration_recorded ngf dset order s inp hf hs, h1, h2, ?_⟩
  intro info fence hmem
  have hsub : Op.submit info fence ∈ [Op.submit ⟨[.image_available s.frame],
      [.eColorAttachmentOutput], [s.frame], [.render_finished s.frame]⟩
      (.in_flight s.frame)] := by
    rw [← h1]
    exact List.mem_filter.2 ⟨hmem, rfl⟩
  rw [List.mem_singleton] at hsub
  injection hsub with hi hfence
  subst hi hfence
  refine ⟨rfl, rfl, rfl, rfl, rfl, ?_⟩
  intro o ho
  simp only [submitSyncObjects, List.cons_append, List.nil_append, List.mem_cons,
    List.mem_singleton, List.mem_nil_iff, or_false] at ho
  rcases ho with ho | ho | ho <;> subst ho <;> exact ⟨rfl, by show s.frame ≠ 1 - s.frame; omega⟩

/-- C21, witness: the submission of a pass on slot 1 names the command buffer,
the two semaphores and the fence of slot 1. -/
theorem iteration_submit_sync_witness :
    (1 : Nat) < 2 ∧ ¬ clickShaded.Skipped ∧
    ∃ s2 tr, iteration (decoded sampleFile) 7 [0, 1, 2] ⟨1, 0⟩ clickShaded = some (s2, tr) ∧
      tr.filter Op.isSubmit
        = [.submit ⟨[.image_available 1], [.eColorAttachmentOutput], [1],
            [.render_finished 1]⟩ (.in_flight 1)] :=
  ⟨by decide, by decide,
    match iteration_submit_sync (decoded sampleFile) 7 [0, 1, 2] ⟨1, 0⟩ clickShaded
      (by decide) (by decide) with
    | ⟨s2, tr, h, hsub, _⟩ => ⟨s2, tr, h, hsub⟩⟩

/-! ## The viewer: the mesh table -/

theorem mapFind_eq_none (meshes : List (String × MeshResource)) (name : String) :
    mapFind meshes name = none ↔ name ∉ meshes.map Prod.fst := by
  unfold mapFind
  rw [List.find?_eq_none]
  simp only [decide_eq_true_eq, List.mem_map, not_exists, not_and]

theorem mapFind_some (meshes : List (String × MeshResource)) (name : String)
    (e : String × MeshResource) (h : mapFind meshes name = some e) :
    e ∈ meshes ∧ e.1 = name := by
  unfold mapFind at h
  exact ⟨List.mem_of_find?_eq_some h, by simpa using List.find?_some h⟩

/-- The entry found in a map with no name twice is the entry of that name. -/
theorem mapFind_of_mem (meshes : List (String × MeshResource)) (name : String)
    (r : MeshResource) (hmap : (meshes.map Prod.fst).Nodup) (h : (name, r) ∈ meshes) :
    mapFind meshes name = some (name, r) := by
  induction meshes with
  | nil => cases h
  | cons e rest ih =>
    rw [List.map_cons, List.nodup_cons] at hmap
    unfold mapFind
    rw [List.find?_cons]
    rcases List.mem_cons.1 h with h | h
    · rw [← h]; simp
    · have hne : e.1 ≠ name := by
        intro heq
        apply hmap.1
        rw [heq]
        exact List.mem_map.2 ⟨(name, r), h, rfl⟩
      simp only [hne, decide_False]
      exact ih hmap.2 h

theorem mapFind_modify (meshes : List (String × MeshResource)) (name other : String)
    (f : MeshResource → MeshResource) :
    mapFind (mapModify meshes name f) other
      = (mapFind meshes other).map (fun e => if e.1 = name then (e.1, f e.2) else e) := by
  induction meshes with
  | nil => rfl
  | cons e rest ih =>
    unfold mapFind mapModify at ih ⊢
    rw [List.map_cons, List.find?_cons, List.find?_cons]
    have hkey : (if e.1 = name then (e.1, f e.2) else e).1 = e.1 := by
      split <;> rfl
    rw [hkey]
    by_cases h : e.1 = other
    · simp [h]
    · simp only [h, decide_False]
      exact ih

theorem map_fst_modify (meshes : List (String × MeshResource)) (name : String)
    (f : MeshResource → MeshResource) :
    (mapModify meshes name f).map Prod.fst = meshes.map Prod.fst := by
  unfold mapModify
  rw [List.map_map]
  apply List.map_congr_left
  intro e _
  show (if e.1 = name then (e.1, f e.2) else e).1 = e.1
  split <;> rfl

/-- After `meshes[name] = resource` the entry of `name` holds the resource. -/
theorem mapFind_assign (meshes : List (String × MeshResource)) (name : String)
    (resource : MeshResource) :
    mapFind (mapAssign meshes name resource) name = some (name, resource) := by
  unfold mapAssign
  cases h : mapFind meshes name with
  | none =>
    show mapFind (meshes ++ [(name, resource)]) name = _
    unfold mapFind at h ⊢
    rw [List.find?_append, h]
    simp
  | some e =>
    show mapFind (mapModify meshes name (fun _ => resource)) name = _
    rw [mapFind_modify, h]
    have he := (mapFind_some meshes name e h).2
    simp [he]

/-- The assignment `meshes[name] = resource` leaves the other entries alone. -/
theorem mapFind_assign_ne (meshes : List (String × MeshResource)) (name other : String)
    (resource : MeshResource) (hne : other ≠ name) :
    mapFind (mapAssign meshes name resource) other = mapFind meshes other := by
  unfold mapAssign
  cases h : mapFind meshes name with
  | none =>
    show mapFind (meshes ++ [(name, resource)]) other = _
    unfold mapFind
    rw [List.find?_append]
    have hn : List.find? (fun e => decide (e.1 = other)) [(name, resource)] = none := by
      simp [List.find?_cons, Ne.symm hne]
    rw [hn, Option.or_none]
  | some e =>
    show mapFind (mapModify meshes name (fun _ => resource)) other = _
    rw [mapFind_modify]
    cases h2 : mapFind meshes other with
    | none => rfl
    | some e2 =>
      have he2 := (mapFind_some meshes other e2 h2).2
      have : e2.1 ≠ name := by rw [he2]; exact hne
      simp [this]

theorem map_fst_assign (meshes : List (String × MeshResource)) (name : String)
    (resource : MeshResource) :
    name ∈ (mapAssign meshes name resource).map Prod.fst ∧
    ((meshes.map Prod.fst).Nodup → ((mapAssign meshes name resource).map Prod.fst).Nodup) := by
  unfold mapAssign
  cases h : mapFind meshes name with
  | none =>
    show name ∈ (meshes ++ [(name, resource)]).map Prod.fst ∧
      (_ → ((meshes ++ [(name, resource)]).map Prod.fst).Nodup)
    have hnot := (mapFind_eq_none meshes name).1 h
    rw [List.map_append]
    refine ⟨by simp, fun hnd => ?_⟩
    rw [List.nodup_append]
    refine ⟨hnd, by simp, ?_⟩
    intro a ha hb
    simp only [List.map_cons, List.map_nil, List.mem_singleton] at hb
    rw [hb] at ha
    exact hnot ha
  | some e =>
    show name ∈ (mapModify meshes name (fun _ => resource)).map Prod.fst ∧
      (_ → ((mapModify meshes name (fun _ => resource)).map Prod.fst).Nodup)
    rw [map_fst_modify]
    have he := mapFind_some meshes name e h
    refine ⟨List.mem_map.2 ⟨e, he.1, he.2⟩, fun hnd => hnd⟩

/-! ## The viewer: the loops of `Viewer::add` -/

theorem getElem?_eq_some_getD {α : Type} (l : List α) (i : Nat) (d : α) (h : i < l.length) :
    l[i]? = some (l.getD i d) := by
  rw [List.getD_eq_getElem?_getD, List.getElem?_eq_getElem h]
  rfl

/-- Indexing a concatenation of blocks that all have the length `m`. -/
theorem getElem?_flatMap_uniform {α β : Type} (f : β → List α) (m : Nat)
    (hlen : ∀ b, (f b).length = m) (l : List β) (k c : Nat) (hc : c < m) :
    (l.flatMap f)[m * k + c]? = (l[k]?).bind (fun b => (f b)[c]?) := by
  induction l generalizing k with
  | nil => simp
  | cons b rest ih =>
    rw [List.flatMap_cons]
    cases k with
    | zero =>
      rw [Nat.mul_zero, Nat.zero_add, List.getElem?_append_left (by rw [hlen]; exact hc),
        List.getElem?_cons_zero, Option.some_bind]
    | succ k =>
      rw [List.getElem?_append_right (by rw [hlen, Nat.mul_succ]; omega), hlen,
        show m * (k + 1) + c - m = m * k + c by rw [Nat.mul_succ]; omega, ih,
        List.getElem?_cons_succ]

theorem length_flatMap_uniform {α β : Type} (f : β → List α) (m : Nat)
    (hlen : ∀ b, (f b).length = m) (l : List β) : (l.flatMap f).length = m * l.length := by
  induction l with
  | nil => rfl
  | cons b rest ih =>
    rw [List.flatMap_cons, List.length_append, hlen, ih, List.length_cons, Nat.mul_succ]
    omega

/-- The interleaving loop on indices that lie in both vectors. -/
theorem interleaveLoop_eq (mesh : Mesh) (r i : Nat) (vertices : List Vec3)
    (hv : i + r ≤ mesh.vertices.length) (hn : i + r ≤ mesh.normals.length) :
    interleaveLoop mesh r i vertices
      = some (vertices ++ (List.range' i r).flatMap (fun j =>
          [mesh.vertices.getD j ⟨0, 0, 0⟩, mesh.normals.getD j ⟨0, 0, 0⟩])) := by
  induction r generalizing i vertices with
  | zero => simp [interleaveLoop]
  | succ r ih =>
    rw [interleaveLoop, getElem?_eq_some_getD mesh.vertices i ⟨0, 0, 0⟩ (by omega),
      getElem?_eq_some_getD mesh.normals i ⟨0, 0, 0⟩ (by omega)]
    simp only
    rw [ih (i + 1) _ (by omega) (by omega), List.range'_succ, List.flatMap_cons,
      List.append_assoc]

/-- The corner loop on indices that lie in both vectors. -/
theorem cornerLoop_eq (mesh : Mesh) (triangle : UVec3) (r i : Nat) (unindexed : List Vec3)
    (hv : ∀ c, triangle.get c < mesh.vertices.length)
    (hn : ∀ c, triangle.get c < mesh.normals.length) :
    cornerLoop mesh triangle r i unindexed
      = some (unindexed ++ (List.range' i r).flatMap (fun c =>
          [mesh.vertices.getD (triangle.get c) ⟨0, 0, 0⟩,
            mesh.normals.getD (triangle.get c) ⟨0, 0, 0⟩, faceColor])) := by
  induction r generalizing i unindexed with
  | zero => simp [cornerLoop]
  | succ r ih =>
    rw [cornerLoop, getElem?_eq_some_getD mesh.vertices _ ⟨0, 0, 0⟩ (hv i),
      getElem?_eq_some_getD mesh.normals _ ⟨0, 0, 0⟩ (hn i)]
    simp only
    rw [ih (i + 1) _, List.range'_succ, List.flatMap_cons, List.append_assoc]

theorem unindexLoop_eq (mesh : Mesh) (triangles : List UVec3) (unindexed : List Vec3)
    (hv : ∀ tri ∈ triangles, ∀ c, tri.get c < mesh.vertices.length)
    (hn : ∀ tri ∈ triangles, ∀ c, tri.get c < mesh.normals.length) :
    unindexLoop mesh triangles unindexed
      = some (unindexed ++ triangles.flatMap (fun tri =>
          (List.range' 0 3).flatMap (fun c =>
            [mesh.vertices.getD (tri.get c) ⟨0, 0, 0⟩,
              mesh.normals.getD (tri.get c) ⟨0, 0, 0⟩, faceColor]))) := by
  induction triangles generalizing unindexed with
  | nil => simp [unindexLoop]
  | cons tri rest ih =>
    rw [unindexLoop, cornerLoop_eq mesh tri 3 0 unindexed
      (hv tri (List.mem_cons_self _ _)) (hn tri (List.mem_cons_self _ _))]
    simp only
    rw [ih _ (fun t ht => hv t (List.mem_cons_of_mem _ ht))
      (fun t ht => hn t (List.mem_cons_of_mem _ ht)), List.flatMap_cons, List.append_assoc]

theorem UVec3.get_lt (t : UVec3) (n : Nat) (h : t.x < n ∧ t.y < n ∧ t.z < n) (c : Nat) :
    t.get c < n := by
  unfold UVec3.get
  split
  · exact h.1
  · exact h.2.1
  · exact h.2.2

theorem range'_zero_getElem? (n i : Nat) (h : i < n) : (List.range' 0 n)[i]? = some i := by
  rw [List.getElem?_range' _ _ h, Nat.zero_add, Nat.one_mul]

/-- The interleaved vector of a mesh with at least as many normals as
positions. -/
theorem interleave_spec (mesh : Mesh) (hn : mesh.vertices.length ≤ mesh.normals.length) :
    ∃ vs, interleave mesh = some vs ∧ vs.length = 2 * mesh.vertices.length ∧
      ∀ i, i < mesh.vertices.length →
        vs[2 * i]? = mesh.vertices[i]? ∧ vs[2 * i + 1]? = mesh.normals[i]? := by
  have hlen : ∀ j : Nat, ([mesh.vertices.getD j ⟨0, 0, 0⟩,
      mesh.normals.getD j ⟨0, 0, 0⟩] : List Vec3).length = 2 := fun _ => rfl
  have hi : interleave mesh = some ((List.range' 0 mesh.vertices.length).flatMap (fun j =>
      [mesh.vertices.getD j ⟨0, 0, 0⟩, mesh.normals.getD j ⟨0, 0, 0⟩])) := by
    unfold interleave
    rw [interleaveLoop_eq mesh _ 0 [] (by omega) (by omega), List.nil_append]
  refine ⟨_, hi, ?_, ?_⟩
  · rw [length_flatMap_uniform _ 2 hlen, List.length_range']
  · intro i hi
    have h0 := getElem?_flatMap_uniform _ 2 hlen (List.range' 0 mesh.vertices.length) i 0
      (by omega)
    have h1 := getElem?_flatMap_uniform _ 2 hlen (List.range' 0 mesh.vertices.length) i 1
      (by omega)
    rw [range'_zero_getElem? _ _ hi, Option.some_bind] at h0 h1
    rw [Nat.add_zero] at h0
    rw [h0, h1, getElem?_eq_some_getD mesh.vertices i ⟨0, 0, 0⟩ hi,
      getElem?_eq_some_getD mesh.normals i ⟨0, 0, 0⟩ (by omega)]
    exact ⟨rfl, rfl⟩

/-- The unindexed vector of a mesh whose triangle indices lie in both
vectors. -/
theorem unindex_spec (mesh : Mesh) (hn : mesh.vertices.length ≤ mesh.normals.length)
    (ht : ∀ tri ∈ mesh.triangles, ∀ c, tri.get c < mesh.vertices.length) :
    ∃ us, unindex mesh = some us ∧ us.length = 9 * mesh.triangles.length ∧
      ∀ t tri, mesh.triangles[t]? = some tri → ∀ c, c < 3 →
        us[9 * t + 3 * c]? = mesh.vertices[tri.get c]? ∧
        us[9 * t + 3 * c + 1]? = mesh.normals[tri.get c]? ∧
        us[9 * t + 3 * c + 2]? = some faceColor := by
  have hlen3 : ∀ (tri : UVec3) (c : Nat), ([mesh.vertices.getD (tri.get c) ⟨0, 0, 0⟩,
      mesh.normals.getD (tri.get c) ⟨0, 0, 0⟩, faceColor] : List Vec3).length = 3 :=
    fun _ _ => rfl
  have hlen9 : ∀ tri : UVec3, ((List.range' 0 3).flatMap (fun c =>
      [mesh.vertices.getD (tri.get c) ⟨0, 0, 0⟩,
        mesh.normals.getD (tri.get c) ⟨0, 0, 0⟩, faceColor])).length = 9 := fun _ => rfl
  have hu : unindex mesh = some (mesh.triangles.flatMap (fun tri =>
      (List.range' 0 3).flatMap (fun c =>
        [mesh.vertices.getD (tri.get c) ⟨0, 0, 0⟩,
          mesh.normals.getD (tri.get c) ⟨0, 0, 0⟩, faceColor]))) := by
    unfold unindex
    rw [unindexLoop_eq mesh _ [] ht (fun tri h c => Nat.lt_of_lt_of_le (ht tri h c) hn),
      List.nil_append]
  refine ⟨_, hu, ?_, ?_⟩
  · rw [length_flatMap_uniform _ 9 hlen9]
  · intro t tri htri c hc
    have hmem : tri ∈ mesh.triangles := List.mem_iff_getElem?.2 ⟨t, htri⟩
    have hv := ht tri hmem c
    have key : ∀ d, d < 3 →
        (mesh.triangles.flatMap (fun tri => (List.range' 0 3).flatMap (fun c =>
          [mesh.vertices.getD (tri.get c) ⟨0, 0, 0⟩,
            mesh.normals.getD (tri.get c) ⟨0, 0, 0⟩, faceColor])))[9 * t + (3 * c + d)]?
        = ([mesh.vertices.getD (tri.get c) ⟨0, 0, 0⟩,
            mesh.normals.getD (tri.get c) ⟨0, 0, 0⟩, faceColor] : List Vec3)[d]? := by
      intro d hd
      rw [getElem?_flatMap_uniform _ 9 hlen9 mesh.triangles t (3 * c + d) (by omega), htri,
        Option.some_bind, getElem?_flatMap_uniform _ 3 (hlen3 tri) (List.range' 0 3) c d hd,
        range'_zero_getElem? 3 c hc, Option.some_bind]
    have k0 := key 0 (by omega)
    have k1 := key 1 (by omega)
    have k2 := key 2 (by omega)
    rw [Nat.add_zero] at k0
    rw [← Nat.add_assoc] at k1 k2
    rw [k0, k1, k2, getElem?_eq_some_getD mesh.vertices _ ⟨0, 0, 0⟩ hv,
      getElem?_eq_some_getD mesh.normals _ ⟨0, 0, 0⟩ (Nat.lt_of_lt_of_le hv hn)]
    exact ⟨rfl, rfl, rfl⟩

/-! ## C22: the buffers of `Viewer::add` -/

/-- C22: for every mesh with at least as many normals as positions and all
triangle indices below the number of positions, `Viewer::add` returns; the
interleaved vertex data has length `2 * vertices.size()` with element `2i`
equal to `vertices[i]` and element `2i+1` equal to `normals[i]`; the unindexed
data has length `9 * triangles.size()` and, for triangle `t` and corner `c`,
its elements `9t+3c`, `9t+3c+1`, `9t+3c+2` are `vertices[tri[c]]`,
`normals[tri[c]]` and the colour (1.0, 0.5, 0.5); the index data is the
triangles; `index_count` is `3 * triangles.size()`; the resource is stored
under the given name with the given mode, whatever was stored under that name
before; the name has one entry in the table and the resources of all other
names are as before. -/
theorem add_buffer_layout (v : Viewer) (name : String) (mesh : Mesh) (mode : Mode)
    (hn : mesh.vertices.length ≤ mesh.normals.length)
    (ht : ∀ tri ∈ mesh.triangles, tri.x < mesh.vertices.length ∧
      tri.y < mesh.vertices.length ∧ tri.z < mesh.vertices.length) :
    ∃ v2 r, v.add name mesh mode = some v2 ∧ v2.ref name = some r ∧
      r.vertex_buffer.length = 2 * mesh.vertices.length ∧
      (∀ i, i < mesh.vertices.length →
        r.vertex_buffer[2 * i]? = mesh.vertices[i]? ∧
        r.vertex_buffer[2 * i + 1]? = mesh.normals[i]?) ∧
      r.unindexed_vertex_buffer.length = 9 * mesh.triangles.length ∧
      (∀ t tri, mesh.triangles[t]? = some tri → ∀ c, c < 3 →
        r.unindexed_vertex_buffer[9 * t + 3 * c]? = mesh.vertices[tri.get c]? ∧
        r.unindexed_vertex_buffer[9 * t + 3 * c + 1]? = mesh.normals[tri.get c]? ∧
        r.unindexed_vertex_buffer[9 * t + 3 * c + 2]? = some faceColor) ∧
      faceColor = ⟨1065353216, 1056964608, 1056964608⟩ ∧
      r.index_buffer = mesh.triangles ∧
      r.index_count = 3 * mesh.triangles.length ∧
      r.mode = mode ∧
      v2.Has name ∧
      (v.IsMap → v2.IsMap ∧ (v2.meshes.map Prod.fst).count name = 1) ∧
      (∀ other, other ≠ name → v2.ref other = v.ref other) := by
  obtain ⟨vs, hvs, hvlen, hvelem⟩ := interleave_spec mesh hn
  obtain ⟨us, hus, hulen, huelem⟩ := unindex_spec mesh hn
    (fun tri h c => UVec3.get_lt tri _ (ht tri h) c)
  have hadd : v.add name mesh mode = some { v with
      meshes := mapAssign v.meshes name
        { vertex_buffer := vs, index_buffer := mesh.triangles, unindexed_vertex_buffer := us,
          index_count := mesh.triangles.length * 3, mode := mode, device := v.device } } := by
    unfold Viewer.add
    rw [hvs, hus]
  have hkeys := map_fst_assign v.meshes name
    { vertex_buffer := vs, index_buffer := mesh.triangles, unindexed_vertex_buffer := us,
      index_count := mesh.triangles.length * 3, mode := mode, device := v.device }
  refine ⟨_, MeshResource.mk vs mesh.triangles us (mesh.triangles.length * 3) mode v.device,
    hadd, ?_, hvlen, hvelem, hulen, huelem, rfl, rfl, Nat.mul_comm _ _, rfl, hkeys.1, ?_, ?_⟩
  · unfold Viewer.ref
    show (match mapFind (mapAssign v.meshes name _) name with
      | none => none
      | some e => some e.2) = _
    rw [mapFind_assign]
  · intro hmap
    exact ⟨hkeys.2 hmap, List.count_eq_one_of_mem (hkeys.2 hmap) hkeys.1⟩
  · intro other hne
    unfold Viewer.ref
    show (match mapFind (mapAssign v.meshes name _) other with
      | none => none
      | some e => some e.2) = _
    rw [mapFind_assign_ne _ _ _ _ hne]

/-- C22, witness: a mesh of one triangle added under a name that the table
already holds. -/
theorem add_buffer_layout_witness :
    triangleMesh.vertices.length ≤ triangleMesh.normals.length ∧
    (∀ tri ∈ triangleMesh.triangles, tri.x < triangleMesh.vertices.length ∧
      tri.y < triangleMesh.vertices.length ∧ tri.z < triangleMesh.vertices.length) ∧
    oneMeshViewer.add "ref" triangleMesh .FaceColor = some
      { device := 5
        meshes := [("ref",
          { vertex_buffer := [⟨1, 2, 3⟩, ⟨11, 12, 13⟩, ⟨4, 5, 6⟩, ⟨14, 15, 16⟩, ⟨7, 8, 9⟩,
              ⟨17, 18, 19⟩]
            index_buffer := [⟨2, 0, 1⟩]
            unindexed_vertex_buffer := [⟨7, 8, 9⟩, ⟨17, 18, 19⟩, faceColor, ⟨1, 2, 3⟩,
              ⟨11, 12, 13⟩, faceColor, ⟨4, 5, 6⟩, ⟨14, 15, 16⟩, faceColor]
            index_count := 3
            mode := .FaceColor
            device := 5 })] } ∧
    ∃ v2 r, oneMeshViewer.add "ref" triangleMesh .FaceColor = some v2 ∧
      v2.ref "ref" = some r ∧
      r.vertex_buffer.length = 2 * triangleMesh.vertices.length ∧
      r.unindexed_vertex_buffer.length = 9 * triangleMesh.triangles.length ∧
      r.index_count = 3 * triangleMesh.triangles.length ∧ r.mode = .FaceColor :=
  ⟨by decide, by decide, by decide,
    match add_buffer_layout oneMeshViewer "ref" triangleMesh .FaceColor (by decide)
      (by decide) with
    | ⟨v2, r, h1, h2, h3, _, h5, _, _, _, h9, h10, _⟩ => ⟨v2, r, h1, h2, h3, h5, h9, h10⟩⟩

/-! ## C23: lookups in the mesh table -/

/-- C23: for every viewer and every name that is not in the mesh table,
`Viewer::refresh` and `Viewer::replace` return with the viewer, its table and
every resource in it unchanged, whatever the mesh, and `Viewer::ref` returns
null; for every name in the table `Viewer::ref` returns a resource stored
under that name, the resource stored under it when no name has two entries;
after `Viewer::clear` the table is empty and `Viewer::ref` returns null for
every name. -/
theorem viewer_lookups (upload : List Vec3 → List Vec3 → List Vec3)
    (recompute_normals : Mesh → Mesh) (v : Viewer) (name : String) (mesh : Mesh) :
    (¬ v.Has name →
      v.refresh upload name mesh = some v ∧
      v.replace recompute_normals name mesh = some v ∧
      v.ref name = none) ∧
    (v.Has name → ∃ r, v.ref name = some r ∧ (name, r) ∈ v.meshes) ∧
    (v.IsMap → ∀ r, (name, r) ∈ v.meshes → v.ref name = some r) ∧
    v.clear.meshes = [] ∧
    (∀ n, ¬ v.clear.Has n) ∧
    (∀ n, v.clear.ref n = none) := by
  refine ⟨?_, ?_, ?_, rfl, ?_, fun _ => rfl⟩
  · intro hnot
    have hfind := (mapFind_eq_none v.meshes name).2 hnot
    refine ⟨?_, ?_, ?_⟩
    · unfold Viewer.refresh; rw [hfind]
    · unfold Viewer.replace; rw [hfind]
    · unfold Viewer.ref; rw [hfind]
  · intro hhas
    cases hfind : mapFind v.meshes name with
    | none => exact absurd hhas ((mapFind_eq_none v.meshes name).1 hfind)
    | some e =>
      obtain ⟨hmem, hkey⟩ := mapFind_some v.meshes name e hfind
      refine ⟨e.2, ?_, ?_⟩
      · unfold Viewer.ref; rw [hfind]
      · rw [← hkey]; exact hmem
  · intro hmap r hmem
    unfold Viewer.ref
    rw [mapFind_of_mem v.meshes name r hmap hmem]
  · intro n hn
    simp [Viewer.clear] at hn

end Nsc
